import Mathlib

set_option maxHeartbeats 1000000

/-!
A verification development for the structural diff/patch engine in `src/Diff.ts`.

The engine is shallowly embedded:

* `JSVal` models the JavaScript runtime values the differ manipulates.
  Finite numbers other than `-0` are modelled by their integer value
  (`num`), because every comparison the engine performs on numbers
  (`Object.is` and `===`) is plain value equality away from `NaN` and
  `-0`; those two get dedicated constructors so that the engine's
  equality subtleties are represented exactly.  Object fields are an
  insertion-ordered association list (the keys appearing in the claims
  are never integer-like, so JavaScript's own-property order coincides
  with insertion order).
* `Op` / `NestedOp` mirror the two operation types of the source
  (`Add`/`Remove` exist only at child level, exactly as in the source).
* `go` mirrors the differ compiler.  The lazy `f()` thunk of a
  self-referential schema is modelled by an index into an environment
  of shape descriptors, and compilation carries explicit fuel that is
  consumed exactly when a `Lazy` node is unfolded — the source
  re-enters `go(ast.f())` eagerly, so a cyclic descriptor consumes
  every amount of fuel (this is what the termination claim is about).
* `===` on reference values (objects/arrays) is reference identity and
  is not determined by the structure of the two values, so it cannot be
  captured by a shallow embedding; accordingly the conformance
  predicate restricts the shapes that compare values with `===`
  (every leaf except `number`) to primitive values, where `===` is
  value equality.  `strictEq` returns `false` on reference values and
  that branch is never reached from a conformant value.
-/

namespace Diff

/-- A JavaScript property key: a string or a symbol (symbols are
identified by a number; only their identity matters to the engine). -/
inductive PropKey where
  | str (s : String)
  | sym (id : Nat)
deriving DecidableEq, Repr

/-- JavaScript runtime values, as far as the diff engine observes them. -/
inductive JSVal where
  | nan
  | negZero
  | num (n : Int)
  | str (s : String)
  | boolean (b : Bool)
  | undef
  | obj (fields : List (PropKey × JSVal))
  | arr (elems : List JSVal)
deriving Repr

/-- Custom induction principle for the nested inductive `JSVal`. -/
theorem JSVal.myInductV (P : JSVal → Prop)
    (hnan : P .nan) (hneg : P .negZero) (hnum : ∀ n, P (.num n))
    (hstr : ∀ s, P (.str s)) (hbool : ∀ b, P (.boolean b)) (hundef : P .undef)
    (hobj : ∀ fs, (∀ p ∈ fs, P p.2) → P (.obj fs))
    (harr : ∀ xs, (∀ x ∈ xs, P x) → P (.arr xs)) : ∀ v, P v
  | .nan => hnan
  | .negZero => hneg
  | .num n => hnum n
  | .str s => hstr s
  | .boolean b => hbool b
  | .undef => hundef
  | .obj fs => hobj fs (fun p hp =>
      JSVal.myInductV P hnan hneg hnum hstr hbool hundef hobj harr p.2)
  | .arr xs => harr xs (fun x hx =>
      JSVal.myInductV P hnan hneg hnum hstr hbool hundef hobj harr x)
termination_by v => sizeOf v
decreasing_by
  · have h := List.sizeOf_lt_of_mem hp
    cases p with
    | mk a b => simp at h ⊢; omega
  · have h := List.sizeOf_lt_of_mem hx
    simp; omega

/- Model of `Object.is` (SameValue).  On the values that ever reach it
in the engine (the `number` leaf differ) SameValue is plain value
equality with `NaN` equal to itself and `-0` distinct from `0`, which is
exactly constructor equality of `JSVal`; on reference values SameValue
is reference identity, modelled here structurally (the branch is never
reached from a value conforming to the `number` shape). -/
mutual

/-- Model of `Object.is` (SameValue); see the comment above. -/
def objectIs : JSVal → JSVal → Bool
  | .nan, .nan => true
  | .negZero, .negZero => true
  | .num n, .num m => n == m
  | .str s, .str t => s == t
  | .boolean a, .boolean b => a == b
  | .undef, .undef => true
  | .obj fs, .obj gs => objectIsFields fs gs
  | .arr xs, .arr ys => objectIsElems xs ys
  | _, _ => false

/-- Pairwise `objectIs` on object field lists. -/
def objectIsFields : List (PropKey × JSVal) → List (PropKey × JSVal) → Bool
  | [], [] => true
  | (k, v) :: fs, (l, w) :: gs => k == l && objectIs v w && objectIsFields fs gs
  | _, _ => false

/-- Pairwise `objectIs` on array element lists. -/
def objectIsElems : List JSVal → List JSVal → Bool
  | [], [] => true
  | x :: xs, y :: ys => objectIs x y && objectIsElems xs ys
  | _, _ => false

end

/-- `true` on every value except objects and arrays. -/
def isPrimitive : JSVal → Bool
  | .obj _ => false
  | .arr _ => false
  | _ => true

/-- Model of `===` (strict equality).  On primitives it is value
equality except that `NaN === NaN` is `false` and `0 === -0` is `true`.
On reference values `===` is reference identity, which is not a function
of the structure of independently constructed values; the engine only
applies `===` at leaves whose conformant values this development
restricts to primitives, so the reference branch (returning `false`
here) is never exercised by any theorem below. -/
def strictEq : JSVal → JSVal → Bool
  | .nan, _ => false
  | _, .nan => false
  | .negZero, .negZero => true
  | .negZero, .num n => n == 0
  | .num n, .negZero => n == 0
  | .num n, .num m => n == m
  | .str s, .str t => s == t
  | .boolean a, .boolean b => a == b
  | .undef, .undef => true
  | _, _ => false

/-- First-match association-list lookup; with a `PropKey` key it models
reading an own property of a JavaScript object. -/
def lookupKey {κ α : Type} [DecidableEq κ] : List (κ × α) → κ → Option α
  | [], _ => none
  | (k, v) :: fs, key => if k = key then some v else lookupKey fs key

/-- `lookupKey` on object field lists. -/
abbrev lookupField (fs : List (PropKey × JSVal)) (key : PropKey) : Option JSVal :=
  lookupKey fs key

/-- The field list of a value (`[]` for non-objects). -/
def asFields : JSVal → List (PropKey × JSVal)
  | .obj fs => fs
  | _ => []

/-- The element list of a value (`[]` for non-arrays). -/
def asElems : JSVal → List JSVal
  | .arr xs => xs
  | _ => []

/-- Model of `Object.prototype.hasOwnProperty.call(v, key)`. -/
def hasOwn (v : JSVal) (key : PropKey) : Bool :=
  (lookupField (asFields v) key).isSome

/-- Model of `v[key]` (`undefined` when the property is absent). -/
def getProp (v : JSVal) (key : PropKey) : JSVal :=
  ((lookupField (asFields v) key).getD .undef)

/-- Model of `out[key] = val`: update in place if present (JavaScript
keeps the original insertion position), else append. -/
def setField : List (PropKey × JSVal) → PropKey → JSVal → List (PropKey × JSVal)
  | [], key, val => [(key, val)]
  | (k, v) :: fs, key, val =>
    if k = key then (k, val) :: fs else (k, v) :: setField fs key val

/-- Model of `delete out[key]`. -/
def delField : List (PropKey × JSVal) → PropKey → List (PropKey × JSVal)
  | [], _ => []
  | (k, v) :: fs, key =>
    if k = key then delField fs key else (k, v) :: delField fs key

/-- Is some field of the list keyed by `key`? -/
def hasKey (fs : List (PropKey × JSVal)) (key : PropKey) : Bool :=
  (lookupField fs key).isSome

/-- Model of `a[i]` on arrays (`undefined` out of bounds). -/
def arrGet (v : JSVal) (i : Nat) : JSVal :=
  ((asElems v).getD i .undef)

/-- Model of `out[i] = val` on arrays; an out-of-bounds write pads with
holes, which read back as `undefined`. -/
def arrSet (xs : List JSVal) (i : Nat) (val : JSVal) : List JSVal :=
  if i < xs.length then xs.set i val
  else xs ++ List.replicate (i - xs.length) .undef ++ [val]

/-- Model of `out.splice(i, 0, val)` (insert before `i`, clamped). -/
def spliceInsert (xs : List JSVal) (i : Nat) (val : JSVal) : List JSVal :=
  xs.take i ++ val :: xs.drop i

/-- Model of `out.splice(i, 1)` (remove the element at `i`, if any). -/
def spliceRemove (xs : List JSVal) (i : Nat) : List JSVal :=
  xs.take i ++ xs.drop (i + 1)

/-- `objectIsFields` decides equality of field lists, granted that
`objectIs` decides equality of the member values. -/
theorem objectIsFields_eq_true_iff
    (fs : List (PropKey × JSVal))
    (h : ∀ p ∈ fs, ∀ w, objectIs p.2 w = true ↔ p.2 = w) :
    ∀ gs, objectIsFields fs gs = true ↔ fs = gs := by
  induction fs with
  | nil => intro gs; cases gs <;> simp [objectIsFields]
  | cons p fs ih =>
    intro gs
    cases gs with
    | nil => cases p; simp [objectIsFields]
    | cons q gs =>
      cases p with
      | mk k v =>
        cases q with
        | mk l w =>
          have hv := h (k, v) (by simp) w
          have hrest := ih (fun p hp w => h p (by simp [hp]) w) gs
          simp [objectIsFields, hv, hrest, and_assoc]

/-- `objectIsElems` decides equality of element lists, granted that
`objectIs` decides equality of the members. -/
theorem objectIsElems_eq_true_iff
    (xs : List JSVal)
    (h : ∀ x ∈ xs, ∀ w, objectIs x w = true ↔ x = w) :
    ∀ ys, objectIsElems xs ys = true ↔ xs = ys := by
  induction xs with
  | nil => intro ys; cases ys <;> simp [objectIsElems]
  | cons x xs ih =>
    intro ys
    cases ys with
    | nil => simp [objectIsElems]
    | cons y ys =>
      have hx := h x (by simp) y
      have hrest := ih (fun x hx w => h x (by simp [hx]) w) ys
      simp [objectIsElems, hx, hrest]

/-- `Object.is`, as modelled, coincides with structural equality of
`JSVal` (SameValue semantics: `NaN` equal to itself, `-0` distinct
from `0`). -/
theorem objectIs_eq_true_iff : ∀ a b : JSVal, objectIs a b = true ↔ a = b := by
  intro a
  induction a using JSVal.myInductV with
  | hnan => intro b; cases b <;> simp [objectIs]
  | hneg => intro b; cases b <;> simp [objectIs]
  | hnum n => intro b; cases b <;> simp [objectIs]
  | hstr s => intro b; cases b <;> simp [objectIs]
  | hbool x => intro b; cases b <;> simp [objectIs]
  | hundef => intro b; cases b <;> simp [objectIs]
  | hobj fs ih =>
    intro b
    cases b <;> simp [objectIs]
    exact objectIsFields_eq_true_iff fs ih _
  | harr xs ih =>
    intro b
    cases b <;> simp [objectIs]
    exact objectIsElems_eq_true_iff xs ih _

instance : DecidableEq JSVal := fun a b =>
  decidable_of_iff (objectIs a b = true) (objectIs_eq_true_iff a b)

/-- The child-level operation language (`NestedOp` in the source):
`Add`/`Remove` exist only at this level. -/
inductive NestedOp where
  | replace (src dst : JSVal)
  | add (value : JSVal)
  | remove (value : JSVal)
  | objectOps (ops : List (PropKey × NestedOp))
  | arrayOps (ops : List (Nat × NestedOp))

/-- The root operation language (`Op` in the source): a root is never
an `Add`/`Remove`. -/
inductive Op where
  | identical
  | replace (src dst : JSVal)
  | objectOps (ops : List (PropKey × NestedOp))
  | arrayOps (ops : List (Nat × NestedOp))

/-- Custom induction principle for the nested inductive `NestedOp`. -/
theorem NestedOp.myInductN (P : NestedOp → Prop)
    (hrep : ∀ s d, P (.replace s d)) (hadd : ∀ v, P (.add v))
    (hrem : ∀ v, P (.remove v))
    (hobj : ∀ ops, (∀ p ∈ ops, P p.2) → P (.objectOps ops))
    (harr : ∀ ops, (∀ p ∈ ops, P p.2) → P (.arrayOps ops)) : ∀ op, P op
  | .replace s d => hrep s d
  | .add v => hadd v
  | .remove v => hrem v
  | .objectOps ops => hobj ops (fun p hp =>
      NestedOp.myInductN P hrep hadd hrem hobj harr p.2)
  | .arrayOps ops => harr ops (fun p hp =>
      NestedOp.myInductN P hrep hadd hrem hobj harr p.2)
termination_by op => sizeOf op
decreasing_by
  all_goals
    have h := List.sizeOf_lt_of_mem hp
    cases p with
    | mk a b => simp at h ⊢; omega

/-- `isIdentical` from the source. -/
def isIdentical : Op → Bool
  | .identical => true
  | _ => false

mutual

/-- `reverseNestedOp` from the source. -/
def reverseNestedOp : NestedOp → NestedOp
  | .replace s d => .replace d s
  | .add v => .remove v
  | .remove v => .add v
  | .objectOps ops => .objectOps (reverseEntriesK ops)
  | .arrayOps ops => .arrayOps (reverseEntriesI ops)

/-- `reverseObjectOps` entry map from the source (`mapNonEmpty`). -/
def reverseEntriesK : List (PropKey × NestedOp) → List (PropKey × NestedOp)
  | [] => []
  | (k, op) :: rest => (k, reverseNestedOp op) :: reverseEntriesK rest

/-- `reverseArrayOps` entry map from the source (`mapNonEmpty`). -/
def reverseEntriesI : List (Nat × NestedOp) → List (Nat × NestedOp)
  | [] => []
  | (i, op) :: rest => (i, reverseNestedOp op) :: reverseEntriesI rest

end

/-- `reverseOp` from the source. -/
def reverseOp : Op → Op
  | .identical => .identical
  | .replace s d => .replace d s
  | .objectOps ops => .objectOps (reverseEntriesK ops)
  | .arrayOps ops => .arrayOps (reverseEntriesI ops)

/-- `Patch<A>`: a typed wrapper around the operation tree. -/
structure Patch where
  op : Op

/-- `make` from the source. -/
def make (op : Op) : Patch := ⟨op⟩

/-- `reverse` from the source. -/
def reverse (patch : Patch) : Patch := make (reverseOp patch.op)

/-- The source stores a `NestedOp` whose tag is
`Replace | ObjectOps | ArrayOps` where an `Op` is expected, relying on
TypeScript structural subtyping; this is that coercion.  The
`add`/`remove` cases are never exercised: every caller dispatches on
those tags before coercing. -/
def NestedOp.asOp : NestedOp → Op
  | .replace s d => .replace s d
  | .objectOps ops => .objectOps ops
  | .arrayOps ops => .arrayOps ops
  | .add _ => .identical
  | .remove _ => .identical

/-- The converse structural-subtyping coercion: an `Op` other than
`Identical` is a valid `NestedOp`.  The `identical` case is never
exercised: every caller filters `Identical` before coercing. -/
def Op.asNested : Op → NestedOp
  | .replace s d => .replace s d
  | .objectOps ops => .objectOps ops
  | .arrayOps ops => .arrayOps ops
  | .identical => .replace .undef .undef

theorem sizeOf_asOp (op : NestedOp) : sizeOf op.asOp ≤ sizeOf op := by
  cases op <;> simp [NestedOp.asOp]

mutual

/-- `runOp` from the source. -/
def runOp : Op → JSVal → JSVal
  | .identical, a => a
  | .replace _ dst, _ => dst
  | .objectOps ops, a => .obj (runObjOps a ops (asFields a))
  | .arrayOps ops, a => .arr (runArrOps a ops (asElems a))
termination_by op a => (sizeOf op, 0)
decreasing_by
  all_goals (simp; try omega)

/-- The `ObjectOps` loop of `runOp`: `out` starts as `{...a}` and each
entry mutates it in list order. -/
def runObjOps (a : JSVal) :
    List (PropKey × NestedOp) → List (PropKey × JSVal) → List (PropKey × JSVal)
  | [], out => out
  | (name, subop) :: rest, out => runObjOps a rest (runObjStep a out name subop)
termination_by ents out => (sizeOf ents, 0)
decreasing_by
  all_goals (simp; try omega)

/-- One `ObjectOps` entry of `runOp`: `Replace`/`ObjectOps`/`ArrayOps`
assign `runOp(subop)(a[name])` (the recursive read comes from the
original input `a`, and the `NestedOp` is passed where an `Op` is
expected via structural subtyping, modelled by `asOp`); `Add` assigns
the carried value; `Remove` deletes the key. -/
def runObjStep (a : JSVal) (out : List (PropKey × JSVal)) (name : PropKey) :
    NestedOp → List (PropKey × JSVal)
  | .add v => setField out name v
  | .remove _ => delField out name
  | .replace s d =>
    setField out name (runOp (NestedOp.replace s d).asOp (getProp a name))
  | .objectOps ops =>
    setField out name (runOp (NestedOp.objectOps ops).asOp (getProp a name))
  | .arrayOps ops =>
    setField out name (runOp (NestedOp.arrayOps ops).asOp (getProp a name))
termination_by subop => (sizeOf subop, 1)
decreasing_by
  all_goals (simp [NestedOp.asOp]; try omega)

/-- The `ArrayOps` loop of `runOp`: `out` starts as `a.slice()` and
each entry mutates it in list order. -/
def runArrOps (a : JSVal) :
    List (Nat × NestedOp) → List JSVal → List JSVal
  | [], out => out
  | (index, subop) :: rest, out => runArrOps a rest (runArrStep a out index subop)
termination_by ents out => (sizeOf ents, 0)
decreasing_by
  all_goals (simp; try omega)

/-- One `ArrayOps` entry of `runOp`: `Replace`/`ObjectOps`/`ArrayOps`
assign at `index` (reading `a[index]` from the original input);
`Add` is `out.splice(index, 0, value)`; `Remove` is
`out.splice(index, 1)`. -/
def runArrStep (a : JSVal) (out : List JSVal) (index : Nat) :
    NestedOp → List JSVal
  | .add v => spliceInsert out index v
  | .remove _ => spliceRemove out index
  | .replace s d =>
    arrSet out index (runOp (NestedOp.replace s d).asOp (arrGet a index))
  | .objectOps ops =>
    arrSet out index (runOp (NestedOp.objectOps ops).asOp (arrGet a index))
  | .arrayOps ops =>
    arrSet out index (runOp (NestedOp.arrayOps ops).asOp (arrGet a index))
termination_by subop => (sizeOf subop, 1)
decreasing_by
  all_goals (simp [NestedOp.asOp]; try omega)

end

/-- `runPatch` from the source. -/
def runPatch (patch : Patch) : JSVal → JSVal := runOp patch.op

/-- The parameter of an index signature (`S.record(S.string, ·)` or
`S.record(S.symbol, ·)`). -/
inductive SigParam where
  | strParam
  | symParam
deriving DecidableEq, Repr

/-- The shape descriptors (`AST.AST`) the differ compiler walks.  The
`Lazy` node's `f()` thunk is modelled by an index into an environment
of descriptors.  The source treats every leaf tag other than
`NumberKeyword` (`Literal`, `Union`, `Transform`, `StringKeyword`, …)
with one shared `===` comparator branch; `stringKeyword`,
`booleanKeyword` and `unknownKeyword` here are representatives of that
group. -/
inductive AST where
  | numberKeyword
  | stringKeyword
  | booleanKeyword
  | unknownKeyword
  | refinement (base : AST)
  | lazyRef (i : Nat)
  | tuple (elements : List AST)
  | typeLiteral (props : List (PropKey × AST)) (isigs : List (SigParam × AST))

/-- Custom induction principle for the nested inductive `AST`. -/
theorem AST.myInductA (P : AST → Prop)
    (hnum : P .numberKeyword) (hstr : P .stringKeyword)
    (hbool : P .booleanKeyword) (hunk : P .unknownKeyword)
    (href : ∀ base, P base → P (.refinement base))
    (hlazy : ∀ i, P (.lazyRef i))
    (htup : ∀ es, (∀ a ∈ es, P a) → P (.tuple es))
    (hlit : ∀ props isigs, (∀ p ∈ props, P p.2) → (∀ s ∈ isigs, P s.2) →
      P (.typeLiteral props isigs)) : ∀ ast, P ast
  | .numberKeyword => hnum
  | .stringKeyword => hstr
  | .booleanKeyword => hbool
  | .unknownKeyword => hunk
  | .refinement base => href base
      (AST.myInductA P hnum hstr hbool hunk href hlazy htup hlit base)
  | .lazyRef i => hlazy i
  | .tuple es => htup es (fun a ha =>
      AST.myInductA P hnum hstr hbool hunk href hlazy htup hlit a)
  | .typeLiteral props isigs => hlit props isigs
      (fun p hp => AST.myInductA P hnum hstr hbool hunk href hlazy htup hlit p.2)
      (fun s hs => AST.myInductA P hnum hstr hbool hunk href hlazy htup hlit s.2)
termination_by ast => sizeOf ast
decreasing_by
  all_goals
    first
      | (have h := List.sizeOf_lt_of_mem ha; simp; omega)
      | (have h := List.sizeOf_lt_of_mem hp; cases p with
          | mk a b => simp at h ⊢; omega)
      | (have h := List.sizeOf_lt_of_mem hs; cases s with
          | mk a b => simp at h ⊢; omega)
      | (simp; try omega)

/-- A compiled differ: `Differ<A>` from the source. -/
abbrev Differ := JSVal → JSVal → Patch

/-- `isNonEmptyReadonlyArray(ops) ? objectOps(ops) : identical`. -/
def mkObjOp : List (PropKey × NestedOp) → Op
  | [] => .identical
  | ops => .objectOps ops

/-- `isNonEmptyReadonlyArray(ops) ? arrayOps(ops) : identical`. -/
def mkArrOp : List (Nat × NestedOp) → Op
  | [] => .identical
  | ops => .arrayOps ops

/-- The shared leaf comparator branch of `go` for every leaf tag other
than `NumberKeyword`: `===`, else `Replace`. -/
def leafStrictDiffer : Differ := fun f t =>
  make (if strictEq f t then .identical else .replace f t)

/-- The element loop of the `Tuple` case of `go`: position `i` is
compared as `from[i]` versus `to[i]` and non-identical results are
pushed as `(i, op)`. -/
def diffElemsAux (ds : List Differ) (f t : JSVal) (i : Nat) :
    List (Nat × NestedOp) :=
  match ds with
  | [] => []
  | d :: ds =>
    (if isIdentical (d (arrGet f i) (arrGet t i)).op then []
     else [(i, ((d (arrGet f i) (arrGet t i)).op).asNested)]) ++
    diffElemsAux ds f t (i + 1)

/-- The `Tuple` case closure of `go`. -/
def tupleDiffer (ds : List Differ) : Differ := fun f t =>
  make (mkArrOp (diffElemsAux ds f t 0))

/-- The property-signature loop of the `TypeLiteral` case of `go`. -/
def diffFields (fields : List (PropKey × Differ)) (f t : JSVal) :
    List (PropKey × NestedOp) :=
  match fields with
  | [] => []
  | (name, d) :: rest =>
    (if hasOwn f name then
      if hasOwn t name then
        (if isIdentical (d (getProp f name) (getProp t name)).op then []
         else [(name, ((d (getProp f name) (getProp t name)).op).asNested)])
      else [(name, .remove (getProp f name))]
     else if hasOwn t name then [(name, .add (getProp t name))] else []) ++
    diffFields rest f t

/-- Does a property key match an index-signature parameter?  (Model of
the key-kind filtering performed by `getKeysForIndexSignature`.) -/
def keyMatches : PropKey → SigParam → Bool
  | .str _, .strParam => true
  | .sym _, .symParam => true
  | _, _ => false

/-- Model of `getKeysForIndexSignature`: the own keys of `v` of the
parameter's kind, in property order. -/
def keysMatching (v : JSVal) (param : SigParam) : List PropKey :=
  ((asFields v).map Prod.fst).filter (fun k => keyMatches k param)

/-- The entry the index-signature loop records for a key of `from`
(declared names skipped, diff recursively when also in `to`, else
`Remove`). -/
def diffSigFromEntry (d : Differ) (expected : List PropKey) (f t : JSVal)
    (name : PropKey) : List (PropKey × NestedOp) :=
  if name ∈ expected then []
  else if hasOwn t name then
    (if isIdentical ((d (getProp f name) (getProp t name)).op) then []
     else [(name, ((d (getProp f name) (getProp t name)).op).asNested)])
  else [(name, NestedOp.remove (getProp f name))]

/-- The entry the index-signature loop records for a key of `to`
(declared names skipped, `Add` when the key is fresh). -/
def diffSigToEntry (expected : List PropKey) (f t : JSVal)
    (name : PropKey) : List (PropKey × NestedOp) :=
  if name ∈ expected then []
  else if hasOwn f name then []
  else [(name, NestedOp.add (getProp t name))]

/-- One iteration of the index-signature loop of the `TypeLiteral` case
of `go`: keys of `from`, then fresh keys of `to`, declared names
skipped. -/
def diffSigOne (param : SigParam) (d : Differ) (expected : List PropKey)
    (f t : JSVal) : List (PropKey × NestedOp) :=
  ((keysMatching f param).map (diffSigFromEntry d expected f t)).flatten ++
  ((keysMatching t param).map (diffSigToEntry expected f t)).flatten

/-- The whole index-signature phase of the `TypeLiteral` case. -/
def diffSigs (sigs : List (SigParam × Differ)) (expected : List PropKey)
    (f t : JSVal) : List (PropKey × NestedOp) :=
  match sigs with
  | [] => []
  | (param, d) :: rest =>
    diffSigOne param d expected f t ++ diffSigs rest expected f t

/-- The `TypeLiteral` case closure of `go`. -/
def structDiffer (fields : List (PropKey × Differ))
    (sigs : List (SigParam × Differ)) (expected : List PropKey) : Differ :=
  fun f t => make (mkObjOp (diffFields fields f t ++ diffSigs sigs expected f t))

mutual

/-- `go` from the source, the differ compiler.  `fuel` bounds how often
a `Lazy` node may be unfolded: the source re-enters `go(ast.f())`
eagerly with no memoization, so unfolding is the one place recursion is
not structural; `none` means compilation did not complete within
`fuel` unfoldings (the source would still be recursing). -/
def go (env : List AST) (fuel : Nat) : AST → Option Differ
  | .numberKeyword =>
    some (fun f t => make (if objectIs f t then .identical else .replace f t))
  | .stringKeyword => some leafStrictDiffer
  | .booleanKeyword => some leafStrictDiffer
  | .unknownKeyword => some leafStrictDiffer
  | .refinement base => go env fuel base
  | .lazyRef i =>
    match fuel with
    | 0 => none
    | n + 1 =>
      match env[i]? with
      | some a => go env n a
      | none => none
  | .tuple es =>
    match goElems env fuel es with
    | some ds => some (tupleDiffer ds)
    | none => none
  | .typeLiteral props isigs =>
    match goProps env fuel props, goSigs env fuel isigs with
    | some fields, some sigs =>
      some (structDiffer fields sigs (props.map Prod.fst))
    | _, _ => none

/-- `ast.elements.map((e) => go(e.type))`. -/
def goElems (env : List AST) (fuel : Nat) : List AST → Option (List Differ)
  | [] => some []
  | a :: rest =>
    match go env fuel a, goElems env fuel rest with
    | some d, some ds => some (d :: ds)
    | _, _ => none

/-- `ast.propertySignatures.map((ps) => go(ps.type))`, keeping names. -/
def goProps (env : List AST) (fuel : Nat) :
    List (PropKey × AST) → Option (List (PropKey × Differ))
  | [] => some []
  | (k, a) :: rest =>
    match go env fuel a, goProps env fuel rest with
    | some d, some ds => some ((k, d) :: ds)
    | _, _ => none

/-- `ast.indexSignatures.map((is) => go(is.type))`, keeping parameters. -/
def goSigs (env : List AST) (fuel : Nat) :
    List (SigParam × AST) → Option (List (SigParam × Differ))
  | [] => some []
  | (p, a) :: rest =>
    match go env fuel a, goSigs env fuel rest with
    | some d, some ds => some ((p, d) :: ds)
    | _, _ => none

end

/-- `fromSchema` from the source: the schema wrapper only extracts the
shape descriptor, so the model takes the descriptor (and the lazy-node
environment plus unfolding fuel) directly. -/
def fromSchema (env : List AST) (fuel : Nat) (ast : AST) : Option Differ :=
  go env fuel ast

/-- Are the keys of a field list pairwise distinct?  (JavaScript object
field lists always are.) -/
def nodupKeys : List (PropKey × JSVal) → Bool
  | [] => true
  | (k, _) :: fs => !(hasKey fs k) && nodupKeys fs

mutual

/-- Does the value contain no `-0` anywhere? -/
def noNegZero : JSVal → Bool
  | .negZero => false
  | .obj fs => noNegZeroFields fs
  | .arr xs => noNegZeroElems xs
  | _ => true

/-- `noNegZero` over object field lists. -/
def noNegZeroFields : List (PropKey × JSVal) → Bool
  | [] => true
  | p :: fs => noNegZero p.2 && noNegZeroFields fs

/-- `noNegZero` over array element lists. -/
def noNegZeroElems : List JSVal → Bool
  | [] => true
  | x :: xs => noNegZero x && noNegZeroElems xs

end

mutual

/-- Does the value contain no `NaN` anywhere? -/
def noNaN : JSVal → Bool
  | .nan => false
  | .obj fs => noNaNFields fs
  | .arr xs => noNaNElems xs
  | _ => true

/-- `noNaN` over object field lists. -/
def noNaNFields : List (PropKey × JSVal) → Bool
  | [] => true
  | p :: fs => noNaN p.2 && noNaNFields fs

/-- `noNaN` over array element lists. -/
def noNaNElems : List JSVal → Bool
  | [] => true
  | x :: xs => noNaN x && noNaNElems xs

end

mutual

/-- Are all object field lists inside the value duplicate-key free?
Values produced by decoding a schema always are: a JavaScript object
cannot carry the same own key twice. -/
def wfVal : JSVal → Bool
  | .obj fs => nodupKeys fs && wfValFields fs
  | .arr xs => wfValElems xs
  | _ => true

/-- `wfVal` over object field lists. -/
def wfValFields : List (PropKey × JSVal) → Bool
  | [] => true
  | p :: fs => wfVal p.2 && wfValFields fs

/-- `wfVal` over array element lists. -/
def wfValElems : List JSVal → Bool
  | [] => true
  | x :: xs => wfVal x && wfValElems xs

end

/-- Every key of `gs` also keys a field of `fs`. -/
def keysIncl (gs fs : List (PropKey × JSVal)) : Bool :=
  gs.all (fun q => hasKey fs q.1)

/- Structural equality of values, in the sense in which the
specification compares a patched value with the target: object fields
are compared as key-value maps (JavaScript enumeration order is not
observable through deep equality), arrays pointwise, and leaves with
SameValue semantics — `NaN` structurally equals `NaN` and `-0` is
distinct from `0`, matching the identity-style equality the
specification adopts for the engine. -/
mutual

/-- Structural (deep, order-insensitive) equality; see above. -/
def sEq : JSVal → JSVal → Bool
  | .obj fs, .obj gs => sEqFieldsIn fs gs && keysIncl gs fs
  | .arr xs, .arr ys => sEqElems xs ys
  | a, b => objectIs a b

/-- Every field of the first list structurally matches the
corresponding field of the second. -/
def sEqFieldsIn : List (PropKey × JSVal) → List (PropKey × JSVal) → Bool
  | [], _ => true
  | p :: fs, gs =>
    (match lookupField gs p.1 with
     | some w => sEq p.2 w
     | none => false) && sEqFieldsIn fs gs

/-- Pointwise structural equality of element lists. -/
def sEqElems : List JSVal → List JSVal → Bool
  | [], [] => true
  | x :: xs, y :: ys => sEq x y && sEqElems xs ys
  | _, _ => false

end

mutual

/-- Does a value conform to a shape?  This is the model of "`from` and
`to` are values of the shape the differ was compiled for".  For the
leaves compared with `===` (every modelled leaf except `number`) the
value is required to be primitive — on reference values `===` is
reference identity, which a structural model cannot decide, see the
header comment.  `fuel` bounds `Lazy` unfoldings exactly as in `go`. -/
def conformsB (env : List AST) (fuel : Nat) : AST → JSVal → Bool
  | .numberKeyword, v =>
    (match v with
     | .nan | .negZero | .num _ => true
     | _ => false)
  | .stringKeyword, v =>
    (match v with
     | .str _ => true
     | _ => false)
  | .booleanKeyword, v =>
    (match v with
     | .boolean _ => true
     | _ => false)
  | .unknownKeyword, v => isPrimitive v
  | .refinement base, v => conformsB env fuel base v
  | .lazyRef i, v =>
    match fuel with
    | 0 => false
    | n + 1 =>
      match env[i]? with
      | some a => conformsB env n a v
      | none => false
  | .tuple es, v =>
    match v with
    | .arr xs => conformsElems env fuel es xs
    | _ => false
  | .typeLiteral props isigs, v =>
    match v with
    | .obj fs =>
      nodupKeys fs && conformsProps env fuel props fs &&
        conformsExtra env fuel (props.map Prod.fst) isigs fs
    | _ => false
termination_by ast v => (fuel, sizeOf ast, 0)

/-- Fixed-arity element conformance: same length, pointwise. -/
def conformsElems (env : List AST) (fuel : Nat) :
    List AST → List JSVal → Bool
  | [], [] => true
  | a :: es, x :: xs => conformsB env fuel a x && conformsElems env fuel es xs
  | _, _ => false
termination_by es xs => (fuel, sizeOf es, 0)

/-- Each declared property that is present conforms to its type
(absent properties model optional fields). -/
def conformsProps (env : List AST) (fuel : Nat) :
    List (PropKey × AST) → List (PropKey × JSVal) → Bool
  | [], _ => true
  | (k, a) :: rest, fs =>
    (match lookupField fs k with
     | some v => conformsB env fuel a v
     | none => true) && conformsProps env fuel rest fs
termination_by props fs => (fuel, sizeOf props, 0)

/-- Does the field match some index signature (right key kind, value of
the signature's type)? -/
def fieldMatchesSome (env : List AST) (fuel : Nat) (key : PropKey)
    (v : JSVal) : List (SigParam × AST) → Bool
  | [] => false
  | (param, a) :: rest =>
    (keyMatches key param && conformsB env fuel a v) ||
      fieldMatchesSome env fuel key v rest
termination_by isigs => (fuel, sizeOf isigs, 0)

/-- Every non-declared field is covered by some index signature. -/
def conformsExtra (env : List AST) (fuel : Nat) (declared : List PropKey)
    (isigs : List (SigParam × AST)) : List (PropKey × JSVal) → Bool
  | [] => true
  | (k, v) :: fs =>
    (decide (k ∈ declared) || fieldMatchesSome env fuel k v isigs) &&
      conformsExtra env fuel declared isigs fs
termination_by fs => (fuel, sizeOf isigs, 1 + sizeOf fs)

end

/-- Pairwise-distinct property keys. -/
def nodupKeyList : List PropKey → Bool
  | [] => true
  | k :: ks => !(decide (k ∈ ks)) && nodupKeyList ks

/-- Pairwise-distinct index-signature parameters. -/
def nodupParamList : List SigParam → Bool
  | [] => true
  | p :: ps => !(decide (p ∈ ps)) && nodupParamList ps

mutual

/-- Well-formedness of a shape descriptor: declared property names are
pairwise distinct and index-signature parameters are pairwise distinct,
recursively.  Descriptors produced by the schema library always satisfy
this (TypeScript rejects duplicate property names and duplicate index
signatures); malformed descriptors are out of the engine's contract. -/
def wfB : AST → Bool
  | .refinement base => wfB base
  | .tuple es => wfElems es
  | .typeLiteral props isigs =>
    nodupKeyList (props.map Prod.fst) && nodupParamList (isigs.map Prod.fst) &&
      wfProps props && wfSigs isigs
  | _ => true

/-- `wfB` over tuple element descriptors. -/
def wfElems : List AST → Bool
  | [] => true
  | a :: es => wfB a && wfElems es

/-- `wfB` over declared property descriptors. -/
def wfProps : List (PropKey × AST) → Bool
  | [] => true
  | p :: ps => wfB p.2 && wfProps ps

/-- `wfB` over index-signature descriptors. -/
def wfSigs : List (SigParam × AST) → Bool
  | [] => true
  | s :: ss => wfB s.2 && wfSigs ss

end

/-- A well-formed environment of `Lazy` resolutions. -/
def wfEnv (env : List AST) : Bool := env.all wfB

/-- A single-character `replaceAll`: the source escapes pointer
segments with `s.replaceAll("~", "~0").replaceAll("/", "~1")`, and both
patterns are single characters, for which `replaceAll` is exactly a
character-wise substitution. -/
def replaceAllChar (pat : Char) (rep : List Char) : List Char → List Char
  | [] => []
  | c :: cs => (if c = pat then rep else [c]) ++ replaceAllChar pat rep cs

/-- The per-segment escaping of `pointer`:
`s.replaceAll("~", "~0").replaceAll("/", "~1")`. -/
def escapeSegment (s : String) : String :=
  String.mk (replaceAllChar '/' ['~', '1'] (replaceAllChar '~' ['~', '0'] s.toList))

/-- `pointer` from the source: RFC 6901 pointer rendering,
`path.map((s) => "/" + escaped s).join("")`. -/
def pointer (path : List String) : String :=
  String.join (path.map (fun s => "/" ++ escapeSegment s))

mutual

/-- Does a value validate against `S.json` with
`onExcessProperty: "error"`?  `undefined` is not JSON; a symbol key is
an excess property of the JSON record schema; `NaN` and `-0` are of
type `number` and pass (the source's own test lowers a `Replace` to
value `-0`). -/
def isJson : JSVal → Bool
  | .undef => false
  | .obj fs => isJsonFields fs
  | .arr xs => isJsonElems xs
  | _ => true

/-- `isJson` over object field lists (keys must be strings). -/
def isJsonFields : List (PropKey × JSVal) → Bool
  | [] => true
  | (k, v) :: fs =>
    (match k with
     | .str _ => true
     | .sym _ => false) && isJson v && isJsonFields fs

/-- `isJson` over array element lists. -/
def isJsonElems : List JSVal → Bool
  | [] => true
  | x :: xs => isJson x && isJsonElems xs

end

/-- `validateJson` from the source: `S.validate(S.json)` returns its
input when it validates and throws otherwise; the throw is modelled by
`Except.error`. -/
def validateJson (a : JSVal) : Except String JSVal :=
  if isJson a then .ok a else .error "not a JSON value"

/-- `validateString` from the source: a symbol key cannot be rendered
as a pointer segment. -/
def validateString : PropKey → Except String String
  | .str s => .ok s
  | .sym _ => .error "not a string key"

/-- The wire-format entries (`JSONPatch` in the source). -/
inductive JSONPatch where
  | add (path : String) (value : JSVal)
  | remove (path : String)
  | replace (path : String) (value : JSVal)
deriving DecidableEq, Repr

mutual

/-- The per-entry dispatch shared by the `objectOps`/`arrayOps` loops
of `getJSONPatch` (the source's `switch (op._tag)` after pushing the
key onto `path`). -/
def jpNested (path : List String) : NestedOp → Except String (List JSONPatch)
  | .replace _ dst => do
    let v ← validateJson dst
    pure [.replace (pointer path) v]
  | .add value => do
    let v ← validateJson value
    pure [.add (pointer path) v]
  | .remove _ => pure [.remove (pointer path)]
  | .objectOps ops => jpObjectOps path ops
  | .arrayOps ops => jpArrayOps path ops

/-- The `objectOps` loop of `getJSONPatch`: validate the key as a
string, push it, process the child, pop; a thrown validation error
aborts everything (`Either.liftThrowable`). -/
def jpObjectOps (path : List String) :
    List (PropKey × NestedOp) → Except String (List JSONPatch)
  | [] => pure []
  | (key, op) :: rest => do
    let s ← validateString key
    let here ← jpNested (path ++ [s]) op
    let there ← jpObjectOps path rest
    pure (here ++ there)

/-- The `arrayOps` loop of `getJSONPatch`: indexes stringify directly. -/
def jpArrayOps (path : List String) :
    List (Nat × NestedOp) → Except String (List JSONPatch)
  | [] => pure []
  | (key, op) :: rest => do
    let here ← jpNested (path ++ [toString key]) op
    let there ← jpArrayOps path rest
    pure (here ++ there)

end

/-- `getJSONPatch` from the source: lower an operation tree to a list
of RFC 6902 entries; any validation throw aborts the whole lowering
(`Either.liftThrowable` turns it into a `Left`). -/
def getJSONPatch : Op → Except String (List JSONPatch)
  | .identical => pure []
  | .replace _ dst => do
    let v ← validateJson dst
    pure [.replace (pointer []) v]
  | .objectOps ops => jpObjectOps [] ops
  | .arrayOps ops => jpArrayOps [] ops

/-- Is the key renderable as a pointer segment? -/
def isStrKey : PropKey → Bool
  | .str _ => true
  | .sym _ => false

mutual

/-- Spec-side failure condition of lowering: some object key placed on
the path is not a string, or some value emitted in an add/replace entry
is not JSON-representable. -/
def badNested : NestedOp → Bool
  | .replace _ dst => !(isJson dst)
  | .add v => !(isJson v)
  | .remove _ => false
  | .objectOps ops => badKeyEntries ops
  | .arrayOps ops => badIdxEntries ops

/-- `badNested` over object entries (also flags non-string keys). -/
def badKeyEntries : List (PropKey × NestedOp) → Bool
  | [] => false
  | (k, op) :: rest => !(isStrKey k) || badNested op || badKeyEntries rest

/-- `badNested` over array entries. -/
def badIdxEntries : List (Nat × NestedOp) → Bool
  | [] => false
  | (_, op) :: rest => badNested op || badIdxEntries rest

end

/-- Spec-side failure condition at the root. -/
def badOp : Op → Bool
  | .identical => false
  | .replace _ dst => !(isJson dst)
  | .objectOps ops => badKeyEntries ops
  | .arrayOps ops => badIdxEntries ops

/-- The string a key contributes to the pointer (only meaningful for
string keys; a tree containing a symbol key never lowers
successfully). -/
def keyToString : PropKey → String
  | .str s => s
  | .sym _ => ""

mutual

/-- Spec-side entry list of a successful lowering: the depth-first,
in-order sequence of add/remove/replace entries, without validation. -/
def entriesNested (path : List String) : NestedOp → List JSONPatch
  | .replace _ dst => [.replace (pointer path) dst]
  | .add v => [.add (pointer path) v]
  | .remove _ => [.remove (pointer path)]
  | .objectOps ops => entriesKey path ops
  | .arrayOps ops => entriesIdx path ops

/-- `entriesNested` over object entries. -/
def entriesKey (path : List String) : List (PropKey × NestedOp) → List JSONPatch
  | [] => []
  | (k, op) :: rest =>
    entriesNested (path ++ [keyToString k]) op ++ entriesKey path rest

/-- `entriesNested` over array entries. -/
def entriesIdx (path : List String) : List (Nat × NestedOp) → List JSONPatch
  | [] => []
  | (i, op) :: rest =>
    entriesNested (path ++ [toString i]) op ++ entriesIdx path rest

end

/-- Spec-side entry list at the root. -/
def entriesOp : Op → List JSONPatch
  | .identical => []
  | .replace _ dst => [.replace (pointer []) dst]
  | .objectOps ops => entriesKey [] ops
  | .arrayOps ops => entriesIdx [] ops

/-- The operation tree the compiled differ produces on a pair of
values (`differ(from, to).op`), when compilation completes. -/
def diffOp (env : List AST) (fuel : Nat) (ast : AST) (f t : JSVal) : Option Op :=
  (go env fuel ast).map (fun d => (d f t).op)

/-- `runPatch(differ(from, to))(from)`, when compilation completes. -/
def diffApply (env : List AST) (fuel : Nat) (ast : AST) (f t : JSVal) :
    Option JSVal :=
  (go env fuel ast).map (fun d => runPatch (d f t) f)

/-- `runPatch(reverse(differ(from, to)))(to)`, when compilation
completes. -/
def diffRevApply (env : List AST) (fuel : Nat) (ast : AST) (f t : JSVal) :
    Option JSVal :=
  (go env fuel ast).map (fun d => runPatch (reverse (d f t)) t)

/-- `getJSONPatch(differ(from, to).op)`, when compilation completes. -/
def diffLower (env : List AST) (fuel : Nat) (ast : AST) (f t : JSVal) :
    Option (Except String (List JSONPatch)) :=
  (go env fuel ast).map (fun d => getJSONPatch (d f t).op)

/-! ### Association-list lemmas -/

theorem lookupKey_mem {κ α : Type} [DecidableEq κ] :
    ∀ {l : List (κ × α)} {k : κ} {v : α}, lookupKey l k = some v → (k, v) ∈ l := by
  intro l
  induction l with
  | nil => intro k v h; simp [lookupKey] at h
  | cons p l ih =>
    intro k v h
    cases p with
    | mk k' v' =>
      rw [lookupKey] at h
      by_cases hk : k' = k
      · simp [hk] at h
        simp [hk, h]
      · simp [hk] at h
        exact List.mem_cons_of_mem _ (ih h)

theorem lookupKey_eq_of_mem_nodup {κ α : Type} [DecidableEq κ] :
    ∀ {l : List (κ × α)} {k : κ} {v : α}, (k, v) ∈ l →
      (l.map Prod.fst).Nodup → lookupKey l k = some v := by
  intro l
  induction l with
  | nil => intro k v h _; simp at h
  | cons p l ih =>
    intro k v h hnd
    cases p with
    | mk k' v' =>
      rw [List.map_cons] at hnd
      have hnd' := List.nodup_cons.mp hnd
      rw [lookupKey]
      by_cases hk : k' = k
      · subst hk
        rcases List.mem_cons.mp h with h1 | h1
        · rw [Prod.mk.injEq] at h1
          simp [h1.2]
        · exact absurd (List.mem_map_of_mem Prod.fst h1) hnd'.1
      · rcases List.mem_cons.mp h with h1 | h1
        · rw [Prod.mk.injEq] at h1
          exact absurd h1.1.symm hk
        · rw [if_neg hk]
          exact ih h1 hnd'.2

theorem lookupKey_isSome_iff {κ α : Type} [DecidableEq κ] :
    ∀ {l : List (κ × α)} {k : κ},
      (lookupKey l k).isSome = true ↔ k ∈ l.map Prod.fst := by
  intro l
  induction l with
  | nil => intro k; simp [lookupKey]
  | cons p l ih =>
    intro k
    cases p with
    | mk k' v' =>
      rw [lookupKey]
      by_cases hk : k' = k
      · simp [hk]
      · simp [hk, ih, Ne.symm hk]

theorem lookupKey_eq_none_iff {κ α : Type} [DecidableEq κ]
    {l : List (κ × α)} {k : κ} :
    lookupKey l k = none ↔ k ∉ l.map Prod.fst := by
  constructor
  · intro h hm
    rw [← lookupKey_isSome_iff] at hm
    rw [h] at hm
    simp at hm
  · intro hm
    cases h : lookupKey l k with
    | none => rfl
    | some v =>
      exfalso
      apply hm
      rw [← lookupKey_isSome_iff, h]
      rfl

theorem lookupField_setField (fs : List (PropKey × JSVal)) (k : PropKey)
    (v : JSVal) (k' : PropKey) :
    lookupField (setField fs k v) k' =
      if k' = k then some v else lookupField fs k' := by
  induction fs with
  | nil =>
    simp only [setField, lookupField, lookupKey]
    split_ifs <;> first | rfl | cc
  | cons p fs ih =>
    cases p with
    | mk k0 v0 =>
      simp only [lookupField] at ih
      by_cases h0 : k0 = k
      · subst h0
        rw [setField, if_pos rfl]
        simp only [lookupField, lookupKey]
        split_ifs <;> first | rfl | cc
      · rw [setField, if_neg h0]
        simp only [lookupField, lookupKey]
        rw [ih]
        split_ifs <;> first | rfl | cc
  
theorem lookupField_delField (fs : List (PropKey × JSVal)) (k : PropKey)
    (k' : PropKey) :
    lookupField (delField fs k) k' =
      if k' = k then none else lookupField fs k' := by
  induction fs with
  | nil =>
    simp only [delField, lookupField, lookupKey]
    split_ifs <;> rfl
  | cons p fs ih =>
    cases p with
    | mk k0 v0 =>
      simp only [lookupField] at ih
      by_cases h0 : k0 = k
      · subst h0
        rw [delField, if_pos rfl]
        simp only [lookupField, lookupKey]
        rw [ih]
        split_ifs <;> first | rfl | cc
      · rw [delField, if_neg h0]
        simp only [lookupField, lookupKey]
        rw [ih]
        split_ifs <;> first | rfl | cc

theorem map_fst_setField (fs : List (PropKey × JSVal)) (k : PropKey) (v : JSVal) :
    (setField fs k v).map Prod.fst =
      if k ∈ fs.map Prod.fst then fs.map Prod.fst else fs.map Prod.fst ++ [k] := by
  induction fs with
  | nil => simp [setField]
  | cons p fs ih =>
    cases p with
    | mk k0 v0 =>
      rw [setField]
      by_cases h0 : k0 = k
      · simp [h0]
      · simp only [List.map_cons, List.mem_cons]
        rw [if_neg h0]
        by_cases hm : k ∈ fs.map Prod.fst
        · simp [hm, ih, Ne.symm h0]
        · simp [hm, ih, Ne.symm h0, h0]

theorem map_fst_delField (fs : List (PropKey × JSVal)) (k : PropKey) :
    (delField fs k).map Prod.fst =
      (fs.map Prod.fst).filter (fun x => x ≠ k) := by
  induction fs with
  | nil => simp [delField]
  | cons p fs ih =>
    cases p with
    | mk k0 v0 =>
      rw [delField]
      by_cases h0 : k0 = k
      · simp [h0, ih]
      · simp [h0, ih, List.filter_cons]

theorem nodupKeys_iff : ∀ fs : List (PropKey × JSVal),
    nodupKeys fs = true ↔ (fs.map Prod.fst).Nodup := by
  intro fs
  induction fs with
  | nil => simp [nodupKeys]
  | cons p fs ih =>
    cases p with
    | mk k v =>
      rw [nodupKeys]
      simp only [hasKey, List.map_cons, List.nodup_cons, Bool.and_eq_true,
        Bool.not_eq_true']
      rw [← ih]
      constructor
      · intro h
        refine ⟨?_, h.2⟩
        intro hm
        rw [← lookupKey_isSome_iff (l := fs) (k := k)] at hm
        rw [lookupField] at h
        rw [h.1] at hm
        simp at hm
      · intro h
        refine ⟨?_, h.2⟩
        rw [lookupField]
        have : ¬ (lookupKey fs k).isSome = true := by
          rw [lookupKey_isSome_iff]
          exact h.1
        cases hl : lookupKey fs k
        · simp
        · rw [hl] at this; simp at this

/-! ### Predicate membership lemmas -/

theorem noNegZeroFields_iff : ∀ fs : List (PropKey × JSVal),
    noNegZeroFields fs = true ↔ ∀ p ∈ fs, noNegZero p.2 = true := by
  intro fs
  induction fs with
  | nil => simp [noNegZeroFields]
  | cons p fs ih => rw [noNegZeroFields]; simp [ih]

theorem noNegZeroElems_iff : ∀ xs : List JSVal,
    noNegZeroElems xs = true ↔ ∀ x ∈ xs, noNegZero x = true := by
  intro xs
  induction xs with
  | nil => simp [noNegZeroElems]
  | cons x xs ih => rw [noNegZeroElems]; simp [ih]

theorem noNaNFields_iff : ∀ fs : List (PropKey × JSVal),
    noNaNFields fs = true ↔ ∀ p ∈ fs, noNaN p.2 = true := by
  intro fs
  induction fs with
  | nil => simp [noNaNFields]
  | cons p fs ih => rw [noNaNFields]; simp [ih]

theorem noNaNElems_iff : ∀ xs : List JSVal,
    noNaNElems xs = true ↔ ∀ x ∈ xs, noNaN x = true := by
  intro xs
  induction xs with
  | nil => simp [noNaNElems]
  | cons x xs ih => rw [noNaNElems]; simp [ih]

theorem wfValFields_iff : ∀ fs : List (PropKey × JSVal),
    wfValFields fs = true ↔ ∀ p ∈ fs, wfVal p.2 = true := by
  intro fs
  induction fs with
  | nil => simp [wfValFields]
  | cons p fs ih => rw [wfValFields]; simp [ih]

theorem wfValElems_iff : ∀ xs : List JSVal,
    wfValElems xs = true ↔ ∀ x ∈ xs, wfVal x = true := by
  intro xs
  induction xs with
  | nil => simp [wfValElems]
  | cons x xs ih => rw [wfValElems]; simp [ih]

/-! ### Strict-equality lemmas -/

theorem strictEq_eq_of_true {a b : JSVal} (ha : isPrimitive a = true)
    (hnza : noNegZero a = true) (hnzb : noNegZero b = true)
    (h : strictEq a b = true) : a = b := by
  cases a <;> cases b <;> simp_all [strictEq, isPrimitive, noNegZero]

theorem strictEq_refl {a : JSVal} (ha : isPrimitive a = true)
    (hnn : noNaN a = true) : strictEq a a = true := by
  cases a <;> simp_all [strictEq, isPrimitive, noNaN]

/-! ### Structural-equality lemmas -/

/-- Option-level structural equality, used to compare per-key reads of
two objects. -/
def optSEq : Option JSVal → Option JSVal → Prop
  | some v, some w => sEq v w = true
  | none, none => True
  | _, _ => False

theorem sEqFieldsIn_of_forall :
    ∀ (l gs : List (PropKey × JSVal)),
      (∀ p ∈ l, ∃ w, lookupField gs p.1 = some w ∧ sEq p.2 w = true) →
      sEqFieldsIn l gs = true := by
  intro l gs
  induction l with
  | nil => intro _; rw [sEqFieldsIn]
  | cons p l ih =>
    intro h
    rcases h p (by simp) with ⟨w, hw, hsw⟩
    rw [sEqFieldsIn, hw]
    simp only [hsw, Bool.true_and]
    exact ih (fun q hq => h q (by simp [hq]))

theorem sEqFieldsIn_mem :
    ∀ (l gs : List (PropKey × JSVal)), sEqFieldsIn l gs = true →
      ∀ p ∈ l, ∃ w, lookupField gs p.1 = some w ∧ sEq p.2 w = true := by
  intro l gs
  induction l with
  | nil => intro _ p hp; simp at hp
  | cons q l ih =>
    intro h p hp
    rw [sEqFieldsIn, Bool.and_eq_true] at h
    rcases List.mem_cons.mp hp with h1 | h1
    · subst h1
      rcases hl : lookupField gs p.1 with _ | w
      · rw [hl] at h; simp at h
      · rw [hl] at h
        exact ⟨w, rfl, h.1⟩
    · exact ih h.2 p h1

theorem keysIncl_hasKey {gs fs : List (PropKey × JSVal)}
    (h : keysIncl gs fs = true) {p : PropKey × JSVal} (hp : p ∈ gs) :
    hasKey fs p.1 = true := by
  rw [keysIncl, List.all_eq_true] at h
  exact h p hp

theorem keysIncl_of_forall {gs fs : List (PropKey × JSVal)}
    (h : ∀ p ∈ gs, hasKey fs p.1 = true) : keysIncl gs fs = true := by
  rw [keysIncl, List.all_eq_true]
  exact h

theorem sEq_obj_iff (fs gs : List (PropKey × JSVal)) :
    sEq (.obj fs) (.obj gs) = true ↔
      (sEqFieldsIn fs gs = true ∧ keysIncl gs fs = true) := by
  rw [sEq, Bool.and_eq_true]

theorem sEq_arr_iff (xs ys : List JSVal) :
    sEq (.arr xs) (.arr ys) = true ↔ sEqElems xs ys = true := by
  rw [sEq]

theorem sEq_obj_of_lookup {fs gs : List (PropKey × JSVal)}
    (hnd : (fs.map Prod.fst).Nodup)
    (h : ∀ k, optSEq (lookupField fs k) (lookupField gs k)) :
    sEq (.obj fs) (.obj gs) = true := by
  rw [sEq_obj_iff]
  constructor
  · apply sEqFieldsIn_of_forall
    intro p hp
    have hl : lookupField fs p.1 = some p.2 := lookupKey_eq_of_mem_nodup hp hnd
    have := h p.1
    rw [hl] at this
    rcases hg : lookupField gs p.1 with _ | w
    · rw [hg] at this; exact absurd this (by simp [optSEq])
    · rw [hg] at this
      exact ⟨w, rfl, this⟩
  · apply keysIncl_of_forall
    intro p hp
    have hg : (lookupField gs p.1).isSome = true := by
      rw [lookupField, lookupKey_isSome_iff]
      exact List.mem_map_of_mem Prod.fst hp
    have := h p.1
    rcases hf : lookupField fs p.1 with _ | v
    · rw [hf] at this
      rcases hg2 : lookupField gs p.1 with _ | w
      · rw [hg2] at hg; simp at hg
      · rw [hg2] at this; exact absurd this (by simp [optSEq])
    · rw [hasKey, hf]
      rfl

theorem sEqElems_of_getD :
    ∀ (xs ys : List JSVal), xs.length = ys.length →
      (∀ j, j < xs.length → sEq (xs.getD j .undef) (ys.getD j .undef) = true) →
      sEqElems xs ys = true := by
  intro xs
  induction xs with
  | nil =>
    intro ys hlen _
    cases ys with
    | nil => simp [sEqElems]
    | cons y ys => simp at hlen
  | cons x xs ih =>
    intro ys hlen h
    cases ys with
    | nil => simp at hlen
    | cons y ys =>
      rw [sEqElems, Bool.and_eq_true]
      constructor
      · simpa using h 0 (by simp)
      · refine ih ys (by simpa using hlen) ?_
        intro j hj
        simpa using h (j + 1) (by simpa using Nat.succ_lt_succ hj)

theorem sEqElems_length :
    ∀ (xs ys : List JSVal), sEqElems xs ys = true → xs.length = ys.length := by
  intro xs
  induction xs with
  | nil =>
    intro ys h
    cases ys with
    | nil => rfl
    | cons y ys => simp [sEqElems] at h
  | cons x xs ih =>
    intro ys h
    cases ys with
    | nil => simp [sEqElems] at h
    | cons y ys =>
      rw [sEqElems, Bool.and_eq_true] at h
      simpa using ih ys h.2

theorem sEqElems_getD :
    ∀ (xs ys : List JSVal), sEqElems xs ys = true →
      ∀ j, j < xs.length → sEq (xs.getD j .undef) (ys.getD j .undef) = true := by
  intro xs
  induction xs with
  | nil => intro ys h j hj; simp at hj
  | cons x xs ih =>
    intro ys h j hj
    cases ys with
    | nil => simp [sEqElems] at h
    | cons y ys =>
      rw [sEqElems, Bool.and_eq_true] at h
      cases j with
      | zero => simpa using h.1
      | succ j => simpa using ih ys h.2 j (by simpa using Nat.lt_of_succ_lt_succ hj)

theorem sEq_refl : ∀ v : JSVal, wfVal v = true → sEq v v = true := by
  intro v
  induction v using JSVal.myInductV with
  | hnan => intro _; simp [sEq, objectIs]
  | hneg => intro _; simp [sEq, objectIs]
  | hnum n => intro _; simp [sEq, objectIs]
  | hstr s => intro _; simp [sEq, objectIs]
  | hbool b => intro _; simp [sEq, objectIs]
  | hundef => intro _; simp [sEq, objectIs]
  | hobj fs ih =>
    intro hwf
    rw [wfVal, Bool.and_eq_true] at hwf
    have hnd : (fs.map Prod.fst).Nodup := (nodupKeys_iff fs).mp hwf.1
    apply sEq_obj_of_lookup hnd
    intro k
    rcases hl : lookupField fs k with _ | v
    · simp [optSEq]
    · have hmem := lookupKey_mem hl
      have := ih (k, v) hmem ((wfValFields_iff fs).mp hwf.2 (k, v) hmem)
      simpa [optSEq] using this
  | harr xs ih =>
    intro hwf
    rw [wfVal] at hwf
    rw [sEq_arr_iff]
    apply sEqElems_of_getD _ _ rfl
    intro j hj
    have hmem : xs.getD j .undef ∈ xs := by
      rw [List.getD_eq_getElem _ _ hj]
      exact List.getElem_mem hj
    exact ih _ hmem ((wfValElems_iff xs).mp hwf _ hmem)

theorem sEq_symm : ∀ x : JSVal, wfVal x = true → ∀ y : JSVal,
    wfVal y = true → sEq x y = true → sEq y x = true := by
  intro x
  induction x using JSVal.myInductV with
  | hnan => intro _ y _ h; cases y <;> simp_all [sEq, objectIs]
  | hneg => intro _ y _ h; cases y <;> simp_all [sEq, objectIs]
  | hnum n => intro _ y _ h; cases y <;> simp_all [sEq, objectIs]
  | hstr s => intro _ y _ h; cases y <;> simp_all [sEq, objectIs]
  | hbool b => intro _ y _ h; cases y <;> simp_all [sEq, objectIs]
  | hundef => intro _ y _ h; cases y <;> simp_all [sEq, objectIs]
  | hobj fs ih =>
    intro hwfx y hwfy h
    cases y with
    | obj gs =>
      rw [wfVal, Bool.and_eq_true] at hwfx hwfy
      have hndf : (fs.map Prod.fst).Nodup := (nodupKeys_iff fs).mp hwfx.1
      have hndg : (gs.map Prod.fst).Nodup := (nodupKeys_iff gs).mp hwfy.1
      rw [sEq_obj_iff] at h ⊢
      constructor
      · apply sEqFieldsIn_of_forall
        intro q hq
        have hkey := keysIncl_hasKey h.2 hq
        rw [hasKey] at hkey
        rcases hf : lookupField fs q.1 with _ | v
        · rw [hf] at hkey; simp at hkey
        · have hvmem : (q.1, v) ∈ fs := lookupKey_mem hf
          rcases sEqFieldsIn_mem fs gs h.1 (q.1, v) hvmem with ⟨w, hw, hsw⟩
          have hqlook : lookupField gs q.1 = some q.2 :=
            lookupKey_eq_of_mem_nodup hq hndg
          rw [hqlook] at hw
          cases hw
          refine ⟨v, rfl, ?_⟩
          exact ih (q.1, v) hvmem
            ((wfValFields_iff fs).mp hwfx.2 _ hvmem) q.2
            ((wfValFields_iff gs).mp hwfy.2 _ hq) hsw
      · apply keysIncl_of_forall
        intro p hp
        rcases sEqFieldsIn_mem fs gs h.1 p hp with ⟨w, hw, _⟩
        rw [hasKey, hw]
        rfl
    | nan => simp_all [sEq, objectIs]
    | negZero => simp_all [sEq, objectIs]
    | num m => simp_all [sEq, objectIs]
    | str s => simp_all [sEq, objectIs]
    | boolean b => simp_all [sEq, objectIs]
    | undef => simp_all [sEq, objectIs]
    | arr ys => simp_all [sEq, objectIs]
  | harr xs ih =>
    intro hwfx y hwfy h
    cases y with
    | arr ys =>
      rw [wfVal] at hwfx hwfy
      rw [sEq_arr_iff] at h ⊢
      have hlen := sEqElems_length xs ys h
      apply sEqElems_of_getD _ _ hlen.symm
      intro j hj
      have hj' : j < xs.length := hlen ▸ hj
      have hx : xs.getD j .undef ∈ xs := by
        rw [List.getD_eq_getElem _ _ hj']
        exact List.getElem_mem hj'
      have hy : ys.getD j .undef ∈ ys := by
        rw [List.getD_eq_getElem _ _ hj]
        exact List.getElem_mem hj
      exact ih _ hx ((wfValElems_iff xs).mp hwfx _ hx) _
        ((wfValElems_iff ys).mp hwfy _ hy) (sEqElems_getD xs ys h j hj')
    | nan => simp_all [sEq, objectIs]
    | negZero => simp_all [sEq, objectIs]
    | num m => simp_all [sEq, objectIs]
    | str s => simp_all [sEq, objectIs]
    | boolean b => simp_all [sEq, objectIs]
    | undef => simp_all [sEq, objectIs]
    | obj gs => simp_all [sEq, objectIs]

/-! ### Operation-shape lemmas -/

/-- Is the child operation an insertion or a removal? -/
def isAddRemove : NestedOp → Bool
  | .add _ => true
  | .remove _ => true
  | _ => false

theorem asOp_asNested {op : Op} (h : op ≠ .identical) :
    op.asNested.asOp = op := by
  cases op <;> first | rfl | exact absurd rfl h

theorem isAddRemove_asNested (op : Op) : isAddRemove op.asNested = false := by
  cases op <;> rfl

theorem isAddRemove_reverseNestedOp (op : NestedOp) :
    isAddRemove (reverseNestedOp op) = isAddRemove op := by
  cases op <;> rfl

theorem isIdentical_iff {op : Op} : isIdentical op = true ↔ op = .identical := by
  cases op <;> simp [isIdentical]

theorem mkObjOp_eq_identical_iff {ops : List (PropKey × NestedOp)} :
    mkObjOp ops = .identical ↔ ops = [] := by
  cases ops <;> simp [mkObjOp]

theorem mkArrOp_eq_identical_iff {ops : List (Nat × NestedOp)} :
    mkArrOp ops = .identical ↔ ops = [] := by
  cases ops <;> simp [mkArrOp]

/-! ### More association-list lemmas -/

theorem lookupKey_append {κ α : Type} [DecidableEq κ]
    (l1 l2 : List (κ × α)) (k : κ) :
    lookupKey (l1 ++ l2) k =
      match lookupKey l1 k with
      | some v => some v
      | none => lookupKey l2 k := by
  induction l1 with
  | nil => simp [lookupKey]
  | cons p l1 ih =>
    cases p with
    | mk k' v' =>
      rw [List.cons_append, lookupKey, lookupKey]
      by_cases hk : k' = k
      · rw [if_pos hk, if_pos hk]
      · rw [if_neg hk, if_neg hk, ih]

theorem lookupKey_eq_none_of_keys_ne {κ α : Type} [DecidableEq κ]
    {l : List (κ × α)} {k : κ} (h : ∀ p ∈ l, p.1 ≠ k) :
    lookupKey l k = none := by
  rw [lookupKey_eq_none_iff]
  intro hm
  rcases List.mem_map.mp hm with ⟨p, hp, hpk⟩
  exact h p hp hpk

theorem lookupKey_flatten_keyed {α : Type} (keys : List PropKey)
    (g : PropKey → List (PropKey × α))
    (hg : ∀ name p, p ∈ g name → p.1 = name) (hnd : keys.Nodup) (k : PropKey) :
    lookupKey ((keys.map g).flatten) k =
      if k ∈ keys then lookupKey (g k) k else none := by
  induction keys with
  | nil => simp [lookupKey]
  | cons name rest ih =>
    rw [List.map_cons, List.flatten_cons, lookupKey_append]
    rw [List.nodup_cons] at hnd
    by_cases hk : k = name
    · subst hk
      rcases hl : lookupKey (g k) k with _ | v
      · simp [ih hnd.2, hnd.1]
      · simp
    · have h1 : lookupKey (g name) k = none :=
        lookupKey_eq_none_of_keys_ne
          (fun p hp => by rw [hg name p hp]; exact fun he => hk he.symm)
      rw [h1, ih hnd.2]
      by_cases hm : k ∈ rest
      · rw [if_pos hm, if_pos (by simp [hm])]
      · rw [if_neg hm, if_neg (by simp [hk, hm])]

theorem map_fst_reverseEntriesK (l : List (PropKey × NestedOp)) :
    (reverseEntriesK l).map Prod.fst = l.map Prod.fst := by
  induction l with
  | nil => rw [reverseEntriesK]
  | cons p l ih =>
    cases p with
    | mk k op => rw [reverseEntriesK, List.map_cons, List.map_cons, ih]

theorem map_fst_reverseEntriesI (l : List (Nat × NestedOp)) :
    (reverseEntriesI l).map Prod.fst = l.map Prod.fst := by
  induction l with
  | nil => rw [reverseEntriesI]
  | cons p l ih =>
    cases p with
    | mk i op => rw [reverseEntriesI, List.map_cons, List.map_cons, ih]

theorem lookupKey_reverseEntriesK (l : List (PropKey × NestedOp)) (k : PropKey) :
    lookupKey (reverseEntriesK l) k = (lookupKey l k).map reverseNestedOp := by
  induction l with
  | nil => rw [reverseEntriesK]; rfl
  | cons p l ih =>
    cases p with
    | mk k' op =>
      rw [reverseEntriesK, lookupKey, lookupKey]
      by_cases hk : k' = k
      · rw [if_pos hk, if_pos hk]; rfl
      · rw [if_neg hk, if_neg hk, ih]

theorem lookupKey_reverseEntriesI (l : List (Nat × NestedOp)) (i : Nat) :
    lookupKey (reverseEntriesI l) i = (lookupKey l i).map reverseNestedOp := by
  induction l with
  | nil => rw [reverseEntriesI]; rfl
  | cons p l ih =>
    cases p with
    | mk i' op =>
      rw [reverseEntriesI, lookupKey, lookupKey]
      by_cases hk : i' = i
      · rw [if_pos hk, if_pos hk]; rfl
      · rw [if_neg hk, if_neg hk, ih]

/-! ### `runObjOps` characterization -/

theorem runObjOps_lookup_not_mem (a : JSVal) :
    ∀ (entries : List (PropKey × NestedOp)) (out : List (PropKey × JSVal))
      (k : PropKey), k ∉ entries.map Prod.fst →
      lookupField (runObjOps a entries out) k = lookupField out k := by
  intro entries
  induction entries with
  | nil => intro out k _; rw [runObjOps]
  | cons e rest ih =>
    intro out k hk
    cases e with
    | mk name subop =>
      rw [List.map_cons] at hk
      have hne : k ≠ name := fun he => hk (by simp [he])
      have hrest : k ∉ rest.map Prod.fst := fun hm => hk (by simp [hm])
      rw [runObjOps]
      cases subop with
      | add v => rw [ih _ _ hrest, runObjStep, lookupField_setField, if_neg hne]
      | remove v => rw [ih _ _ hrest, runObjStep, lookupField_delField, if_neg hne]
      | replace s d => rw [ih _ _ hrest, runObjStep, lookupField_setField, if_neg hne]
      | objectOps ops => rw [ih _ _ hrest, runObjStep, lookupField_setField, if_neg hne]
      | arrayOps ops => rw [ih _ _ hrest, runObjStep, lookupField_setField, if_neg hne]

theorem runObjOps_lookup (a : JSVal) :
    ∀ (entries : List (PropKey × NestedOp)) (out : List (PropKey × JSVal))
      (k : PropKey), (entries.map Prod.fst).Nodup →
      lookupField (runObjOps a entries out) k =
        (match lookupKey entries k with
         | some (.add v) => some v
         | some (.remove _) => none
         | some sub => some (runOp sub.asOp (getProp a k))
         | none => lookupField out k) := by
  intro entries
  induction entries with
  | nil => intro out k _; rw [runObjOps, lookupKey]
  | cons e rest ih =>
    intro out k hnd
    cases e with
    | mk name subop =>
      rw [List.map_cons, List.nodup_cons] at hnd
      rw [runObjOps, lookupKey]
      by_cases hk : name = k
      · subst hk
        rw [if_pos rfl]
        rw [runObjOps_lookup_not_mem a rest _ name hnd.1]
        cases subop with
        | add v => rw [runObjStep, lookupField_setField, if_pos rfl]
        | remove v => rw [runObjStep, lookupField_delField, if_pos rfl]
        | replace s d => rw [runObjStep, lookupField_setField, if_pos rfl]
        | objectOps ops => rw [runObjStep, lookupField_setField, if_pos rfl]
        | arrayOps ops => rw [runObjStep, lookupField_setField, if_pos rfl]
      · rw [if_neg hk]
        have hne : k ≠ name := fun he => hk he.symm
        cases subop with
        | add v => rw [ih _ _ hnd.2, runObjStep, lookupField_setField, if_neg hne]
        | remove v => rw [ih _ _ hnd.2, runObjStep, lookupField_delField, if_neg hne]
        | replace s d => rw [ih _ _ hnd.2, runObjStep, lookupField_setField, if_neg hne]
        | objectOps ops => rw [ih _ _ hnd.2, runObjStep, lookupField_setField, if_neg hne]
        | arrayOps ops => rw [ih _ _ hnd.2, runObjStep, lookupField_setField, if_neg hne]

theorem runObjOps_keys_nodup (a : JSVal) :
    ∀ (entries : List (PropKey × NestedOp)) (out : List (PropKey × JSVal)),
      (out.map Prod.fst).Nodup →
      ((runObjOps a entries out).map Prod.fst).Nodup := by
  intro entries
  induction entries with
  | nil => intro out h; rw [runObjOps]; exact h
  | cons e rest ih =>
    intro out h
    cases e with
    | mk name subop =>
      rw [runObjOps]
      have hset : ∀ v : JSVal, ((setField out name v).map Prod.fst).Nodup := by
        intro v
        rw [map_fst_setField]
        by_cases hm : name ∈ out.map Prod.fst
        · rw [if_pos hm]; exact h
        · rw [if_neg hm]
          simpa [List.nodup_append] using ⟨h, by simpa using hm⟩
      have hdel : ((delField out name).map Prod.fst).Nodup := by
        rw [map_fst_delField]
        exact h.filter _
      cases subop with
      | add v => rw [runObjStep]; exact ih _ (hset v)
      | remove v => rw [runObjStep]; exact ih _ hdel
      | replace s d => rw [runObjStep]; exact ih _ (hset _)
      | objectOps ops => rw [runObjStep]; exact ih _ (hset _)
      | arrayOps ops => rw [runObjStep]; exact ih _ (hset _)

/-! ### `runArrOps` characterization -/

instance : Inhabited Patch := ⟨make Op.identical⟩

instance : Inhabited AST := ⟨AST.numberKeyword⟩

theorem length_arrSet_of_lt {xs : List JSVal} {i : Nat} {v : JSVal}
    (h : i < xs.length) : (arrSet xs i v).length = xs.length := by
  rw [arrSet, if_pos h, List.length_set]

theorem getD_arrSet_self {xs : List JSVal} {i : Nat} {v : JSVal}
    (h : i < xs.length) : (arrSet xs i v).getD i .undef = v := by
  rw [arrSet, if_pos h, List.getD_eq_getElem?_getD, List.getElem?_set_self h]
  rfl

theorem getD_arrSet_ne {xs : List JSVal} {i : Nat} {v : JSVal} {j : Nat}
    (h : i < xs.length) (hne : i ≠ j) :
    (arrSet xs i v).getD j .undef = xs.getD j .undef := by
  rw [arrSet, if_pos h, List.getD_eq_getElem?_getD, List.getElem?_set_ne hne,
    ← List.getD_eq_getElem?_getD]

theorem runArrOps_noAR (a : JSVal) :
    ∀ (entries : List (Nat × NestedOp)) (out : List JSVal),
      (∀ p ∈ entries, isAddRemove p.2 = false) →
      (∀ p ∈ entries, p.1 < out.length) →
      ((entries.map Prod.fst).Nodup) →
      (runArrOps a entries out).length = out.length ∧
      ∀ j : Nat, (runArrOps a entries out).getD j .undef =
        (match lookupKey entries j with
         | some sub => runOp sub.asOp (arrGet a j)
         | none => out.getD j .undef) := by
  intro entries
  induction entries with
  | nil =>
    intro out _ _ _
    refine ⟨by rw [runArrOps], ?_⟩
    intro j
    rw [runArrOps, lookupKey]
  | cons e rest ih =>
    intro out hAR hb hnd
    cases e with
    | mk i sub =>
      rw [List.map_cons, List.nodup_cons] at hnd
      have hARs : isAddRemove sub = false := hAR (i, sub) (by simp)
      have hi : i < out.length := hb (i, sub) (by simp)
      have hstep : (runArrStep a out i sub).length = out.length ∧
          (runArrStep a out i sub).getD i .undef = runOp sub.asOp (arrGet a i) ∧
          ∀ j, i ≠ j →
            (runArrStep a out i sub).getD j .undef = out.getD j .undef := by
        cases sub with
        | add v => simp [isAddRemove] at hARs
        | remove v => simp [isAddRemove] at hARs
        | replace s d =>
          rw [runArrStep]
          exact ⟨length_arrSet_of_lt hi, getD_arrSet_self hi,
            fun j hj => getD_arrSet_ne hi hj⟩
        | objectOps ops =>
          rw [runArrStep]
          exact ⟨length_arrSet_of_lt hi, getD_arrSet_self hi,
            fun j hj => getD_arrSet_ne hi hj⟩
        | arrayOps ops =>
          rw [runArrStep]
          exact ⟨length_arrSet_of_lt hi, getD_arrSet_self hi,
            fun j hj => getD_arrSet_ne hi hj⟩
      rw [runArrOps]
      obtain ⟨ih1, ih2⟩ := ih (runArrStep a out i sub)
        (fun p hp => hAR p (by simp [hp]))
        (fun p hp => hstep.1.symm ▸ hb p (by simp [hp]))
        hnd.2
      refine ⟨by rw [ih1, hstep.1], ?_⟩
      intro j
      rw [ih2 j, lookupKey]
      by_cases hj : i = j
      · subst hj
        rw [if_pos rfl]
        have hnone : lookupKey rest i = none := lookupKey_eq_none_iff.mpr hnd.1
        rw [hnone]
        exact hstep.2.1
      · rw [if_neg hj]
        cases hlr : lookupKey rest j with
        | some sub' => rfl
        | none => exact hstep.2.2 j hj

/-! ### Tuple-differ entry lemmas -/

theorem diffElemsAux_mem_facts :
    ∀ (ds : List Differ) (f t : JSVal) (n : Nat) (p : Nat × NestedOp),
      p ∈ diffElemsAux ds f t n →
      n ≤ p.1 ∧ p.1 < n + ds.length ∧ isAddRemove p.2 = false := by
  intro ds
  induction ds with
  | nil => intro f t n p hp; rw [diffElemsAux] at hp; simp at hp
  | cons d ds ih =>
    intro f t n p hp
    rw [diffElemsAux] at hp
    rcases List.mem_append.mp hp with h1 | h1
    · by_cases hid : isIdentical (d (arrGet f n) (arrGet t n)).op = true
      · rw [if_pos hid] at h1
        simp at h1
      · rw [if_neg hid] at h1
        rcases List.mem_singleton.mp h1 with rfl
        exact ⟨Nat.le_refl n, by simp, isAddRemove_asNested _⟩
    · rcases ih f t (n + 1) p h1 with ⟨h2, h3, h4⟩
      refine ⟨by omega, ?_, h4⟩
      simp only [List.length_cons]
      omega

theorem diffElemsAux_nodup :
    ∀ (ds : List Differ) (f t : JSVal) (n : Nat),
      ((diffElemsAux ds f t n).map Prod.fst).Nodup := by
  intro ds
  induction ds with
  | nil => intro f t n; rw [diffElemsAux]; simp
  | cons d ds ih =>
    intro f t n
    rw [diffElemsAux]
    by_cases hid : isIdentical (d (arrGet f n) (arrGet t n)).op = true
    · rw [if_pos hid, List.nil_append]
      exact ih f t (n + 1)
    · rw [if_neg hid, List.map_append, List.nodup_append]
      refine ⟨by simp, ih f t (n + 1), ?_⟩
      intro x hx hy
      simp at hx
      rcases List.mem_map.mp hy with ⟨p, hp, hpk⟩
      have h1 := (diffElemsAux_mem_facts ds f t (n + 1) p hp).1
      omega

theorem lookupKey_diffElemsAux :
    ∀ (ds : List Differ) (f t : JSVal) (n j : Nat), n ≤ j → j < n + ds.length →
      lookupKey (diffElemsAux ds f t n) j =
        (if isIdentical ((ds.getD (j - n) default) (arrGet f j) (arrGet t j)).op
         then none
         else some ((ds.getD (j - n) default) (arrGet f j) (arrGet t j)).op.asNested) := by
  intro ds
  induction ds with
  | nil => intro f t n j h1 h2; simp at h2; omega
  | cons d ds ih =>
    intro f t n j h1 h2
    rw [diffElemsAux, lookupKey_append]
    by_cases hj : j = n
    · subst hj
      rw [Nat.sub_self, List.getD_cons_zero]
      have hnone : lookupKey (diffElemsAux ds f t (j + 1)) j = none := by
        apply lookupKey_eq_none_of_keys_ne
        intro p hp
        have h3 := (diffElemsAux_mem_facts ds f t (j + 1) p hp).1
        omega
      by_cases hid : isIdentical (d (arrGet f j) (arrGet t j)).op = true
      · rw [if_pos hid, if_pos hid]
        simp [lookupKey, hnone]
      · rw [if_neg hid, if_neg hid]
        simp [lookupKey]
    · have hgt : n + 1 ≤ j := by omega
      have hlt : j < (n + 1) + ds.length := by
        simp only [List.length_cons] at h2
        omega
      have hhead : lookupKey
          (if isIdentical ((d (arrGet f n) (arrGet t n))).op = true then
            ([] : List (Nat × NestedOp))
           else [(n, ((d (arrGet f n) (arrGet t n)).op).asNested)]) j = none := by
        apply lookupKey_eq_none_of_keys_ne
        intro p hp
        by_cases hid : isIdentical (d (arrGet f n) (arrGet t n)).op = true
        · rw [if_pos hid] at hp
          simp at hp
        · rw [if_neg hid] at hp
          rcases List.mem_singleton.mp hp with rfl
          exact fun he => hj he.symm
      rw [hhead, ih f t (n + 1) j hgt hlt]
      have harith : j - n = (j - (n + 1)) + 1 := by omega
      rw [harith, List.getD_cons_succ]

/-! ### Compiler helper lemmas -/

theorem goElems_length {env : List AST} {fuel : Nat} :
    ∀ {es : List AST} {ds : List Differ}, goElems env fuel es = some ds →
      ds.length = es.length := by
  intro es
  induction es with
  | nil => intro ds h; rw [goElems] at h; cases h; rfl
  | cons a es ih =>
    intro ds h
    rw [goElems] at h
    rcases h1 : go env fuel a with _ | d
    · rw [h1] at h; simp at h
    · rcases h2 : goElems env fuel es with _ | ds'
      · rw [h1, h2] at h; simp at h
      · rw [h1, h2] at h
        cases h
        simp [ih h2]

theorem goElems_getD {env : List AST} {fuel : Nat} :
    ∀ {es : List AST} {ds : List Differ}, goElems env fuel es = some ds →
      ∀ j, j < es.length →
        go env fuel (es.getD j default) = some (ds.getD j default) := by
  intro es
  induction es with
  | nil => intro ds h j hj; simp at hj
  | cons a es ih =>
    intro ds h j hj
    rw [goElems] at h
    rcases h1 : go env fuel a with _ | d
    · rw [h1] at h; simp at h
    · rcases h2 : goElems env fuel es with _ | ds'
      · rw [h1, h2] at h; simp at h
      · rw [h1, h2] at h
        cases h
        cases j with
        | zero => simpa using h1
        | succ j => simpa using ih h2 j (by simpa using Nat.lt_of_succ_lt_succ hj)

theorem conformsElems_facts {env : List AST} {fuel : Nat} :
    ∀ {es : List AST} {xs : List JSVal}, conformsElems env fuel es xs = true →
      es.length = xs.length ∧
      ∀ j, j < es.length →
        conformsB env fuel (es.getD j default) (xs.getD j .undef) = true := by
  intro es
  induction es with
  | nil =>
    intro xs h
    cases xs with
    | nil => exact ⟨rfl, fun j hj => by simp at hj⟩
    | cons x xs => simp [conformsElems] at h
  | cons a es ih =>
    intro xs h
    cases xs with
    | nil => simp [conformsElems] at h
    | cons x xs =>
      rw [conformsElems, Bool.and_eq_true] at h
      rcases ih h.2 with ⟨hlen, hp⟩
      refine ⟨by simp [hlen], ?_⟩
      intro j hj
      cases j with
      | zero => simpa using h.1
      | succ j => simpa using hp j (by simpa using Nat.lt_of_succ_lt_succ hj)

/-! ### Struct-differ entry characterization -/

/-- The child operation the `TypeLiteral` differ records for key `k`
when `d` is the differ responsible for `k`: recurse when present in
both (dropping `Identical`), `Remove` when only in `from`, `Add` when
only in `to`. -/
def entryForKey (d : Differ) (f t : JSVal) (k : PropKey) : Option NestedOp :=
  if hasOwn f k then
    if hasOwn t k then
      (if isIdentical ((d (getProp f k) (getProp t k)).op) then none
       else some (((d (getProp f k) (getProp t k)).op).asNested))
    else some (.remove (getProp f k))
  else if hasOwn t k then some (.add (getProp t k)) else none

/-- The compiled index-signature differ responsible for a key (the
first signature whose parameter kind the key matches). -/
def lookupSig : List (SigParam × Differ) → PropKey → Option Differ
  | [], _ => none
  | (param, d) :: rest, k => if keyMatches k param then some d else lookupSig rest k

theorem keyMatches_unique {k : PropKey} {p p' : SigParam}
    (h : keyMatches k p = true) (h' : keyMatches k p' = true) : p = p' := by
  cases k <;> cases p <;> cases p' <;> simp_all [keyMatches]

theorem mem_keysMatching {v : JSVal} {param : SigParam} {k : PropKey} :
    k ∈ keysMatching v param ↔
      (hasOwn v k = true ∧ keyMatches k param = true) := by
  rw [keysMatching, List.mem_filter, hasOwn, lookupKey_isSome_iff]

theorem keysMatching_nodup {v : JSVal} {param : SigParam}
    (h : ((asFields v).map Prod.fst).Nodup) : (keysMatching v param).Nodup :=
  h.filter _

theorem lookupKey_diffFields :
    ∀ (fields : List (PropKey × Differ)) (f t : JSVal) (k : PropKey),
      (fields.map Prod.fst).Nodup →
      lookupKey (diffFields fields f t) k =
        (match lookupKey fields k with
         | some d => entryForKey d f t k
         | none => none) := by
  intro fields
  induction fields with
  | nil => intro f t k _; rw [diffFields, lookupKey, lookupKey]
  | cons p rest ih =>
    intro f t k hnd
    cases p with
    | mk name d =>
      rw [List.map_cons, List.nodup_cons] at hnd
      rw [diffFields, lookupKey_append, lookupKey]
      by_cases hk : name = k
      · subst hk
        rw [if_pos rfl]
        have hrest : lookupKey (diffFields rest f t) name = none := by
          rw [ih f t name hnd.2]
          have hnone : lookupKey rest name = none := lookupKey_eq_none_iff.mpr hnd.1
          rw [hnone]
        simp only []
        unfold entryForKey
        by_cases hf : hasOwn f name = true
        · rw [if_pos hf, if_pos hf]
          by_cases ht : hasOwn t name = true
          · rw [if_pos ht, if_pos ht]
            by_cases hid :
                isIdentical ((d (getProp f name) (getProp t name)).op) = true
            · rw [if_pos hid, if_pos hid]
              simp [lookupKey, hrest]
            · rw [if_neg hid, if_neg hid]
              simp [lookupKey]
          · rw [if_neg ht, if_neg ht]
            simp [lookupKey]
        · rw [if_neg hf, if_neg hf]
          by_cases ht : hasOwn t name = true
          · rw [if_pos ht, if_pos ht]
            simp [lookupKey]
          · rw [if_neg ht, if_neg ht]
            simp [lookupKey, hrest]
      · rw [if_neg hk]
        have hhead : lookupKey
            (if hasOwn f name = true then
              if hasOwn t name = true then
                (if isIdentical ((d (getProp f name) (getProp t name)).op) = true
                 then []
                 else [(name, ((d (getProp f name) (getProp t name)).op).asNested)])
              else [(name, NestedOp.remove (getProp f name))]
             else if hasOwn t name = true then
               [(name, NestedOp.add (getProp t name))]
             else []) k = none := by
          apply lookupKey_eq_none_of_keys_ne
          intro q hq
          split_ifs at hq <;> simp at hq <;> (rw [hq]; exact hk)
        rw [hhead, ih f t k hnd.2]

theorem diffFields_keys_mem :
    ∀ (fields : List (PropKey × Differ)) (f t : JSVal)
      (p : PropKey × NestedOp), p ∈ diffFields fields f t →
      p.1 ∈ fields.map Prod.fst := by
  intro fields
  induction fields with
  | nil => intro f t p hp; rw [diffFields] at hp; simp at hp
  | cons q rest ih =>
    intro f t p hp
    cases q with
    | mk name d =>
      rw [diffFields] at hp
      rcases List.mem_append.mp hp with h1 | h1
      · split_ifs at h1 <;> simp at h1 <;> simp [h1]
      · simp [ih f t p h1]

theorem diffFields_keys_nodup :
    ∀ (fields : List (PropKey × Differ)) (f t : JSVal),
      (fields.map Prod.fst).Nodup →
      ((diffFields fields f t).map Prod.fst).Nodup := by
  intro fields
  induction fields with
  | nil => intro f t _; rw [diffFields]; simp
  | cons q rest ih =>
    intro f t hnd
    cases q with
    | mk name d =>
      rw [List.map_cons, List.nodup_cons] at hnd
      rw [diffFields, List.map_append, List.nodup_append]
      refine ⟨?_, ih f t hnd.2, ?_⟩
      · split_ifs <;> simp
      · intro x hx hy
        rcases List.mem_map.mp hy with ⟨p, hp, hpk⟩
        have hmem := diffFields_keys_mem rest f t p hp
        have hxname : x = name := by
          split_ifs at hx <;> simp at hx <;> exact hx
        apply hnd.1
        rw [hpk] at hmem
        rw [← hxname]
        exact hmem


theorem mem_flatten_keyed {α : Type} {keys : List PropKey}
    {g : PropKey → List (PropKey × α)}
    (hg : ∀ name p, p ∈ g name → p.1 = name) {p : PropKey × α}
    (hp : p ∈ (keys.map g).flatten) : p.1 ∈ keys := by
  rcases List.mem_flatten.mp hp with ⟨l, hl, hpl⟩
  rcases List.mem_map.mp hl with ⟨name, hname, rfl⟩
  rw [hg name p hpl]
  exact hname

theorem flatten_keyed_keys_nodup {α : Type} {keys : List PropKey}
    {g : PropKey → List (PropKey × α)}
    (hg : ∀ name p, p ∈ g name → p.1 = name)
    (hlen : ∀ name, (g name).length ≤ 1) (hnd : keys.Nodup) :
    (((keys.map g).flatten).map Prod.fst).Nodup := by
  induction keys with
  | nil => simp
  | cons name rest ih =>
    rw [List.nodup_cons] at hnd
    rw [List.map_cons, List.flatten_cons, List.map_append, List.nodup_append]
    refine ⟨?_, ih hnd.2, ?_⟩
    · rcases hgl : g name with _ | ⟨q, tail⟩
      · simp
      · cases tail with
        | nil =>
          simp only [List.map_cons, List.map_nil]
          exact List.nodup_singleton _
        | cons q' tail' => have := hlen name; rw [hgl] at this; simp at this
    · intro x hx hy
      rcases List.mem_map.mp hx with ⟨p, hp, hpk⟩
      rcases List.mem_map.mp hy with ⟨q, hq, hqk⟩
      have h1 : p.1 = name := hg name p hp
      have h2 : q.1 ∈ rest := mem_flatten_keyed hg hq
      apply hnd.1
      rw [← h1, hpk, ← hqk]
      exact h2

theorem diffSigOne_mem_facts :
    ∀ (param : SigParam) (d : Differ) (expected : List PropKey) (f t : JSVal)
      (p : PropKey × NestedOp), p ∈ diffSigOne param d expected f t →
      keyMatches p.1 param = true ∧ p.1 ∉ expected := by
  intro param d expected f t p hp
  rw [diffSigOne] at hp
  rcases List.mem_append.mp hp with h1 | h1
  · rcases List.mem_flatten.mp h1 with ⟨l, hl, hpl⟩
    rcases List.mem_map.mp hl with ⟨name, hname, rfl⟩
    have hkm := (mem_keysMatching.mp hname).2
    rw [diffSigFromEntry] at hpl
    split_ifs at hpl with he ht hid
    · simp at hpl
    · simp at hpl
    · simp at hpl
      subst hpl
      exact ⟨hkm, he⟩
    · simp at hpl
      subst hpl
      exact ⟨hkm, he⟩
  · rcases List.mem_flatten.mp h1 with ⟨l, hl, hpl⟩
    rcases List.mem_map.mp hl with ⟨name, hname, rfl⟩
    have hkm := (mem_keysMatching.mp hname).2
    rw [diffSigToEntry] at hpl
    split_ifs at hpl with he hf
    · simp at hpl
    · simp at hpl
    · simp at hpl
      subst hpl
      exact ⟨hkm, he⟩

theorem diffSigOne_keys_nodup (param : SigParam) (d : Differ)
    (expected : List PropKey) (f t : JSVal)
    (hndf : ((asFields f).map Prod.fst).Nodup)
    (hndt : ((asFields t).map Prod.fst).Nodup) :
    ((diffSigOne param d expected f t).map Prod.fst).Nodup := by
  rw [diffSigOne, List.map_append, List.nodup_append]
  have hgF : ∀ name (p : PropKey × NestedOp),
      p ∈ diffSigFromEntry d expected f t name → p.1 = name := by
    intro name p hp
    rw [diffSigFromEntry] at hp
    split_ifs at hp <;> simp at hp <;> simp [hp]
  have hgT : ∀ name (p : PropKey × NestedOp),
      p ∈ diffSigToEntry expected f t name → p.1 = name := by
    intro name p hp
    rw [diffSigToEntry] at hp
    split_ifs at hp <;> simp at hp <;> simp [hp]
  refine ⟨?_, ?_, ?_⟩
  · apply flatten_keyed_keys_nodup hgF
    · intro name; rw [diffSigFromEntry]; split_ifs <;> simp
    · exact keysMatching_nodup hndf
  · apply flatten_keyed_keys_nodup hgT
    · intro name; rw [diffSigToEntry]; split_ifs <;> simp
    · exact keysMatching_nodup hndt
  · intro x hx hy
    rcases List.mem_map.mp hx with ⟨p, hp, hpk⟩
    rcases List.mem_map.mp hy with ⟨q, hq, hqk⟩
    have h1 : p.1 ∈ keysMatching f param := mem_flatten_keyed hgF hp
    have h2 : hasOwn f p.1 = true := (mem_keysMatching.mp h1).1
    rcases List.mem_flatten.mp hq with ⟨l, hl, hql⟩
    rcases List.mem_map.mp hl with ⟨name, hname, rfl⟩
    have h3 : q.1 = name := hgT name q hql
    have h4 : hasOwn f name = false := by
      by_contra hc
      rw [Bool.not_eq_false] at hc
      rw [diffSigToEntry] at hql
      split_ifs at hql <;> simp_all
    rw [hpk] at h2
    rw [← h3, hqk] at h4
    rw [h2] at h4
    simp at h4

theorem lookupSig_eq_none_of_no_match {sigs : List (SigParam × Differ)}
    {k : PropKey} (h : ∀ s ∈ sigs, keyMatches k s.1 = false) :
    lookupSig sigs k = none := by
  induction sigs with
  | nil => rw [lookupSig]
  | cons s rest ih =>
    cases s with
    | mk param d =>
      rw [lookupSig]
      rw [if_neg (by rw [h (param, d) (by simp)]; simp)]
      exact ih (fun s hs => h s (by simp [hs]))


theorem diffSigFromEntry_keyed (d : Differ) (expected : List PropKey)
    (f t : JSVal) : ∀ name p, p ∈ diffSigFromEntry d expected f t name →
      p.1 = name := by
  intro name p hp
  rw [diffSigFromEntry] at hp
  split_ifs at hp <;> simp at hp <;> simp [hp]

theorem diffSigToEntry_keyed (expected : List PropKey) (f t : JSVal) :
    ∀ name p, p ∈ diffSigToEntry expected f t name → p.1 = name := by
  intro name p hp
  rw [diffSigToEntry] at hp
  split_ifs at hp <;> simp at hp <;> simp [hp]

theorem lookupKey_diffSigOne (param : SigParam) (d : Differ)
    (expected : List PropKey) (f t : JSVal) (k : PropKey)
    (hndf : ((asFields f).map Prod.fst).Nodup)
    (hndt : ((asFields t).map Prod.fst).Nodup) :
    lookupKey (diffSigOne param d expected f t) k =
      if k ∈ expected then none
      else if keyMatches k param = true then entryForKey d f t k
      else none := by
  rw [diffSigOne, lookupKey_append]
  rw [lookupKey_flatten_keyed _ _ (diffSigFromEntry_keyed d expected f t)
    (keysMatching_nodup hndf)]
  rw [lookupKey_flatten_keyed _ _ (diffSigToEntry_keyed expected f t)
    (keysMatching_nodup hndt)]
  by_cases he : k ∈ expected
  · rw [if_pos he]
    by_cases hmf : k ∈ keysMatching f param <;>
      by_cases hmt : k ∈ keysMatching t param <;>
        simp [hmf, hmt, diffSigFromEntry, diffSigToEntry, he, lookupKey]
  · rw [if_neg he]
    by_cases hm : keyMatches k param = true
    · rw [if_pos hm, entryForKey]
      by_cases hf : hasOwn f k = true
      · have hkf : k ∈ keysMatching f param := mem_keysMatching.mpr ⟨hf, hm⟩
        rw [if_pos hkf, if_pos hf, diffSigFromEntry, if_neg he]
        by_cases ht : hasOwn t k = true
        · rw [if_pos ht, if_pos ht]
          by_cases hid : isIdentical ((d (getProp f k) (getProp t k)).op) = true
          · rw [if_pos hid, if_pos hid]
            have hkt : k ∈ keysMatching t param := mem_keysMatching.mpr ⟨ht, hm⟩
            rw [if_pos hkt, diffSigToEntry, if_neg he, if_pos hf]
            simp [lookupKey]
          · rw [if_neg hid, if_neg hid]
            simp [lookupKey]
        · rw [if_neg ht, if_neg ht]
          simp [lookupKey]
      · have hkf : k ∉ keysMatching f param := by
          intro hc
          exact absurd (mem_keysMatching.mp hc).1 (by simp [hf])
        rw [if_neg hkf, if_neg hf]
        by_cases ht : hasOwn t k = true
        · have hkt : k ∈ keysMatching t param := mem_keysMatching.mpr ⟨ht, hm⟩
          rw [if_pos ht, if_pos hkt, diffSigToEntry, if_neg he, if_neg hf]
          simp [lookupKey]
        · have hkt : k ∉ keysMatching t param := by
            intro hc
            exact absurd (mem_keysMatching.mp hc).1 (by simp [ht])
          rw [if_neg ht, if_neg hkt]
    · rw [if_neg hm]
      have hkf : k ∉ keysMatching f param :=
        fun hc => absurd (mem_keysMatching.mp hc).2 (by simp [hm])
      have hkt : k ∉ keysMatching t param :=
        fun hc => absurd (mem_keysMatching.mp hc).2 (by simp [hm])
      rw [if_neg hkf, if_neg hkt]

theorem diffSigs_mem_facts :
    ∀ (sigs : List (SigParam × Differ)) (expected : List PropKey) (f t : JSVal)
      (p : PropKey × NestedOp), p ∈ diffSigs sigs expected f t →
      p.1 ∉ expected ∧ ∃ s ∈ sigs, keyMatches p.1 s.1 = true := by
  intro sigs
  induction sigs with
  | nil => intro expected f t p hp; rw [diffSigs] at hp; simp at hp
  | cons s rest ih =>
    intro expected f t p hp
    cases s with
    | mk param d =>
      rw [diffSigs] at hp
      rcases List.mem_append.mp hp with h1 | h1
      · rcases diffSigOne_mem_facts param d expected f t p h1 with ⟨hm, he⟩
        exact ⟨he, (param, d), by simp, hm⟩
      · rcases ih expected f t p h1 with ⟨he, s', hs', hm⟩
        exact ⟨he, s', by simp [hs'], hm⟩

theorem diffSigs_keys_nodup :
    ∀ (sigs : List (SigParam × Differ)) (expected : List PropKey) (f t : JSVal),
      (sigs.map Prod.fst).Nodup →
      ((asFields f).map Prod.fst).Nodup →
      ((asFields t).map Prod.fst).Nodup →
      ((diffSigs sigs expected f t).map Prod.fst).Nodup := by
  intro sigs
  induction sigs with
  | nil => intro expected f t _ _ _; rw [diffSigs]; simp
  | cons s rest ih =>
    intro expected f t hnds hndf hndt
    cases s with
    | mk param d =>
      rw [List.map_cons, List.nodup_cons] at hnds
      rw [diffSigs, List.map_append, List.nodup_append]
      refine ⟨diffSigOne_keys_nodup param d expected f t hndf hndt,
        ih expected f t hnds.2 hndf hndt, ?_⟩
      intro x hx hy
      rcases List.mem_map.mp hx with ⟨p, hp, hpk⟩
      rcases List.mem_map.mp hy with ⟨q, hq, hqk⟩
      have h1 := (diffSigOne_mem_facts param d expected f t p hp).1
      rcases (diffSigs_mem_facts rest expected f t q hq).2 with ⟨s', hs', hm⟩
      have hkq : keyMatches p.1 s'.1 = true := by
        rw [hpk, ← hqk]
        exact hm
      have := keyMatches_unique h1 hkq
      apply hnds.1
      rw [this]
      exact List.mem_map.mpr ⟨s', hs', rfl⟩

theorem lookupKey_diffSigs :
    ∀ (sigs : List (SigParam × Differ)) (expected : List PropKey) (f t : JSVal)
      (k : PropKey), (sigs.map Prod.fst).Nodup →
      ((asFields f).map Prod.fst).Nodup →
      ((asFields t).map Prod.fst).Nodup →
      lookupKey (diffSigs sigs expected f t) k =
        if k ∈ expected then none
        else
          (match lookupSig sigs k with
           | some d => entryForKey d f t k
           | none => none) := by
  intro sigs
  induction sigs with
  | nil =>
    intro expected f t k _ _ _
    rw [diffSigs, lookupSig, lookupKey]
    split_ifs <;> rfl
  | cons s rest ih =>
    intro expected f t k hnds hndf hndt
    cases s with
    | mk param d =>
      rw [List.map_cons, List.nodup_cons] at hnds
      rw [diffSigs, lookupKey_append,
        lookupKey_diffSigOne param d expected f t k hndf hndt, lookupSig]
      by_cases he : k ∈ expected
      · rw [if_pos he, if_pos he]
        rw [ih expected f t k hnds.2 hndf hndt, if_pos he]
      · rw [if_neg he, if_neg he]
        by_cases hm : keyMatches k param = true
        · rw [if_pos hm, if_pos hm]
          rcases hek : entryForKey d f t k with _ | e
          · have hrest : lookupKey (diffSigs rest expected f t) k = none := by
              rw [ih expected f t k hnds.2 hndf hndt, if_neg he]
              have : lookupSig rest k = none := by
                apply lookupSig_eq_none_of_no_match
                intro s' hs'
                by_contra hc
                rw [Bool.not_eq_false] at hc
                have := keyMatches_unique hm hc
                exact hnds.1 (this ▸ List.mem_map.mpr ⟨s', hs', rfl⟩)
              rw [this]
            rw [hrest]
            simp only []
            rw [hek]
          · simp only []
            rw [hek]
        · rw [if_neg hm, if_neg hm]
          rw [ih expected f t k hnds.2 hndf hndt, if_neg he]


/-! ### Compiler and conformance inversion lemmas -/

/-- The shape-level analogue of `lookupSig`: the first index signature
whose parameter kind the key matches. -/
def lookupSigA : List (SigParam × AST) → PropKey → Option AST
  | [], _ => none
  | (param, a) :: rest, k => if keyMatches k param then some a else lookupSigA rest k

theorem goProps_keys {env : List AST} {fuel : Nat} :
    ∀ {props : List (PropKey × AST)} {fields : List (PropKey × Differ)},
      goProps env fuel props = some fields →
      fields.map Prod.fst = props.map Prod.fst := by
  intro props
  induction props with
  | nil => intro fields h; rw [goProps] at h; cases h; rfl
  | cons p rest ih =>
    intro fields h
    cases p with
    | mk k a =>
      rw [goProps] at h
      rcases h1 : go env fuel a with _ | d
      · rw [h1] at h; simp at h
      · rcases h2 : goProps env fuel rest with _ | ds
        · rw [h1, h2] at h; simp at h
        · rw [h1, h2] at h
          cases h
          simp [ih h2]

theorem goProps_lookup {env : List AST} {fuel : Nat} :
    ∀ {props : List (PropKey × AST)} {fields : List (PropKey × Differ)},
      goProps env fuel props = some fields → ∀ k : PropKey,
      (lookupKey props k = none ∧ lookupKey fields k = none) ∨
      (∃ a d, lookupKey props k = some a ∧ lookupKey fields k = some d ∧
        go env fuel a = some d) := by
  intro props
  induction props with
  | nil =>
    intro fields h k
    rw [goProps] at h
    cases h
    exact Or.inl ⟨rfl, rfl⟩
  | cons p rest ih =>
    intro fields h k
    cases p with
    | mk k' a =>
      rw [goProps] at h
      rcases h1 : go env fuel a with _ | d
      · rw [h1] at h; simp at h
      · rcases h2 : goProps env fuel rest with _ | ds
        · rw [h1, h2] at h; simp at h
        · rw [h1, h2] at h
          cases h
          by_cases hk : k' = k
          · exact Or.inr ⟨a, d, by rw [lookupKey, if_pos hk],
              by rw [lookupKey, if_pos hk], h1⟩
          · rcases ih h2 k with ⟨hn1, hn2⟩ | ⟨a', d', ha, hd, hg⟩
            · exact Or.inl ⟨by rw [lookupKey, if_neg hk]; exact hn1,
                by rw [lookupKey, if_neg hk]; exact hn2⟩
            · exact Or.inr ⟨a', d', by rw [lookupKey, if_neg hk]; exact ha,
                by rw [lookupKey, if_neg hk]; exact hd, hg⟩

theorem goSigs_params {env : List AST} {fuel : Nat} :
    ∀ {isigs : List (SigParam × AST)} {sigs : List (SigParam × Differ)},
      goSigs env fuel isigs = some sigs →
      sigs.map Prod.fst = isigs.map Prod.fst := by
  intro isigs
  induction isigs with
  | nil => intro sigs h; rw [goSigs] at h; cases h; rfl
  | cons p rest ih =>
    intro sigs h
    cases p with
    | mk param a =>
      rw [goSigs] at h
      rcases h1 : go env fuel a with _ | d
      · rw [h1] at h; simp at h
      · rcases h2 : goSigs env fuel rest with _ | ds
        · rw [h1, h2] at h; simp at h
        · rw [h1, h2] at h
          cases h
          simp [ih h2]

theorem goSigs_lookupSig {env : List AST} {fuel : Nat} :
    ∀ {isigs : List (SigParam × AST)} {sigs : List (SigParam × Differ)},
      goSigs env fuel isigs = some sigs → ∀ k : PropKey,
      (lookupSigA isigs k = none ∧ lookupSig sigs k = none) ∨
      (∃ a d, lookupSigA isigs k = some a ∧ lookupSig sigs k = some d ∧
        go env fuel a = some d) := by
  intro isigs
  induction isigs with
  | nil =>
    intro sigs h k
    rw [goSigs] at h
    cases h
    exact Or.inl ⟨rfl, rfl⟩
  | cons p rest ih =>
    intro sigs h k
    cases p with
    | mk param a =>
      rw [goSigs] at h
      rcases h1 : go env fuel a with _ | d
      · rw [h1] at h; simp at h
      · rcases h2 : goSigs env fuel rest with _ | ds
        · rw [h1, h2] at h; simp at h
        · rw [h1, h2] at h
          cases h
          by_cases hk : keyMatches k param = true
          · exact Or.inr ⟨a, d, by rw [lookupSigA, if_pos hk],
              by rw [lookupSig, if_pos hk], h1⟩
          · rcases ih h2 k with ⟨hn1, hn2⟩ | ⟨a', d', ha, hd, hg⟩
            · exact Or.inl ⟨by rw [lookupSigA, if_neg hk]; exact hn1,
                by rw [lookupSig, if_neg hk]; exact hn2⟩
            · exact Or.inr ⟨a', d', by rw [lookupSigA, if_neg hk]; exact ha,
                by rw [lookupSig, if_neg hk]; exact hd, hg⟩

theorem go_typeLiteral_inv {env : List AST} {fuel : Nat}
    {props : List (PropKey × AST)} {isigs : List (SigParam × AST)}
    {d : Differ} (h : go env fuel (.typeLiteral props isigs) = some d) :
    ∃ fields sigs, goProps env fuel props = some fields ∧
      goSigs env fuel isigs = some sigs ∧
      d = structDiffer fields sigs (props.map Prod.fst) := by
  rw [go] at h
  rcases h1 : goProps env fuel props with _ | fields
  · rw [h1] at h; simp at h
  · rcases h2 : goSigs env fuel isigs with _ | sigs
    · rw [h1, h2] at h; simp at h
    · rw [h1, h2] at h
      cases h
      exact ⟨fields, sigs, rfl, rfl, rfl⟩

theorem go_tuple_inv {env : List AST} {fuel : Nat} {es : List AST}
    {d : Differ} (h : go env fuel (.tuple es) = some d) :
    ∃ ds, goElems env fuel es = some ds ∧ d = tupleDiffer ds := by
  rw [go] at h
  rcases h1 : goElems env fuel es with _ | ds
  · rw [h1] at h; simp at h
  · rw [h1] at h
    cases h
    exact ⟨ds, rfl, rfl⟩

theorem conformsProps_mem {env : List AST} {fuel : Nat} :
    ∀ {props : List (PropKey × AST)} {fs : List (PropKey × JSVal)},
      conformsProps env fuel props fs = true →
      ∀ p ∈ props, ∀ v, lookupField fs p.1 = some v →
        conformsB env fuel p.2 v = true := by
  intro props
  induction props with
  | nil => intro fs _ p hp; simp at hp
  | cons q rest ih =>
    intro fs h p hp v hv
    cases q with
    | mk k a =>
      rw [conformsProps, Bool.and_eq_true] at h
      rcases List.mem_cons.mp hp with h1 | h1
      · subst h1
        have := h.1
        rw [hv] at this
        exact this
      · exact ih h.2 p h1 v hv

theorem conformsExtra_mem {env : List AST} {fuel : Nat}
    {declared : List PropKey} {isigs : List (SigParam × AST)} :
    ∀ {fs : List (PropKey × JSVal)},
      conformsExtra env fuel declared isigs fs = true →
      ∀ p ∈ fs, p.1 ∈ declared ∨
        fieldMatchesSome env fuel p.1 p.2 isigs = true := by
  intro fs
  induction fs with
  | nil => intro _ p hp; simp at hp
  | cons q rest ih =>
    intro h p hp
    cases q with
    | mk k v =>
      rw [conformsExtra, Bool.and_eq_true] at h
      rcases List.mem_cons.mp hp with h1 | h1
      · subst h1
        have := h.1
        rw [Bool.or_eq_true] at this
        rcases this with h2 | h2
        · exact Or.inl (by simpa using h2)
        · exact Or.inr h2
      · exact ih h.2 p h1

theorem fieldMatchesSome_eq_false_of_no_match {env : List AST} {fuel : Nat}
    {k : PropKey} {v : JSVal} :
    ∀ {isigs : List (SigParam × AST)},
      (∀ s ∈ isigs, keyMatches k s.1 = false) →
      fieldMatchesSome env fuel k v isigs = false := by
  intro isigs
  induction isigs with
  | nil => intro _; rw [fieldMatchesSome]
  | cons s rest ih =>
    intro h
    cases s with
    | mk param a =>
      rw [fieldMatchesSome]
      have h1 : keyMatches k param = false := h (param, a) (by simp)
      rw [h1]
      simp only [Bool.false_and, Bool.false_or]
      exact ih (fun s hs => h s (by simp [hs]))

theorem fieldMatchesSome_lookupSigA {env : List AST} {fuel : Nat}
    {k : PropKey} {v : JSVal} :
    ∀ {isigs : List (SigParam × AST)},
      fieldMatchesSome env fuel k v isigs = true →
      (isigs.map Prod.fst).Nodup →
      ∃ a, lookupSigA isigs k = some a ∧ conformsB env fuel a v = true := by
  intro isigs
  induction isigs with
  | nil => intro h _; rw [fieldMatchesSome] at h; simp at h
  | cons s rest ih =>
    intro h hnd
    cases s with
    | mk param a =>
      rw [List.map_cons, List.nodup_cons] at hnd
      rw [fieldMatchesSome, Bool.or_eq_true] at h
      by_cases hkm : keyMatches k param = true
      · have hrest : fieldMatchesSome env fuel k v rest = false := by
          apply fieldMatchesSome_eq_false_of_no_match
          intro s hs
          by_contra hc
          rw [Bool.not_eq_false] at hc
          have := keyMatches_unique hkm hc
          exact hnd.1 (this ▸ List.mem_map.mpr ⟨s, hs, rfl⟩)
        rcases h with h1 | h1
        · rw [Bool.and_eq_true] at h1
          exact ⟨a, by rw [lookupSigA, if_pos hkm], h1.2⟩
        · rw [hrest] at h1; simp at h1
      · rcases h with h1 | h1
        · rw [Bool.and_eq_true] at h1
          exact absurd h1.1 hkm
        · rcases ih h1 hnd.2 with ⟨a', ha, hc⟩
          exact ⟨a', by rw [lookupSigA, if_neg hkm]; exact ha, hc⟩

theorem nodupKeyList_iff : ∀ l : List PropKey,
    nodupKeyList l = true ↔ l.Nodup := by
  intro l
  induction l with
  | nil => simp [nodupKeyList]
  | cons k ks ih => rw [nodupKeyList]; simp [ih]

theorem nodupParamList_iff : ∀ l : List SigParam,
    nodupParamList l = true ↔ l.Nodup := by
  intro l
  induction l with
  | nil => simp [nodupParamList]
  | cons p ps ih => rw [nodupParamList]; simp [ih]

theorem wfProps_mem : ∀ {props : List (PropKey × AST)}, wfProps props = true →
    ∀ p ∈ props, wfB p.2 = true := by
  intro props
  induction props with
  | nil => intro _ p hp; simp at hp
  | cons q rest ih =>
    intro h p hp
    rw [wfProps, Bool.and_eq_true] at h
    rcases List.mem_cons.mp hp with h1 | h1
    · subst h1; exact h.1
    · exact ih h.2 p h1

theorem wfSigs_mem : ∀ {isigs : List (SigParam × AST)}, wfSigs isigs = true →
    ∀ s ∈ isigs, wfB s.2 = true := by
  intro isigs
  induction isigs with
  | nil => intro _ s hs; simp at hs
  | cons q rest ih =>
    intro h s hs
    rw [wfSigs, Bool.and_eq_true] at h
    rcases List.mem_cons.mp hs with h1 | h1
    · subst h1; exact h.1
    · exact ih h.2 s h1

theorem wfElems_mem : ∀ {es : List AST}, wfElems es = true →
    ∀ a ∈ es, wfB a = true := by
  intro es
  induction es with
  | nil => intro _ a ha; simp at ha
  | cons b rest ih =>
    intro h a ha
    rw [wfElems, Bool.and_eq_true] at h
    rcases List.mem_cons.mp ha with h1 | h1
    · subst h1; exact h.1
    · exact ih h.2 a h1

theorem lookupSigA_mem {isigs : List (SigParam × AST)} {k : PropKey} {a : AST}
    (h : lookupSigA isigs k = some a) : ∃ param, (param, a) ∈ isigs := by
  induction isigs with
  | nil => rw [lookupSigA] at h; cases h
  | cons s rest ih =>
    cases s with
    | mk param b =>
      rw [lookupSigA] at h
      by_cases hk : keyMatches k param = true
      · rw [if_pos hk] at h
        cases h
        exact ⟨param, by simp⟩
      · rw [if_neg hk] at h
        rcases ih h with ⟨param', hmem⟩
        exact ⟨param', by simp [hmem]⟩


theorem fieldMatchesSome_exists {env : List AST} {fuel : Nat} {k : PropKey}
    {v : JSVal} :
    ∀ {isigs : List (SigParam × AST)},
      fieldMatchesSome env fuel k v isigs = true →
      ∃ s ∈ isigs, conformsB env fuel s.2 v = true := by
  intro isigs
  induction isigs with
  | nil => intro h; rw [fieldMatchesSome] at h; simp at h
  | cons s rest ih =>
    intro h
    cases s with
    | mk param a =>
      rw [fieldMatchesSome, Bool.or_eq_true] at h
      rcases h with h1 | h1
      · rw [Bool.and_eq_true] at h1
        exact ⟨(param, a), by simp, h1.2⟩
      · rcases ih h1 with ⟨s', hs', hc⟩
        exact ⟨s', by simp [hs'], hc⟩

/-- A value conforming to a shape is well-formed: every object inside
it has pairwise-distinct keys (as every JavaScript object does). -/
theorem conforms_wfVal : ∀ (env : List AST) (fuel : Nat) (ast : AST)
    (v : JSVal), conformsB env fuel ast v = true → wfVal v = true := by
  intro env fuel
  induction fuel using Nat.strong_induction_on with
  | _ fuel ihf =>
    intro ast
    induction ast using AST.myInductA with
    | hnum => intro v h; cases v <;> simp_all [conformsB, wfVal]
    | hstr => intro v h; cases v <;> simp_all [conformsB, wfVal]
    | hbool => intro v h; cases v <;> simp_all [conformsB, wfVal]
    | hunk => intro v h; cases v <;> simp_all [conformsB, wfVal, isPrimitive]
    | href base ih =>
      intro v h
      rw [conformsB] at h
      exact ih v h
    | hlazy i =>
      intro v h
      cases fuel with
      | zero => simp [conformsB] at h
      | succ n =>
        rw [conformsB] at h
        rcases he : env[i]? with _ | a
        · rw [he] at h; simp at h
        · rw [he] at h
          exact ihf n (by omega) a v h
    | htup es ihes =>
      intro v h
      cases v with
      | arr xs =>
        rw [conformsB] at h
        rcases conformsElems_facts h with ⟨hlen, hp⟩
        rw [wfVal, wfValElems_iff]
        intro x hx
        rcases List.getElem_of_mem hx with ⟨j, hj, hxj⟩
        have hjlen : j < es.length := by omega
        have hmem : es.getD j default ∈ es := by
          rw [List.getD_eq_getElem _ _ hjlen]
          exact List.getElem_mem hjlen
        have hc := hp j hjlen
        rw [List.getD_eq_getElem _ _ hj, hxj] at hc
        exact ihes _ hmem x hc
      | nan => simp [conformsB] at h
      | negZero => simp [conformsB] at h
      | num n => simp [conformsB] at h
      | str s => simp [conformsB] at h
      | boolean b => simp [conformsB] at h
      | undef => simp [conformsB] at h
      | obj fs => simp [conformsB] at h
    | hlit props isigs ihp ihs =>
      intro v h
      cases v with
      | obj fs =>
        rw [conformsB, Bool.and_eq_true, Bool.and_eq_true] at h
        rcases h with ⟨⟨hnd, hcp⟩, hce⟩
        rw [wfVal, Bool.and_eq_true]
        refine ⟨hnd, ?_⟩
        rw [wfValFields_iff]
        intro p hp
        have hlook : lookupField fs p.1 = some p.2 :=
          lookupKey_eq_of_mem_nodup hp ((nodupKeys_iff fs).mp hnd)
        rcases conformsExtra_mem hce p hp with hdecl | hmatch
        · rcases List.mem_map.mp hdecl with ⟨q, hq, hqk⟩
          have hc := conformsProps_mem hcp q hq p.2 (hqk ▸ hlook)
          exact ihp q hq p.2 hc
        · rcases fieldMatchesSome_exists hmatch with ⟨s, hs, hc⟩
          exact ihs s hs p.2 hc
      | nan => simp [conformsB] at h
      | negZero => simp [conformsB] at h
      | num n => simp [conformsB] at h
      | str s => simp [conformsB] at h
      | boolean b => simp [conformsB] at h
      | undef => simp [conformsB] at h
      | arr xs => simp [conformsB] at h


/-! ### Per-key responsibility in struct diffs -/

/-- The compiled differ responsible for a key of a `TypeLiteral` shape:
its declared-property differ if the key is declared, else the differ of
the first index signature its kind matches. -/
def responsibleDiffer (fields : List (PropKey × Differ))
    (sigs : List (SigParam × Differ)) (k : PropKey) : Option Differ :=
  match lookupKey fields k with
  | some d => some d
  | none => lookupSig sigs k

/-- The shape responsible for a key of a `TypeLiteral` shape. -/
def responsibleAST (props : List (PropKey × AST))
    (isigs : List (SigParam × AST)) (k : PropKey) : Option AST :=
  match lookupKey props k with
  | some a => some a
  | none => lookupSigA isigs k

theorem hasOwn_obj (fs : List (PropKey × JSVal)) (k : PropKey) :
    hasOwn (.obj fs) k = (lookupKey fs k).isSome := rfl

theorem getProp_obj (fs : List (PropKey × JSVal)) (k : PropKey) :
    getProp (.obj fs) k = (lookupKey fs k).getD .undef := rfl

theorem structDiffer_lookup (fields : List (PropKey × Differ))
    (sigs : List (SigParam × Differ)) (expected : List PropKey)
    (f t : JSVal) (k : PropKey)
    (hkeys : fields.map Prod.fst = expected) (hndexp : expected.Nodup)
    (hndf : ((asFields f).map Prod.fst).Nodup)
    (hndt : ((asFields t).map Prod.fst).Nodup)
    (hnds : (sigs.map Prod.fst).Nodup) :
    lookupKey (diffFields fields f t ++ diffSigs sigs expected f t) k =
      (match responsibleDiffer fields sigs k with
       | some d => entryForKey d f t k
       | none => none) := by
  have hndfields : (fields.map Prod.fst).Nodup := hkeys ▸ hndexp
  rw [lookupKey_append, lookupKey_diffFields fields f t k hndfields,
    responsibleDiffer]
  rcases hf : lookupKey fields k with _ | d
  · have hne : k ∉ expected := by
      rw [← hkeys]
      exact lookupKey_eq_none_iff.mp hf
    rw [lookupKey_diffSigs sigs expected f t k hnds hndf hndt, if_neg hne]
  · have hmem : k ∈ expected := by
      rw [← hkeys, ← lookupKey_isSome_iff, hf]
      rfl
    rw [lookupKey_diffSigs sigs expected f t k hnds hndf hndt, if_pos hmem]
    simp only []
    rcases he : entryForKey d f t k with _ | e <;> rfl

theorem structDiffer_entries_nodup (fields : List (PropKey × Differ))
    (sigs : List (SigParam × Differ)) (expected : List PropKey)
    (f t : JSVal)
    (hkeys : fields.map Prod.fst = expected) (hndexp : expected.Nodup)
    (hndf : ((asFields f).map Prod.fst).Nodup)
    (hndt : ((asFields t).map Prod.fst).Nodup)
    (hnds : (sigs.map Prod.fst).Nodup) :
    (((diffFields fields f t ++ diffSigs sigs expected f t).map Prod.fst)).Nodup := by
  rw [List.map_append, List.nodup_append]
  refine ⟨diffFields_keys_nodup fields f t (hkeys ▸ hndexp),
    diffSigs_keys_nodup sigs expected f t hnds hndf hndt, ?_⟩
  intro x hx hy
  rcases List.mem_map.mp hx with ⟨p, hp, hpk⟩
  rcases List.mem_map.mp hy with ⟨q, hq, hqk⟩
  have h1 : p.1 ∈ expected := by
    rw [← hkeys]
    exact diffFields_keys_mem fields f t p hp
  have h2 : q.1 ∉ expected := (diffSigs_mem_facts sigs expected f t q hq).1
  rw [hpk] at h1
  rw [hqk] at h2
  exact h2 h1

theorem responsible_correspond {env : List AST} {fuel : Nat}
    {props : List (PropKey × AST)} {isigs : List (SigParam × AST)}
    {fields : List (PropKey × Differ)} {sigs : List (SigParam × Differ)}
    (hp : goProps env fuel props = some fields)
    (hs : goSigs env fuel isigs = some sigs) (k : PropKey) :
    (responsibleAST props isigs k = none ∧
      responsibleDiffer fields sigs k = none) ∨
    (∃ a d, responsibleAST props isigs k = some a ∧
      responsibleDiffer fields sigs k = some d ∧ go env fuel a = some d) := by
  rw [responsibleAST, responsibleDiffer]
  rcases goProps_lookup hp k with ⟨h1, h2⟩ | ⟨a, d, h1, h2, h3⟩
  · rw [h1, h2]
    rcases goSigs_lookupSig hs k with ⟨h4, h5⟩ | ⟨a, d, h4, h5, h6⟩
    · rw [h4, h5]
      exact Or.inl ⟨rfl, rfl⟩
    · rw [h4, h5]
      exact Or.inr ⟨a, d, rfl, rfl, h6⟩
  · rw [h1, h2]
    exact Or.inr ⟨a, d, rfl, rfl, h3⟩

theorem responsibleAST_cases {props : List (PropKey × AST)}
    {isigs : List (SigParam × AST)} {k : PropKey} {a : AST}
    (h : responsibleAST props isigs k = some a) :
    (∃ p ∈ props, p.2 = a) ∨ (∃ s ∈ isigs, s.2 = a) := by
  rw [responsibleAST] at h
  rcases h1 : lookupKey props k with _ | a'
  · rw [h1] at h
    rcases lookupSigA_mem h with ⟨param, hmem⟩
    exact Or.inr ⟨(param, a), hmem, rfl⟩
  · rw [h1] at h
    cases h
    exact Or.inl ⟨(k, a), lookupKey_mem h1, rfl⟩

/-- Every present field of a conformant object value is governed by the
responsible shape of its key, and conforms to it. -/
theorem conforms_responsible {env : List AST} {fuel : Nat}
    {props : List (PropKey × AST)} {isigs : List (SigParam × AST)}
    {fs : List (PropKey × JSVal)}
    (hc : conformsB env fuel (.typeLiteral props isigs) (.obj fs) = true)
    (hndsig : (isigs.map Prod.fst).Nodup) :
    ∀ k v, lookupKey fs k = some v →
      ∃ a, responsibleAST props isigs k = some a ∧
        conformsB env fuel a v = true := by
  rw [conformsB, Bool.and_eq_true, Bool.and_eq_true] at hc
  rcases hc with ⟨⟨hnd, hcp⟩, hce⟩
  intro k v hkv
  have hmem : (k, v) ∈ fs := lookupKey_mem hkv
  rw [responsibleAST]
  rcases hpk : lookupKey props k with _ | a
  · have hkd : k ∉ props.map Prod.fst := lookupKey_eq_none_iff.mp hpk
    rcases conformsExtra_mem hce (k, v) hmem with h1 | h1
    · exact absurd h1 hkd
    · rcases fieldMatchesSome_lookupSigA h1 hndsig with ⟨a, ha, hca⟩
      exact ⟨a, ha, hca⟩
  · refine ⟨a, rfl, ?_⟩
    exact conformsProps_mem hcp (k, a) (lookupKey_mem hpk) v hkv

theorem noNegZero_obj_lookup {fs : List (PropKey × JSVal)} {k : PropKey}
    {v : JSVal} (h : noNegZero (.obj fs) = true) (hkv : lookupKey fs k = some v) :
    noNegZero v = true := by
  rw [noNegZero] at h
  exact (noNegZeroFields_iff fs).mp h (k, v) (lookupKey_mem hkv)

theorem noNegZero_arr_getD {xs : List JSVal} {j : Nat}
    (h : noNegZero (.arr xs) = true) (hj : j < xs.length) :
    noNegZero (xs.getD j .undef) = true := by
  rw [noNegZero] at h
  apply (noNegZeroElems_iff xs).mp h
  rw [List.getD_eq_getElem _ _ hj]
  exact List.getElem_mem hj

theorem noNaN_obj_lookup {fs : List (PropKey × JSVal)} {k : PropKey}
    {v : JSVal} (h : noNaN (.obj fs) = true) (hkv : lookupKey fs k = some v) :
    noNaN v = true := by
  rw [noNaN] at h
  exact (noNaNFields_iff fs).mp h (k, v) (lookupKey_mem hkv)

theorem noNaN_arr_getD {xs : List JSVal} {j : Nat}
    (h : noNaN (.arr xs) = true) (hj : j < xs.length) :
    noNaN (xs.getD j .undef) = true := by
  rw [noNaN] at h
  apply (noNaNElems_iff xs).mp h
  rw [List.getD_eq_getElem _ _ hj]
  exact List.getElem_mem hj


theorem hasOwn_obj_false {fs : List (PropKey × JSVal)} {k : PropKey}
    (h : hasOwn (.obj fs) k = false) : lookupKey fs k = none := by
  rw [hasOwn_obj] at h
  cases hl : lookupKey fs k with
  | none => rfl
  | some v => rw [hl] at h; simp at h

theorem hasOwn_obj_true {fs : List (PropKey × JSVal)} {k : PropKey}
    (h : hasOwn (.obj fs) k = true) :
    ∃ v, lookupKey fs k = some v ∧ getProp (.obj fs) k = v := by
  rw [hasOwn_obj] at h
  cases hl : lookupKey fs k with
  | none => rw [hl] at h; simp at h
  | some v => exact ⟨v, rfl, by rw [getProp_obj, hl]; rfl⟩

/-- If a compiled differ reports `Identical`, the two (conformant,
`-0`-free) values are structurally equal.  With a `-0` the compiled
differ can report `Identical` on structurally distinct values, because
every leaf except `number` compares with `===` and `0 === -0`. -/
theorem identical_sound :
    ∀ (env : List AST), wfEnv env = true →
    ∀ (fuel : Nat) (ast : AST), wfB ast = true →
    ∀ (d : Differ), go env fuel ast = some d →
    ∀ (f t : JSVal), conformsB env fuel ast f = true →
      conformsB env fuel ast t = true →
      noNegZero f = true → noNegZero t = true →
      (d f t).op = Op.identical → sEq f t = true := by
  intro env henv fuel
  induction fuel using Nat.strong_induction_on with
  | _ fuel ihfuel =>
    intro ast
    induction ast using AST.myInductA with
    | hnum =>
      intro _ d hgo f t hcf hct hnf hnt hid
      rw [go] at hgo
      obtain rfl := Option.some.inj hgo
      by_cases hobj : objectIs f t = true
      · have heq : f = t := (objectIs_eq_true_iff f t).mp hobj
        subst heq
        exact sEq_refl f (conforms_wfVal env fuel .numberKeyword f hcf)
      · simp [make, hobj] at hid
    | hstr =>
      intro _ d hgo f t hcf hct hnf hnt hid
      rw [go] at hgo
      obtain rfl := Option.some.inj hgo
      by_cases hse : strictEq f t = true
      · have hprim : isPrimitive f = true := by
          cases f <;> simp_all [conformsB, isPrimitive]
        have heq : f = t := strictEq_eq_of_true hprim hnf hnt hse
        subst heq
        exact sEq_refl f (conforms_wfVal env fuel _ f hcf)
      · simp [leafStrictDiffer, make, hse] at hid
    | hbool =>
      intro _ d hgo f t hcf hct hnf hnt hid
      rw [go] at hgo
      obtain rfl := Option.some.inj hgo
      by_cases hse : strictEq f t = true
      · have hprim : isPrimitive f = true := by
          cases f <;> simp_all [conformsB, isPrimitive]
        have heq : f = t := strictEq_eq_of_true hprim hnf hnt hse
        subst heq
        exact sEq_refl f (conforms_wfVal env fuel _ f hcf)
      · simp [leafStrictDiffer, make, hse] at hid
    | hunk =>
      intro _ d hgo f t hcf hct hnf hnt hid
      rw [go] at hgo
      obtain rfl := Option.some.inj hgo
      by_cases hse : strictEq f t = true
      · have hprim : isPrimitive f = true := by
          rw [conformsB] at hcf
          exact hcf
        have heq : f = t := strictEq_eq_of_true hprim hnf hnt hse
        subst heq
        exact sEq_refl f (conforms_wfVal env fuel _ f hcf)
      · simp [leafStrictDiffer, make, hse] at hid
    | href base ih =>
      intro hwf d hgo f t hcf hct hnf hnt hid
      rw [wfB] at hwf
      rw [go] at hgo
      rw [conformsB] at hcf hct
      exact ih hwf d hgo f t hcf hct hnf hnt hid
    | hlazy i =>
      intro _ d hgo f t hcf hct hnf hnt hid
      cases fuel with
      | zero => simp [go] at hgo
      | succ n =>
        rw [go] at hgo
        rw [conformsB] at hcf hct
        rcases he : env[i]? with _ | a
        · rw [he] at hgo; simp at hgo
        · rw [he] at hgo hcf hct
          have hwa : wfB a = true := by
            rw [wfEnv, List.all_eq_true] at henv
            exact henv a (List.getElem?_mem he)
          exact ihfuel n (by omega) a hwa d hgo f t hcf hct hnf hnt hid
    | htup es ihes =>
      intro hwf d hgo f t hcf hct hnf hnt hid
      rcases go_tuple_inv hgo with ⟨ds, hds, rfl⟩
      rw [wfB] at hwf
      cases f with
      | arr xs =>
        cases t with
        | arr ys =>
          rw [conformsB] at hcf hct
          rcases conformsElems_facts hcf with ⟨hlenf, hpf⟩
          rcases conformsElems_facts hct with ⟨hlent, hpt⟩
          have hentries : diffElemsAux ds (.arr xs) (.arr ys) 0 = [] := by
            apply mkArrOp_eq_identical_iff.mp
            exact hid
          rw [sEq_arr_iff]
          apply sEqElems_of_getD _ _ (by omega)
          intro j hj
          have hjes : j < es.length := by omega
          have hjds : j < ds.length := by rw [goElems_length hds]; omega
          have hlook : lookupKey (diffElemsAux ds (.arr xs) (.arr ys) 0) j
              = none := by rw [hentries]; rfl
          rw [lookupKey_diffElemsAux ds _ _ 0 j (by omega) (by omega)] at hlook
          by_cases hidj : isIdentical
              (((ds.getD (j - 0) default) (arrGet (.arr xs) j)
                (arrGet (.arr ys) j)).op) = true
          · have hgoj := goElems_getD hds j hjes
            have hmem : es.getD j default ∈ es := by
              rw [List.getD_eq_getElem _ _ hjes]
              exact List.getElem_mem hjes
            have harrf : arrGet (.arr xs) j = xs.getD j .undef := rfl
            have harrt : arrGet (.arr ys) j = ys.getD j .undef := rfl
            have hsub : j - 0 = j := rfl
            rw [hsub] at hidj
            apply ihes (es.getD j default) hmem (wfElems_mem hwf _ hmem)
              (ds.getD j default) hgoj
              (xs.getD j .undef) (ys.getD j .undef)
              (hpf j hjes) (hpt j hjes)
              (noNegZero_arr_getD hnf hj)
              (noNegZero_arr_getD hnt (by omega))
            rw [harrf, harrt] at hidj
            exact isIdentical_iff.mp hidj
          · rw [if_neg (by simpa using hidj)] at hlook
            simp at hlook
        | nan => simp [conformsB] at hct
        | negZero => simp [conformsB] at hct
        | num n => simp [conformsB] at hct
        | str s => simp [conformsB] at hct
        | boolean b => simp [conformsB] at hct
        | undef => simp [conformsB] at hct
        | obj gs => simp [conformsB] at hct
      | nan => simp [conformsB] at hcf
      | negZero => simp [conformsB] at hcf
      | num n => simp [conformsB] at hcf
      | str s => simp [conformsB] at hcf
      | boolean b => simp [conformsB] at hcf
      | undef => simp [conformsB] at hcf
      | obj fs => simp [conformsB] at hcf
    | hlit props isigs ihp ihs =>
      intro hwf d hgo f t hcf hct hnf hnt hid
      rcases go_typeLiteral_inv hgo with ⟨fields, sigs, hfields, hsigs, rfl⟩
      rw [wfB, Bool.and_eq_true, Bool.and_eq_true, Bool.and_eq_true] at hwf
      rcases hwf with ⟨⟨⟨hnp, hns⟩, hwp⟩, hws⟩
      have hndexp : (props.map Prod.fst).Nodup := (nodupKeyList_iff _).mp hnp
      have hndparam : (isigs.map Prod.fst).Nodup := (nodupParamList_iff _).mp hns
      cases f with
      | obj fs =>
        cases t with
        | obj gs =>
          have hcf' := hcf
          have hct' := hct
          rw [conformsB, Bool.and_eq_true, Bool.and_eq_true] at hcf' hct'
          have hndf : (fs.map Prod.fst).Nodup :=
            (nodupKeys_iff fs).mp hcf'.1.1
          have hndg : (gs.map Prod.fst).Nodup :=
            (nodupKeys_iff gs).mp hct'.1.1
          have hndsigs : (sigs.map Prod.fst).Nodup := by
            rw [goSigs_params hsigs]
            exact hndparam
          have hentries : diffFields fields (.obj fs) (.obj gs) ++
              diffSigs sigs (props.map Prod.fst) (.obj fs) (.obj gs) = [] :=
            mkObjOp_eq_identical_iff.mp hid
          have hlookup : ∀ k,
              (match responsibleDiffer fields sigs k with
               | some d' => entryForKey d' (.obj fs) (.obj gs) k
               | none => none) = (none : Option NestedOp) := by
            intro k
            rw [← structDiffer_lookup fields sigs (props.map Prod.fst)
              (.obj fs) (.obj gs) k (goProps_keys hfields) hndexp hndf hndg
              hndsigs]
            rw [hentries]
            rfl
          apply sEq_obj_of_lookup hndf
          intro k
          rcases responsible_correspond hfields hsigs k with
            ⟨hra, _⟩ | ⟨a, da, hra, hrd, hgd⟩
          · rcases hfk : lookupKey fs k with _ | v
            · rcases hgk : lookupKey gs k with _ | w
              · have hfk' : lookupField fs k = none := hfk
                have hgk' : lookupField gs k = none := hgk
                simp [optSEq, hfk', hgk']
              · rcases conforms_responsible hct hndparam k w hgk with ⟨a, ha, _⟩
                rw [hra] at ha
                cases ha
            · rcases conforms_responsible hcf hndparam k v hfk with ⟨a, ha, _⟩
              rw [hra] at ha
              cases ha
          · have hek := hlookup k
            rw [hrd] at hek
            simp only [] at hek
            unfold entryForKey at hek
            by_cases hof : hasOwn (.obj fs) k = true
            · rw [if_pos hof] at hek
              by_cases hot : hasOwn (.obj gs) k = true
              · rw [if_pos hot] at hek
                by_cases hidk : isIdentical
                    ((da (getProp (.obj fs) k) (getProp (.obj gs) k)).op)
                    = true
                · rcases hasOwn_obj_true hof with ⟨v, hv, hgv⟩
                  rcases hasOwn_obj_true hot with ⟨w, hw, hgw⟩
                  rcases conforms_responsible hcf hndparam k v hv with
                    ⟨a', ha', hcv⟩
                  rcases conforms_responsible hct hndparam k w hw with
                    ⟨a'', ha'', hcw⟩
                  rw [hra] at ha' ha''
                  obtain rfl := Option.some.inj ha'
                  obtain rfl := Option.some.inj ha''
                  have hwa : wfB a = true := by
                    rcases responsibleAST_cases hra with ⟨p, hp, he⟩ | ⟨sg, hs, he⟩
                    · exact he ▸ wfProps_mem hwp p hp
                    · exact he ▸ wfSigs_mem hws sg hs
                  have hseq : sEq v w = true := by
                    rcases responsibleAST_cases hra with ⟨p, hp, he⟩ | ⟨sg, hs, he⟩
                    · refine ihp p hp ?_ da ?_ v w ?_ ?_ ?_ ?_ ?_ <;>
                        (try rw [he]) <;>
                        first
                          | exact hwa
                          | exact hgd
                          | exact hcv
                          | exact hcw
                          | exact noNegZero_obj_lookup hnf hv
                          | exact noNegZero_obj_lookup hnt hw
                          | (rw [hgv, hgw] at hidk; exact isIdentical_iff.mp hidk)
                    · refine ihs sg hs ?_ da ?_ v w ?_ ?_ ?_ ?_ ?_ <;>
                        (try rw [he]) <;>
                        first
                          | exact hwa
                          | exact hgd
                          | exact hcv
                          | exact hcw
                          | exact noNegZero_obj_lookup hnf hv
                          | exact noNegZero_obj_lookup hnt hw
                          | (rw [hgv, hgw] at hidk; exact isIdentical_iff.mp hidk)
                  have hv' : lookupField fs k = some v := hv
                  have hw' : lookupField gs k = some w := hw
                  rw [hv', hw']
                  exact hseq
                · rw [if_neg hidk] at hek
                  simp at hek
              · rw [if_neg hot] at hek
                simp at hek
            · rw [if_neg hof] at hek
              by_cases hot : hasOwn (.obj gs) k = true
              · rw [if_pos hot] at hek
                simp at hek
              · have hfk' : lookupField fs k = none :=
                  hasOwn_obj_false (by simpa using hof)
                have hgk' : lookupField gs k = none :=
                  hasOwn_obj_false (by simpa using hot)
                rw [hfk', hgk']
                trivial
        | nan => simp [conformsB] at hct
        | negZero => simp [conformsB] at hct
        | num n => simp [conformsB] at hct
        | str s => simp [conformsB] at hct
        | boolean b => simp [conformsB] at hct
        | undef => simp [conformsB] at hct
        | arr ys => simp [conformsB] at hct
      | nan => simp [conformsB] at hcf
      | negZero => simp [conformsB] at hcf
      | num n => simp [conformsB] at hcf
      | str s => simp [conformsB] at hcf
      | boolean b => simp [conformsB] at hcf
      | undef => simp [conformsB] at hcf
      | arr xs => simp [conformsB] at hcf


theorem runPatch_make (op : Op) (a : JSVal) : runPatch (make op) a = runOp op a :=
  rfl

/-- Round trip: applying the patch a compiled differ produced for
`(f, t)` to `f` yields a value structurally equal to `t`, for all
conformant values containing no `-0`. -/
theorem roundtrip_sound :
    ∀ (env : List AST), wfEnv env = true →
    ∀ (fuel : Nat) (ast : AST), wfB ast = true →
    ∀ (d : Differ), go env fuel ast = some d →
    ∀ (f t : JSVal), conformsB env fuel ast f = true →
      conformsB env fuel ast t = true →
      noNegZero f = true → noNegZero t = true →
      sEq (runPatch (d f t) f) t = true := by
  intro env henv fuel
  induction fuel using Nat.strong_induction_on with
  | _ fuel ihfuel =>
    intro ast
    induction ast using AST.myInductA with
    | hnum =>
      intro _ d hgo f t hcf hct hnf hnt
      rw [go] at hgo
      obtain rfl := Option.some.inj hgo
      have hwt := conforms_wfVal env fuel .numberKeyword t hct
      by_cases hobj : objectIs f t = true
      · obtain rfl : f = t := (objectIs_eq_true_iff f t).mp hobj
        rw [runPatch_make, if_pos hobj, runOp]
        exact sEq_refl f hwt
      · rw [runPatch_make, if_neg hobj, runOp]
        exact sEq_refl t hwt
    | hstr =>
      intro _ d hgo f t hcf hct hnf hnt
      rw [go] at hgo
      obtain rfl := Option.some.inj hgo
      have hwt := conforms_wfVal env fuel .stringKeyword t hct
      by_cases hse : strictEq f t = true
      · have hprim : isPrimitive f = true := by
          cases f <;> simp_all [conformsB, isPrimitive]
        obtain rfl : f = t := strictEq_eq_of_true hprim hnf hnt hse
        rw [leafStrictDiffer, runPatch_make, if_pos hse, runOp]
        exact sEq_refl f hwt
      · rw [leafStrictDiffer, runPatch_make, if_neg hse, runOp]
        exact sEq_refl t hwt
    | hbool =>
      intro _ d hgo f t hcf hct hnf hnt
      rw [go] at hgo
      obtain rfl := Option.some.inj hgo
      have hwt := conforms_wfVal env fuel .booleanKeyword t hct
      by_cases hse : strictEq f t = true
      · have hprim : isPrimitive f = true := by
          cases f <;> simp_all [conformsB, isPrimitive]
        obtain rfl : f = t := strictEq_eq_of_true hprim hnf hnt hse
        rw [leafStrictDiffer, runPatch_make, if_pos hse, runOp]
        exact sEq_refl f hwt
      · rw [leafStrictDiffer, runPatch_make, if_neg hse, runOp]
        exact sEq_refl t hwt
    | hunk =>
      intro _ d hgo f t hcf hct hnf hnt
      rw [go] at hgo
      obtain rfl := Option.some.inj hgo
      have hwt := conforms_wfVal env fuel .unknownKeyword t hct
      by_cases hse : strictEq f t = true
      · have hprim : isPrimitive f = true := by
          rw [conformsB] at hcf
          exact hcf
        obtain rfl : f = t := strictEq_eq_of_true hprim hnf hnt hse
        rw [leafStrictDiffer, runPatch_make, if_pos hse, runOp]
        exact sEq_refl f hwt
      · rw [leafStrictDiffer, runPatch_make, if_neg hse, runOp]
        exact sEq_refl t hwt
    | href base ih =>
      intro hwf d hgo f t hcf hct hnf hnt
      rw [wfB] at hwf
      rw [go] at hgo
      rw [conformsB] at hcf hct
      exact ih hwf d hgo f t hcf hct hnf hnt
    | hlazy i =>
      intro _ d hgo f t hcf hct hnf hnt
      cases fuel with
      | zero => simp [go] at hgo
      | succ n =>
        rw [go] at hgo
        rw [conformsB] at hcf hct
        rcases he : env[i]? with _ | a
        · rw [he] at hgo; simp at hgo
        · rw [he] at hgo hcf hct
          have hwa : wfB a = true := by
            rw [wfEnv, List.all_eq_true] at henv
            exact henv a (List.getElem?_mem he)
          exact ihfuel n (by omega) a hwa d hgo f t hcf hct hnf hnt
    | htup es ihes =>
      intro hwf d hgo f t hcf hct hnf hnt
      rcases go_tuple_inv hgo with ⟨ds, hds, rfl⟩
      rw [wfB] at hwf
      cases f with
      | arr xs =>
        cases t with
        | arr ys =>
          have hcf' := hcf
          have hct' := hct
          rw [conformsB] at hcf' hct'
          rcases conformsElems_facts hcf' with ⟨hlenf, hpf⟩
          rcases conformsElems_facts hct' with ⟨hlent, hpt⟩
          have hlends : ds.length = es.length := goElems_length hds
          rcases hentries : diffElemsAux ds (.arr xs) (.arr ys) 0 with _ | ⟨e0, erest⟩
          · have hido : (tupleDiffer ds (.arr xs) (.arr ys)).op = Op.identical := by
              show mkArrOp (diffElemsAux ds (.arr xs) (.arr ys) 0) = Op.identical
              rw [hentries, mkArrOp]
            have hseq := identical_sound env henv fuel (.tuple es)
              (by rw [wfB]; exact hwf) (tupleDiffer ds)
              (by rw [go, hds]) (.arr xs) (.arr ys) hcf hct hnf hnt hido
            rw [runPatch, hido, runOp]
            exact hseq
          · have hrw : (tupleDiffer ds (.arr xs) (.arr ys)).op =
                Op.arrayOps (e0 :: erest) := by
              show mkArrOp (diffElemsAux ds (.arr xs) (.arr ys) 0) = _
              rw [hentries]
              rfl
            rw [runPatch, hrw, runOp]
            have hAR : ∀ p ∈ e0 :: erest, isAddRemove p.2 = false := by
              intro p hp
              rw [← hentries] at hp
              exact (diffElemsAux_mem_facts ds _ _ 0 p hp).2.2
            have hbound : ∀ p ∈ e0 :: erest, p.1 < (asElems (.arr xs)).length := by
              intro p hp
              rw [← hentries] at hp
              have := (diffElemsAux_mem_facts ds _ _ 0 p hp).2.1
              show p.1 < xs.length
              omega
            have hndent : ((e0 :: erest).map Prod.fst).Nodup := by
              rw [← hentries]
              exact diffElemsAux_nodup ds _ _ 0
            rcases runArrOps_noAR (.arr xs) (e0 :: erest) (asElems (.arr xs))
              hAR hbound hndent with ⟨hlen, hgetD⟩
            rw [sEq_arr_iff]
            have hlenxs : (asElems (.arr xs)).length = xs.length := rfl
            apply sEqElems_of_getD _ _ (by rw [hlen, hlenxs]; omega)
            intro j hj
            rw [hlen, hlenxs] at hj
            have hjes : j < es.length := by omega
            have hjds : j < ds.length := by omega
            have hlook := lookupKey_diffElemsAux ds (.arr xs) (.arr ys) 0 j
              (by omega) (by omega)
            rw [hentries] at hlook
            rw [hgetD j]
            have hsub : j - 0 = j := rfl
            rw [hsub] at hlook
            have hmem : es.getD j default ∈ es := by
              rw [List.getD_eq_getElem _ _ hjes]
              exact List.getElem_mem hjes
            have hgoj := goElems_getD hds j hjes
            have harrf : arrGet (.arr xs) j = xs.getD j .undef := rfl
            have harrt : arrGet (.arr ys) j = ys.getD j .undef := rfl
            by_cases hidj : isIdentical
                (((ds.getD j default) (arrGet (.arr xs) j)
                  (arrGet (.arr ys) j)).op) = true
            · rw [if_pos hidj] at hlook
              rw [hlook]
              have hseq := identical_sound env henv fuel (es.getD j default)
                (wfElems_mem hwf _ hmem) (ds.getD j default) hgoj
                (xs.getD j .undef) (ys.getD j .undef)
                (hpf j hjes) (hpt j hjes)
                (noNegZero_arr_getD hnf (by omega))
                (noNegZero_arr_getD hnt (by omega))
                (by rw [← harrf, ← harrt]; exact isIdentical_iff.mp hidj)
              have hout : (asElems (.arr xs)).getD j .undef = xs.getD j .undef :=
                rfl
              rw [hout]
              exact hseq
            · rw [if_neg hidj] at hlook
              rw [hlook]
              have hne : ((ds.getD j default) (arrGet (.arr xs) j)
                  (arrGet (.arr ys) j)).op ≠ Op.identical := by
                intro he
                exact hidj (isIdentical_iff.mpr he)
              simp only []
              rw [asOp_asNested hne]
              have hrp := ihes (es.getD j default) hmem
                (wfElems_mem hwf _ hmem) (ds.getD j default) hgoj
                (xs.getD j .undef) (ys.getD j .undef)
                (hpf j hjes) (hpt j hjes)
                (noNegZero_arr_getD hnf (by omega))
                (noNegZero_arr_getD hnt (by omega))
              rw [runPatch] at hrp
              rw [harrf, harrt]
              exact hrp
        | nan => simp [conformsB] at hct
        | negZero => simp [conformsB] at hct
        | num n => simp [conformsB] at hct
        | str s => simp [conformsB] at hct
        | boolean b => simp [conformsB] at hct
        | undef => simp [conformsB] at hct
        | obj gs => simp [conformsB] at hct
      | nan => simp [conformsB] at hcf
      | negZero => simp [conformsB] at hcf
      | num n => simp [conformsB] at hcf
      | str s => simp [conformsB] at hcf
      | boolean b => simp [conformsB] at hcf
      | undef => simp [conformsB] at hcf
      | obj fs => simp [conformsB] at hcf
    | hlit props isigs ihp ihs =>
      intro hwf d hgo f t hcf hct hnf hnt
      rcases go_typeLiteral_inv hgo with ⟨fields, sigs, hfields, hsigs, rfl⟩
      have hwf' := hwf
      rw [wfB, Bool.and_eq_true, Bool.and_eq_true, Bool.and_eq_true] at hwf'
      rcases hwf' with ⟨⟨⟨hnp, hns⟩, hwp⟩, hws⟩
      have hndexp : (props.map Prod.fst).Nodup := (nodupKeyList_iff _).mp hnp
      have hndparam : (isigs.map Prod.fst).Nodup := (nodupParamList_iff _).mp hns
      cases f with
      | obj fs =>
        cases t with
        | obj gs =>
          have hcf' := hcf
          have hct' := hct
          rw [conformsB, Bool.and_eq_true, Bool.and_eq_true] at hcf' hct'
          have hndf : (fs.map Prod.fst).Nodup :=
            (nodupKeys_iff fs).mp hcf'.1.1
          have hndg : (gs.map Prod.fst).Nodup :=
            (nodupKeys_iff gs).mp hct'.1.1
          have hndsigs : (sigs.map Prod.fst).Nodup := by
            rw [goSigs_params hsigs]
            exact hndparam
          have hndentries := structDiffer_entries_nodup fields sigs
            (props.map Prod.fst) (.obj fs) (.obj gs) (goProps_keys hfields)
            hndexp hndf hndg hndsigs
          have hlookup := fun k => structDiffer_lookup fields sigs
            (props.map Prod.fst) (.obj fs) (.obj gs) k (goProps_keys hfields)
            hndexp hndf hndg hndsigs
          rcases hentries : diffFields fields (.obj fs) (.obj gs) ++
              diffSigs sigs (props.map Prod.fst) (.obj fs) (.obj gs) with
            _ | ⟨e0, erest⟩
          · have hido : (structDiffer fields sigs (props.map Prod.fst)
                (.obj fs) (.obj gs)).op = Op.identical := by
              show mkObjOp (diffFields fields (.obj fs) (.obj gs) ++
                diffSigs sigs (props.map Prod.fst) (.obj fs) (.obj gs)) = _
              rw [hentries, mkObjOp]
            have hseq := identical_sound env henv fuel
              (.typeLiteral props isigs) hwf
              (structDiffer fields sigs (props.map Prod.fst))
              (by rw [go, hfields, hsigs]) (.obj fs) (.obj gs)
              hcf hct hnf hnt hido
            rw [runPatch, hido, runOp]
            exact hseq
          · have hrw : (structDiffer fields sigs (props.map Prod.fst)
                (.obj fs) (.obj gs)).op = Op.objectOps (e0 :: erest) := by
              show mkObjOp (diffFields fields (.obj fs) (.obj gs) ++
                diffSigs sigs (props.map Prod.fst) (.obj fs) (.obj gs)) = _
              rw [hentries]
              rfl
            rw [runPatch, hrw, runOp]
            have hndentries' : ((e0 :: erest).map Prod.fst).Nodup := by
              rw [← hentries]
              exact hndentries
            apply sEq_obj_of_lookup
            · exact runObjOps_keys_nodup (.obj fs) (e0 :: erest)
                (asFields (.obj fs)) hndf
            intro k
            rw [runObjOps_lookup (.obj fs) (e0 :: erest) (asFields (.obj fs)) k
              hndentries']
            have hent := hlookup k
            rw [hentries] at hent
            rw [hent]
            rcases responsible_correspond hfields hsigs k with
              ⟨hra, hrd⟩ | ⟨a, da, hra, hrd, hgd⟩
            · rw [hrd]
              simp only []
              rcases hfk : lookupKey fs k with _ | v
              · rcases hgk : lookupKey gs k with _ | w
                · have hfk' : lookupField (asFields (.obj fs)) k = none := hfk
                  have hgk' : lookupField gs k = none := hgk
                  rw [hfk', hgk']
                  trivial
                · rcases conforms_responsible hct hndparam k w hgk with
                    ⟨a, ha, _⟩
                  rw [hra] at ha
                  cases ha
              · rcases conforms_responsible hcf hndparam k v hfk with
                  ⟨a, ha, _⟩
                rw [hra] at ha
                cases ha
            · rw [hrd]
              have hIH : wfB a = true → ∀ (d' : Differ),
                  go env fuel a = some d' → ∀ (f' t' : JSVal),
                  conformsB env fuel a f' = true →
                  conformsB env fuel a t' = true →
                  noNegZero f' = true → noNegZero t' = true →
                  sEq (runPatch (d' f' t') f') t' = true := by
                rcases responsibleAST_cases hra with ⟨p, hp, he⟩ | ⟨sg, hs, he⟩
                · exact he ▸ ihp p hp
                · exact he ▸ ihs sg hs
              have hwa : wfB a = true := by
                rcases responsibleAST_cases hra with ⟨p, hp, he⟩ | ⟨sg, hs, he⟩
                · exact he ▸ wfProps_mem hwp p hp
                · exact he ▸ wfSigs_mem hws sg hs
              simp only []
              unfold entryForKey
              by_cases hof : hasOwn (.obj fs) k = true
              · rcases hasOwn_obj_true hof with ⟨v, hv, hgv⟩
                rcases conforms_responsible hcf hndparam k v hv with
                  ⟨a', ha', hcv⟩
                rw [hra] at ha'
                obtain rfl := Option.some.inj ha'
                rw [if_pos hof]
                by_cases hot : hasOwn (.obj gs) k = true
                · rcases hasOwn_obj_true hot with ⟨w, hw, hgw⟩
                  rcases conforms_responsible hct hndparam k w hw with
                    ⟨a'', ha'', hcw⟩
                  rw [hra] at ha''
                  obtain rfl := Option.some.inj ha''
                  rw [if_pos hot]
                  have hw' : lookupField gs k = some w := hw
                  by_cases hidk : isIdentical
                      ((da (getProp (.obj fs) k) (getProp (.obj gs) k)).op)
                      = true
                  · rw [if_pos hidk]
                    have hseq := identical_sound env henv fuel a hwa da hgd
                      v w hcv hcw
                      (noNegZero_obj_lookup hnf hv)
                      (noNegZero_obj_lookup hnt hw)
                      (by rw [hgv, hgw] at hidk; exact isIdentical_iff.mp hidk)
                    simp only []
                    have hv' : lookupField (asFields (.obj fs)) k = some v := hv
                    rw [hv', hw']
                    exact hseq
                  · rw [if_neg hidk]
                    have hrp := hIH hwa da hgd v w hcv hcw
                      (noNegZero_obj_lookup hnf hv)
                      (noNegZero_obj_lookup hnt hw)
                    rw [runPatch] at hrp
                    rcases hopk : (da (getProp (.obj fs) k)
                        (getProp (.obj gs) k)).op with _ | ⟨s', dd⟩ | ll | ll
                    · rw [hopk] at hidk
                      simp [isIdentical] at hidk
                    · simp only [Op.asNested, NestedOp.asOp]
                      rw [hgv]
                      rw [hgv, hgw] at hopk
                      rw [hw', ← hopk]
                      exact hrp
                    · simp only [Op.asNested, NestedOp.asOp]
                      rw [hgv]
                      rw [hgv, hgw] at hopk
                      rw [hw', ← hopk]
                      exact hrp
                    · simp only [Op.asNested, NestedOp.asOp]
                      rw [hgv]
                      rw [hgv, hgw] at hopk
                      rw [hw', ← hopk]
                      exact hrp
                · rw [if_neg hot]
                  simp only []
                  have hgk' : lookupField gs k = none :=
                    hasOwn_obj_false (by simpa using hot)
                  rw [hgk']
                  trivial
              · rw [if_neg hof]
                by_cases hot : hasOwn (.obj gs) k = true
                · rcases hasOwn_obj_true hot with ⟨w, hw, hgw⟩
                  rcases conforms_responsible hct hndparam k w hw with
                    ⟨a'', ha'', hcw⟩
                  rw [hra] at ha''
                  obtain rfl := Option.some.inj ha''
                  rw [if_pos hot]
                  simp only []
                  have hw' : lookupField gs k = some w := hw
                  rw [hgw, hw']
                  exact sEq_refl w (conforms_wfVal env fuel a w hcw)
                · rw [if_neg hot]
                  simp only []
                  have hfk' : lookupField (asFields (.obj fs)) k = none :=
                    hasOwn_obj_false (by simpa using hof)
                  have hgk' : lookupField gs k = none :=
                    hasOwn_obj_false (by simpa using hot)
                  rw [hfk', hgk']
                  trivial
        | nan => simp [conformsB] at hct
        | negZero => simp [conformsB] at hct
        | num n => simp [conformsB] at hct
        | str s => simp [conformsB] at hct
        | boolean b => simp [conformsB] at hct
        | undef => simp [conformsB] at hct
        | arr ys => simp [conformsB] at hct
      | nan => simp [conformsB] at hcf
      | negZero => simp [conformsB] at hcf
      | num n => simp [conformsB] at hcf
      | str s => simp [conformsB] at hcf
      | boolean b => simp [conformsB] at hcf
      | undef => simp [conformsB] at hcf
      | arr xs => simp [conformsB] at hcf


/-! ### Reverse-patch helpers -/

theorem runPatch_reverse (p : Patch) (a : JSVal) :
    runPatch (reverse p) a = runOp (reverseOp p.op) a := rfl

theorem runPatch_reverse_make (op : Op) (a : JSVal) :
    runPatch (reverse (make op)) a = runOp (reverseOp op) a := rfl

theorem reverse_op_eq (p : Patch) : (reverse p).op = reverseOp p.op := rfl

theorem reverseNestedOp_asNested {op : Op} (h : op ≠ .identical) :
    reverseNestedOp op.asNested = (reverseOp op).asNested := by
  cases op with
  | identical => exact absurd rfl h
  | replace s d => rfl
  | objectOps l => rfl
  | arrayOps l => rfl

theorem reverseOp_ne_identical {op : Op} (h : op ≠ .identical) :
    reverseOp op ≠ .identical := by
  cases op with
  | identical => exact absurd rfl h
  | replace s d => simp [reverseOp]
  | objectOps l => simp [reverseOp]
  | arrayOps l => simp [reverseOp]

theorem mem_reverseEntriesI {l : List (Nat × NestedOp)} {p : Nat × NestedOp}
    (hp : p ∈ reverseEntriesI l) : ∃ q ∈ l, p = (q.1, reverseNestedOp q.2) := by
  induction l with
  | nil => rw [reverseEntriesI] at hp; simp at hp
  | cons q rest ih =>
    cases q with
    | mk i op =>
      rw [reverseEntriesI] at hp
      rcases List.mem_cons.mp hp with h | h
      · exact ⟨(i, op), by simp, by simp [h]⟩
      · rcases ih h with ⟨q', hq', he⟩
        exact ⟨q', by simp [hq'], he⟩

/-- Reversibility: applying the reverse of the patch a compiled differ
produced for `(f, t)` to `t` yields a value structurally equal to `f`,
for all conformant values containing no `-0`. -/
theorem reverse_sound :
    ∀ (env : List AST), wfEnv env = true →
    ∀ (fuel : Nat) (ast : AST), wfB ast = true →
    ∀ (d : Differ), go env fuel ast = some d →
    ∀ (f t : JSVal), conformsB env fuel ast f = true →
      conformsB env fuel ast t = true →
      noNegZero f = true → noNegZero t = true →
      sEq (runPatch (reverse (d f t)) t) f = true := by
  intro env henv fuel
  induction fuel using Nat.strong_induction_on with
  | _ fuel ihfuel =>
    intro ast
    induction ast using AST.myInductA with
    | hnum =>
      intro _ d hgo f t hcf hct hnf hnt
      rw [go] at hgo
      obtain rfl := Option.some.inj hgo
      have hwff := conforms_wfVal env fuel .numberKeyword f hcf
      by_cases hobj : objectIs f t = true
      · obtain rfl : f = t := (objectIs_eq_true_iff f t).mp hobj
        rw [runPatch_reverse_make, if_pos hobj, reverseOp, runOp]
        exact sEq_refl f hwff
      · rw [runPatch_reverse_make, if_neg hobj, reverseOp, runOp]
        exact sEq_refl f hwff
    | hstr =>
      intro _ d hgo f t hcf hct hnf hnt
      rw [go] at hgo
      obtain rfl := Option.some.inj hgo
      have hwff := conforms_wfVal env fuel .stringKeyword f hcf
      by_cases hse : strictEq f t = true
      · have hprim : isPrimitive f = true := by
          cases f <;> simp_all [conformsB, isPrimitive]
        obtain rfl : f = t := strictEq_eq_of_true hprim hnf hnt hse
        rw [leafStrictDiffer, runPatch_reverse_make, if_pos hse, reverseOp, runOp]
        exact sEq_refl f hwff
      · rw [leafStrictDiffer, runPatch_reverse_make, if_neg hse, reverseOp, runOp]
        exact sEq_refl f hwff
    | hbool =>
      intro _ d hgo f t hcf hct hnf hnt
      rw [go] at hgo
      obtain rfl := Option.some.inj hgo
      have hwff := conforms_wfVal env fuel .booleanKeyword f hcf
      by_cases hse : strictEq f t = true
      · have hprim : isPrimitive f = true := by
          cases f <;> simp_all [conformsB, isPrimitive]
        obtain rfl : f = t := strictEq_eq_of_true hprim hnf hnt hse
        rw [leafStrictDiffer, runPatch_reverse_make, if_pos hse, reverseOp, runOp]
        exact sEq_refl f hwff
      · rw [leafStrictDiffer, runPatch_reverse_make, if_neg hse, reverseOp, runOp]
        exact sEq_refl f hwff
    | hunk =>
      intro _ d hgo f t hcf hct hnf hnt
      rw [go] at hgo
      obtain rfl := Option.some.inj hgo
      have hwff := conforms_wfVal env fuel .unknownKeyword f hcf
      by_cases hse : strictEq f t = true
      · have hprim : isPrimitive f = true := by
          rw [conformsB] at hcf
          exact hcf
        obtain rfl : f = t := strictEq_eq_of_true hprim hnf hnt hse
        rw [leafStrictDiffer, runPatch_reverse_make, if_pos hse, reverseOp, runOp]
        exact sEq_refl f hwff
      · rw [leafStrictDiffer, runPatch_reverse_make, if_neg hse, reverseOp, runOp]
        exact sEq_refl f hwff
    | href base ih =>
      intro hwf d hgo f t hcf hct hnf hnt
      rw [wfB] at hwf
      rw [go] at hgo
      rw [conformsB] at hcf hct
      exact ih hwf d hgo f t hcf hct hnf hnt
    | hlazy i =>
      intro _ d hgo f t hcf hct hnf hnt
      cases fuel with
      | zero => simp [go] at hgo
      | succ n =>
        rw [go] at hgo
        rw [conformsB] at hcf hct
        rcases he : env[i]? with _ | a
        · rw [he] at hgo; simp at hgo
        · rw [he] at hgo hcf hct
          have hwa : wfB a = true := by
            rw [wfEnv, List.all_eq_true] at henv
            exact henv a (List.getElem?_mem he)
          exact ihfuel n (by omega) a hwa d hgo f t hcf hct hnf hnt
    | htup es ihes =>
      intro hwf d hgo f t hcf hct hnf hnt
      rcases go_tuple_inv hgo with ⟨ds, hds, rfl⟩
      rw [wfB] at hwf
      cases f with
      | arr xs =>
        cases t with
        | arr ys =>
          have hcf' := hcf
          have hct' := hct
          rw [conformsB] at hcf' hct'
          rcases conformsElems_facts hcf' with ⟨hlenf, hpf⟩
          rcases conformsElems_facts hct' with ⟨hlent, hpt⟩
          have hlends : ds.length = es.length := goElems_length hds
          rcases hentries : diffElemsAux ds (.arr xs) (.arr ys) 0 with _ | ⟨e0, erest⟩
          · have hido : (tupleDiffer ds (.arr xs) (.arr ys)).op = Op.identical := by
              show mkArrOp (diffElemsAux ds (.arr xs) (.arr ys) 0) = Op.identical
              rw [hentries, mkArrOp]
            have hseq := identical_sound env henv fuel (.tuple es)
              (by rw [wfB]; exact hwf) (tupleDiffer ds)
              (by rw [go, hds]) (.arr xs) (.arr ys) hcf hct hnf hnt hido
            rw [runPatch_reverse, hido, reverseOp, runOp]
            exact sEq_symm (.arr xs) (conforms_wfVal env fuel (.tuple es) _ hcf)
              (.arr ys) (conforms_wfVal env fuel (.tuple es) _ hct) hseq
          · have hrw : (tupleDiffer ds (.arr xs) (.arr ys)).op =
                Op.arrayOps (e0 :: erest) := by
              show mkArrOp (diffElemsAux ds (.arr xs) (.arr ys) 0) = _
              rw [hentries]
              rfl
            rw [runPatch_reverse, hrw, reverseOp, runOp]
            have hAR : ∀ p ∈ reverseEntriesI (e0 :: erest),
                isAddRemove p.2 = false := by
              intro p hp
              rcases mem_reverseEntriesI hp with ⟨q, hq, rfl⟩
              rw [← hentries] at hq
              show isAddRemove (reverseNestedOp q.2) = false
              rw [isAddRemove_reverseNestedOp]
              exact (diffElemsAux_mem_facts ds _ _ 0 q hq).2.2
            have hbound : ∀ p ∈ reverseEntriesI (e0 :: erest),
                p.1 < (asElems (.arr ys)).length := by
              intro p hp
              rcases mem_reverseEntriesI hp with ⟨q, hq, rfl⟩
              rw [← hentries] at hq
              have := (diffElemsAux_mem_facts ds _ _ 0 q hq).2.1
              show q.1 < ys.length
              omega
            have hndent : ((reverseEntriesI (e0 :: erest)).map Prod.fst).Nodup := by
              rw [map_fst_reverseEntriesI, ← hentries]
              exact diffElemsAux_nodup ds _ _ 0
            rcases runArrOps_noAR (.arr ys) (reverseEntriesI (e0 :: erest))
              (asElems (.arr ys)) hAR hbound hndent with ⟨hlen, hgetD⟩
            rw [sEq_arr_iff]
            have hlenys : (asElems (.arr ys)).length = ys.length := rfl
            apply sEqElems_of_getD _ _ (by rw [hlen, hlenys]; omega)
            intro j hj
            rw [hlen, hlenys] at hj
            have hjes : j < es.length := by omega
            have hjds : j < ds.length := by omega
            have hlook := lookupKey_diffElemsAux ds (.arr xs) (.arr ys) 0 j
              (by omega) (by omega)
            rw [hentries] at hlook
            rw [hgetD j, lookupKey_reverseEntriesI]
            have hsub : j - 0 = j := rfl
            rw [hsub] at hlook
            have hmem : es.getD j default ∈ es := by
              rw [List.getD_eq_getElem _ _ hjes]
              exact List.getElem_mem hjes
            have hgoj := goElems_getD hds j hjes
            have harrf : arrGet (.arr xs) j = xs.getD j .undef := rfl
            have harrt : arrGet (.arr ys) j = ys.getD j .undef := rfl
            by_cases hidj : isIdentical
                (((ds.getD j default) (arrGet (.arr xs) j)
                  (arrGet (.arr ys) j)).op) = true
            · rw [if_pos hidj] at hlook
              rw [hlook, Option.map_none']
              have hseq := identical_sound env henv fuel (es.getD j default)
                (wfElems_mem hwf _ hmem) (ds.getD j default) hgoj
                (xs.getD j .undef) (ys.getD j .undef)
                (hpf j hjes) (hpt j hjes)
                (noNegZero_arr_getD hnf (by omega))
                (noNegZero_arr_getD hnt (by omega))
                (by rw [← harrf, ← harrt]; exact isIdentical_iff.mp hidj)
              have hout : (asElems (.arr ys)).getD j .undef = ys.getD j .undef :=
                rfl
              rw [hout]
              exact sEq_symm (xs.getD j .undef)
                (conforms_wfVal env fuel (es.getD j default) _ (hpf j hjes))
                (ys.getD j .undef)
                (conforms_wfVal env fuel (es.getD j default) _ (hpt j hjes))
                hseq
            · rw [if_neg hidj] at hlook
              rw [hlook, Option.map_some']
              have hne : ((ds.getD j default) (arrGet (.arr xs) j)
                  (arrGet (.arr ys) j)).op ≠ Op.identical := by
                intro he
                exact hidj (isIdentical_iff.mpr he)
              rw [reverseNestedOp_asNested hne]
              simp only []
              rw [asOp_asNested (reverseOp_ne_identical hne)]
              have hrp := ihes (es.getD j default) hmem
                (wfElems_mem hwf _ hmem) (ds.getD j default) hgoj
                (xs.getD j .undef) (ys.getD j .undef)
                (hpf j hjes) (hpt j hjes)
                (noNegZero_arr_getD hnf (by omega))
                (noNegZero_arr_getD hnt (by omega))
              rw [runPatch_reverse] at hrp
              rw [harrf, harrt]
              exact hrp
        | nan => simp [conformsB] at hct
        | negZero => simp [conformsB] at hct
        | num n => simp [conformsB] at hct
        | str s => simp [conformsB] at hct
        | boolean b => simp [conformsB] at hct
        | undef => simp [conformsB] at hct
        | obj gs => simp [conformsB] at hct
      | nan => simp [conformsB] at hcf
      | negZero => simp [conformsB] at hcf
      | num n => simp [conformsB] at hcf
      | str s => simp [conformsB] at hcf
      | boolean b => simp [conformsB] at hcf
      | undef => simp [conformsB] at hcf
      | obj fs => simp [conformsB] at hcf
    | hlit props isigs ihp ihs =>
      intro hwf d hgo f t hcf hct hnf hnt
      rcases go_typeLiteral_inv hgo with ⟨fields, sigs, hfields, hsigs, rfl⟩
      have hwf' := hwf
      rw [wfB, Bool.and_eq_true, Bool.and_eq_true, Bool.and_eq_true] at hwf'
      rcases hwf' with ⟨⟨⟨hnp, hns⟩, hwp⟩, hws⟩
      have hndexp : (props.map Prod.fst).Nodup := (nodupKeyList_iff _).mp hnp
      have hndparam : (isigs.map Prod.fst).Nodup := (nodupParamList_iff _).mp hns
      cases f with
      | obj fs =>
        cases t with
        | obj gs =>
          have hcf' := hcf
          have hct' := hct
          rw [conformsB, Bool.and_eq_true, Bool.and_eq_true] at hcf' hct'
          have hndf : (fs.map Prod.fst).Nodup :=
            (nodupKeys_iff fs).mp hcf'.1.1
          have hndg : (gs.map Prod.fst).Nodup :=
            (nodupKeys_iff gs).mp hct'.1.1
          have hndsigs : (sigs.map Prod.fst).Nodup := by
            rw [goSigs_params hsigs]
            exact hndparam
          have hndentries := structDiffer_entries_nodup fields sigs
            (props.map Prod.fst) (.obj fs) (.obj gs) (goProps_keys hfields)
            hndexp hndf hndg hndsigs
          have hlookup := fun k => structDiffer_lookup fields sigs
            (props.map Prod.fst) (.obj fs) (.obj gs) k (goProps_keys hfields)
            hndexp hndf hndg hndsigs
          rcases hentries : diffFields fields (.obj fs) (.obj gs) ++
              diffSigs sigs (props.map Prod.fst) (.obj fs) (.obj gs) with
            _ | ⟨e0, erest⟩
          · have hido : (structDiffer fields sigs (props.map Prod.fst)
                (.obj fs) (.obj gs)).op = Op.identical := by
              show mkObjOp (diffFields fields (.obj fs) (.obj gs) ++
                diffSigs sigs (props.map Prod.fst) (.obj fs) (.obj gs)) = _
              rw [hentries, mkObjOp]
            have hseq := identical_sound env henv fuel
              (.typeLiteral props isigs) hwf
              (structDiffer fields sigs (props.map Prod.fst))
              (by rw [go, hfields, hsigs]) (.obj fs) (.obj gs)
              hcf hct hnf hnt hido
            rw [runPatch_reverse, hido, reverseOp, runOp]
            exact sEq_symm (.obj fs)
              (conforms_wfVal env fuel (.typeLiteral props isigs) _ hcf)
              (.obj gs)
              (conforms_wfVal env fuel (.typeLiteral props isigs) _ hct) hseq
          · have hrw : (structDiffer fields sigs (props.map Prod.fst)
                (.obj fs) (.obj gs)).op = Op.objectOps (e0 :: erest) := by
              show mkObjOp (diffFields fields (.obj fs) (.obj gs) ++
                diffSigs sigs (props.map Prod.fst) (.obj fs) (.obj gs)) = _
              rw [hentries]
              rfl
            rw [runPatch_reverse, hrw, reverseOp, runOp]
            have hndentries' : ((e0 :: erest).map Prod.fst).Nodup := by
              rw [← hentries]
              exact hndentries
            have hndrev : ((reverseEntriesK (e0 :: erest)).map Prod.fst).Nodup := by
              rw [map_fst_reverseEntriesK]
              exact hndentries'
            apply sEq_obj_of_lookup
            · exact runObjOps_keys_nodup (.obj gs) (reverseEntriesK (e0 :: erest))
                (asFields (.obj gs)) hndg
            intro k
            rw [runObjOps_lookup (.obj gs) (reverseEntriesK (e0 :: erest))
              (asFields (.obj gs)) k hndrev]
            rw [lookupKey_reverseEntriesK]
            have hent := hlookup k
            rw [hentries] at hent
            rw [hent]
            rcases responsible_correspond hfields hsigs k with
              ⟨hra, hrd⟩ | ⟨a, da, hra, hrd, hgd⟩
            · rw [hrd]
              simp only []
              rw [Option.map_none']
              simp only []
              rcases hgk : lookupKey gs k with _ | w
              · rcases hfk : lookupKey fs k with _ | v
                · have h1 : lookupField (asFields (.obj gs)) k = none := hgk
                  have h2 : lookupField fs k = none := hfk
                  rw [h1, h2]
                  trivial
                · rcases conforms_responsible hcf hndparam k v hfk with
                    ⟨a, ha, _⟩
                  rw [hra] at ha
                  cases ha
              · rcases conforms_responsible hct hndparam k w hgk with
                  ⟨a, ha, _⟩
                rw [hra] at ha
                cases ha
            · rw [hrd]
              have hIH : wfB a = true → ∀ (d' : Differ),
                  go env fuel a = some d' → ∀ (f' t' : JSVal),
                  conformsB env fuel a f' = true →
                  conformsB env fuel a t' = true →
                  noNegZero f' = true → noNegZero t' = true →
                  sEq (runPatch (reverse (d' f' t')) t') f' = true := by
                rcases responsibleAST_cases hra with ⟨p, hp, he⟩ | ⟨sg, hs, he⟩
                · exact he ▸ ihp p hp
                · exact he ▸ ihs sg hs
              have hwa : wfB a = true := by
                rcases responsibleAST_cases hra with ⟨p, hp, he⟩ | ⟨sg, hs, he⟩
                · exact he ▸ wfProps_mem hwp p hp
                · exact he ▸ wfSigs_mem hws sg hs
              simp only []
              unfold entryForKey
              by_cases hof : hasOwn (.obj fs) k = true
              · rcases hasOwn_obj_true hof with ⟨v, hv, hgv⟩
                rcases conforms_responsible hcf hndparam k v hv with
                  ⟨a', ha', hcv⟩
                rw [hra] at ha'
                obtain rfl := Option.some.inj ha'
                rw [if_pos hof]
                have hf' : lookupField fs k = some v := hv
                by_cases hot : hasOwn (.obj gs) k = true
                · rcases hasOwn_obj_true hot with ⟨w, hw, hgw⟩
                  rcases conforms_responsible hct hndparam k w hw with
                    ⟨a'', ha'', hcw⟩
                  rw [hra] at ha''
                  obtain rfl := Option.some.inj ha''
                  rw [if_pos hot]
                  by_cases hidk : isIdentical
                      ((da (getProp (.obj fs) k) (getProp (.obj gs) k)).op)
                      = true
                  · rw [if_pos hidk]
                    have hseq := identical_sound env henv fuel a hwa da hgd
                      v w hcv hcw
                      (noNegZero_obj_lookup hnf hv)
                      (noNegZero_obj_lookup hnt hw)
                      (by rw [hgv, hgw] at hidk; exact isIdentical_iff.mp hidk)
                    rw [Option.map_none']
                    simp only []
                    have hg' : lookupField (asFields (.obj gs)) k = some w := hw
                    rw [hg', hf']
                    exact sEq_symm v (conforms_wfVal env fuel a v hcv)
                      w (conforms_wfVal env fuel a w hcw) hseq
                  · rw [if_neg hidk]
                    rw [Option.map_some']
                    have hrp := hIH hwa da hgd v w hcv hcw
                      (noNegZero_obj_lookup hnf hv)
                      (noNegZero_obj_lookup hnt hw)
                    rw [runPatch_reverse] at hrp
                    rcases hopk : (da (getProp (.obj fs) k)
                        (getProp (.obj gs) k)).op with _ | ⟨s', dd⟩ | ll | ll
                    · rw [hopk] at hidk
                      simp [isIdentical] at hidk
                    · simp only [Op.asNested, reverseNestedOp, NestedOp.asOp]
                      rw [hgw]
                      rw [hgv, hgw] at hopk
                      rw [hf']
                      have hrev : Op.replace dd s' = reverseOp ((da v w).op) := by
                        rw [hopk]
                        rfl
                      rw [hrev]
                      exact hrp
                    · simp only [Op.asNested, reverseNestedOp, NestedOp.asOp]
                      rw [hgw]
                      rw [hgv, hgw] at hopk
                      rw [hf']
                      have hrev : Op.objectOps (reverseEntriesK ll) =
                          reverseOp ((da v w).op) := by
                        rw [hopk]
                        rfl
                      rw [hrev]
                      exact hrp
                    · simp only [Op.asNested, reverseNestedOp, NestedOp.asOp]
                      rw [hgw]
                      rw [hgv, hgw] at hopk
                      rw [hf']
                      have hrev : Op.arrayOps (reverseEntriesI ll) =
                          reverseOp ((da v w).op) := by
                        rw [hopk]
                        rfl
                      rw [hrev]
                      exact hrp
                · rw [if_neg hot]
                  rw [Option.map_some']
                  simp only [reverseNestedOp]
                  rw [hgv, hf']
                  exact sEq_refl v (conforms_wfVal env fuel a v hcv)
              · rw [if_neg hof]
                by_cases hot : hasOwn (.obj gs) k = true
                · rw [if_pos hot]
                  rw [Option.map_some']
                  simp only [reverseNestedOp]
                  have hf' : lookupField fs k = none :=
                    hasOwn_obj_false (by simpa using hof)
                  rw [hf']
                  trivial
                · rw [if_neg hot]
                  rw [Option.map_none']
                  simp only []
                  have hg' : lookupField (asFields (.obj gs)) k = none :=
                    hasOwn_obj_false (by simpa using hot)
                  have hf' : lookupField fs k = none :=
                    hasOwn_obj_false (by simpa using hof)
                  rw [hg', hf']
                  trivial
        | nan => simp [conformsB] at hct
        | negZero => simp [conformsB] at hct
        | num n => simp [conformsB] at hct
        | str s => simp [conformsB] at hct
        | boolean b => simp [conformsB] at hct
        | undef => simp [conformsB] at hct
        | arr ys => simp [conformsB] at hct
      | nan => simp [conformsB] at hcf
      | negZero => simp [conformsB] at hcf
      | num n => simp [conformsB] at hcf
      | str s => simp [conformsB] at hcf
      | boolean b => simp [conformsB] at hcf
      | undef => simp [conformsB] at hcf
      | arr xs => simp [conformsB] at hcf


/-! ### Identity-diff helpers -/

theorem flatten_nil_of_forall {α β : Type} {l : List α} {g : α → List β}
    (h : ∀ x ∈ l, g x = []) : (l.map g).flatten = [] := by
  induction l with
  | nil => rfl
  | cons x xs ih =>
    rw [List.map_cons, List.flatten_cons, h x (by simp), List.nil_append]
    exact ih (fun y hy => h y (by simp [hy]))

theorem lookupSig_eq_of_mem {sigs : List (SigParam × Differ)} {param : SigParam}
    {d : Differ} {k : PropKey} (hmem : (param, d) ∈ sigs)
    (hkm : keyMatches k param = true) (hnd : (sigs.map Prod.fst).Nodup) :
    lookupSig sigs k = some d := by
  induction sigs with
  | nil => simp at hmem
  | cons s rest ih =>
    cases s with
    | mk p' d' =>
      rw [List.map_cons, List.nodup_cons] at hnd
      rw [lookupSig]
      rcases List.mem_cons.mp hmem with h | h
      · injection h with h1 h2
        subst h1
        subst h2
        rw [if_pos hkm]
      · by_cases hkp : keyMatches k p' = true
        · exfalso
          apply hnd.1
          rw [keyMatches_unique hkp hkm]
          exact List.mem_map.mpr ⟨(param, d), h, rfl⟩
        · rw [if_neg hkp]
          exact ih h hnd.2

theorem diffElemsAux_self :
    ∀ (ds : List Differ) (f : JSVal) (i : Nat),
      (∀ j, j < ds.length →
        isIdentical (((ds.getD j default) (arrGet f (i + j))
          (arrGet f (i + j))).op) = true) →
      diffElemsAux ds f f i = [] := by
  intro ds
  induction ds with
  | nil => intro f i _; rw [diffElemsAux]
  | cons d rest ih =>
    intro f i h
    rw [diffElemsAux]
    have h0 := h 0 (by simp)
    rw [List.getD_cons_zero, Nat.add_zero] at h0
    rw [if_pos h0, List.nil_append]
    apply ih f (i + 1)
    intro j hj
    have hjj := h (j + 1) (by simp only [List.length_cons]; omega)
    rw [List.getD_cons_succ] at hjj
    have hadd : i + 1 + j = i + (j + 1) := by omega
    rw [hadd]
    exact hjj

theorem diffFields_self :
    ∀ (fields : List (PropKey × Differ)) (f : JSVal),
      (∀ q ∈ fields, hasOwn f q.1 = true →
        isIdentical ((q.2 (getProp f q.1) (getProp f q.1)).op) = true) →
      diffFields fields f f = [] := by
  intro fields
  induction fields with
  | nil => intro f _; rw [diffFields]
  | cons q rest ih =>
    intro f h
    cases q with
    | mk name d' =>
      rw [diffFields]
      by_cases hof : hasOwn f name = true
      · rw [if_pos hof, if_pos hof, if_pos (h (name, d') (by simp) hof),
          List.nil_append]
        exact ih f (fun q hq => h q (by simp [hq]))
      · rw [if_neg hof, if_neg hof, List.nil_append]
        exact ih f (fun q hq => h q (by simp [hq]))

theorem diffSigOne_self (param : SigParam) (d : Differ)
    (expected : List PropKey) (f : JSVal)
    (h : ∀ name, hasOwn f name = true → keyMatches name param = true →
      name ∉ expected →
      isIdentical ((d (getProp f name) (getProp f name)).op) = true) :
    diffSigOne param d expected f f = [] := by
  rw [diffSigOne]
  have h1 : ∀ name ∈ keysMatching f param,
      diffSigFromEntry d expected f f name = [] := by
    intro name hname
    rcases mem_keysMatching.mp hname with ⟨hown, hkm⟩
    rw [diffSigFromEntry]
    by_cases he : name ∈ expected
    · rw [if_pos he]
    · rw [if_neg he, if_pos hown, if_pos (h name hown hkm he)]
  have h2 : ∀ name ∈ keysMatching f param,
      diffSigToEntry expected f f name = [] := by
    intro name hname
    rcases mem_keysMatching.mp hname with ⟨hown, _⟩
    rw [diffSigToEntry]
    by_cases he : name ∈ expected
    · rw [if_pos he]
    · rw [if_neg he, if_pos hown]
  rw [flatten_nil_of_forall h1, flatten_nil_of_forall h2]
  rfl

theorem diffSigs_self :
    ∀ (sigs : List (SigParam × Differ)) (expected : List PropKey) (f : JSVal),
      (∀ s ∈ sigs, ∀ name, hasOwn f name = true →
        keyMatches name s.1 = true → name ∉ expected →
        isIdentical ((s.2 (getProp f name) (getProp f name)).op) = true) →
      diffSigs sigs expected f f = [] := by
  intro sigs
  induction sigs with
  | nil => intro expected f _; rw [diffSigs]
  | cons s rest ih =>
    intro expected f h
    cases s with
    | mk param d' =>
      rw [diffSigs]
      rw [diffSigOne_self param d' expected f
        (fun name hown hkm hne => h (param, d') (by simp) name hown hkm hne),
        List.nil_append]
      exact ih expected f (fun s hs => h s (by simp [hs]))

/-- Identity: the patch a compiled differ produces for a conformant
`NaN`-free value against itself is `Identical`. -/
theorem identity_sound :
    ∀ (env : List AST), wfEnv env = true →
    ∀ (fuel : Nat) (ast : AST), wfB ast = true →
    ∀ (d : Differ), go env fuel ast = some d →
    ∀ (a : JSVal), conformsB env fuel ast a = true →
      noNaN a = true → (d a a).op = Op.identical := by
  intro env henv fuel
  induction fuel using Nat.strong_induction_on with
  | _ fuel ihfuel =>
    intro ast
    induction ast using AST.myInductA with
    | hnum =>
      intro _ d hgo a hca hnn
      rw [go] at hgo
      obtain rfl := Option.some.inj hgo
      show (make (if objectIs a a then Op.identical else Op.replace a a)).op =
        Op.identical
      rw [if_pos ((objectIs_eq_true_iff a a).mpr rfl)]
      rfl
    | hstr =>
      intro _ d hgo a hca hnn
      rw [go] at hgo
      obtain rfl := Option.some.inj hgo
      have hprim : isPrimitive a = true := by
        cases a <;> simp_all [conformsB, isPrimitive]
      show (make (if strictEq a a then Op.identical else Op.replace a a)).op =
        Op.identical
      rw [if_pos (strictEq_refl hprim hnn)]
      rfl
    | hbool =>
      intro _ d hgo a hca hnn
      rw [go] at hgo
      obtain rfl := Option.some.inj hgo
      have hprim : isPrimitive a = true := by
        cases a <;> simp_all [conformsB, isPrimitive]
      show (make (if strictEq a a then Op.identical else Op.replace a a)).op =
        Op.identical
      rw [if_pos (strictEq_refl hprim hnn)]
      rfl
    | hunk =>
      intro _ d hgo a hca hnn
      rw [go] at hgo
      obtain rfl := Option.some.inj hgo
      have hprim : isPrimitive a = true := by
        rw [conformsB] at hca
        exact hca
      show (make (if strictEq a a then Op.identical else Op.replace a a)).op =
        Op.identical
      rw [if_pos (strictEq_refl hprim hnn)]
      rfl
    | href base ih =>
      intro hwf d hgo a hca hnn
      rw [wfB] at hwf
      rw [go] at hgo
      rw [conformsB] at hca
      exact ih hwf d hgo a hca hnn
    | hlazy i =>
      intro _ d hgo a hca hnn
      cases fuel with
      | zero => simp [go] at hgo
      | succ n =>
        rw [go] at hgo
        rw [conformsB] at hca
        rcases he : env[i]? with _ | b
        · rw [he] at hgo; simp at hgo
        · rw [he] at hgo hca
          have hwb : wfB b = true := by
            rw [wfEnv, List.all_eq_true] at henv
            exact henv b (List.getElem?_mem he)
          exact ihfuel n (by omega) b hwb d hgo a hca hnn
    | htup es ihes =>
      intro hwf d hgo a hca hnn
      rcases go_tuple_inv hgo with ⟨ds, hds, rfl⟩
      rw [wfB] at hwf
      cases a with
      | arr xs =>
        have hca' := hca
        rw [conformsB] at hca'
        rcases conformsElems_facts hca' with ⟨hlen, hp⟩
        have hlends : ds.length = es.length := goElems_length hds
        show mkArrOp (diffElemsAux ds (.arr xs) (.arr xs) 0) = Op.identical
        have hid0 : diffElemsAux ds (.arr xs) (.arr xs) 0 = [] := by
          apply diffElemsAux_self
          intro j hj
          have hjes : j < es.length := by omega
          have hmem : es.getD j default ∈ es := by
            rw [List.getD_eq_getElem _ _ hjes]
            exact List.getElem_mem hjes
          have hgoj := goElems_getD hds j hjes
          have harr : arrGet (.arr xs) (0 + j) = xs.getD j .undef := by
            show xs.getD (0 + j) .undef = xs.getD j .undef
            rw [Nat.zero_add]
          rw [harr]
          rw [ihes (es.getD j default) hmem (wfElems_mem hwf _ hmem)
            (ds.getD j default) hgoj (xs.getD j .undef) (hp j hjes)
            (noNaN_arr_getD hnn (by omega))]
          rfl
        rw [hid0]
        rfl
      | nan => simp [conformsB] at hca
      | negZero => simp [conformsB] at hca
      | num n => simp [conformsB] at hca
      | str s => simp [conformsB] at hca
      | boolean b => simp [conformsB] at hca
      | undef => simp [conformsB] at hca
      | obj fs => simp [conformsB] at hca
    | hlit props isigs ihp ihs =>
      intro hwf d hgo a hca hnn
      rcases go_typeLiteral_inv hgo with ⟨fields, sigs, hfields, hsigs, rfl⟩
      have hwf' := hwf
      rw [wfB, Bool.and_eq_true, Bool.and_eq_true, Bool.and_eq_true] at hwf'
      rcases hwf' with ⟨⟨⟨hnp, hns⟩, hwp⟩, hws⟩
      have hndexp : (props.map Prod.fst).Nodup := (nodupKeyList_iff _).mp hnp
      have hndparam : (isigs.map Prod.fst).Nodup := (nodupParamList_iff _).mp hns
      cases a with
      | obj fs =>
        have hndfields : (fields.map Prod.fst).Nodup := by
          rw [goProps_keys hfields]
          exact hndexp
        have hndsigs : (sigs.map Prod.fst).Nodup := by
          rw [goSigs_params hsigs]
          exact hndparam
        show mkObjOp (diffFields fields (.obj fs) (.obj fs) ++
          diffSigs sigs (props.map Prod.fst) (.obj fs) (.obj fs)) = Op.identical
        have hcore : ∀ (da : Differ) (k : PropKey) (v : JSVal),
            responsibleDiffer fields sigs k = some da →
            lookupKey fs k = some v →
            (da v v).op = Op.identical := by
          intro da k v hrd0 hv
          rcases responsible_correspond hfields hsigs k with
            ⟨hra, hrd'⟩ | ⟨b, db, hra, hrd', hgd⟩
          · rw [hrd'] at hrd0
            cases hrd0
          · rw [hrd'] at hrd0
            obtain rfl := Option.some.inj hrd0
            rcases conforms_responsible hca hndparam k v hv with ⟨b', hb', hcv⟩
            rw [hra] at hb'
            obtain rfl := Option.some.inj hb'
            have hwb : wfB b = true := by
              rcases responsibleAST_cases hra with ⟨p, hp, he⟩ | ⟨sg, hs, he⟩
              · exact he ▸ wfProps_mem hwp p hp
              · exact he ▸ wfSigs_mem hws sg hs
            rcases responsibleAST_cases hra with ⟨p, hp, he⟩ | ⟨sg, hs, he⟩
            · refine ihp p hp ?_ db ?_ v ?_ ?_ <;> (try rw [he]) <;>
                first
                  | exact hwb
                  | exact hgd
                  | exact hcv
                  | exact noNaN_obj_lookup hnn hv
            · refine ihs sg hs ?_ db ?_ v ?_ ?_ <;> (try rw [he]) <;>
                first
                  | exact hwb
                  | exact hgd
                  | exact hcv
                  | exact noNaN_obj_lookup hnn hv
        have hf0 : diffFields fields (.obj fs) (.obj fs) = [] := by
          apply diffFields_self
          intro q hq hof
          rcases hasOwn_obj_true hof with ⟨v, hv, hgv⟩
          have hld : lookupKey fields q.1 = some q.2 :=
            lookupKey_eq_of_mem_nodup hq hndfields
          have hrd0 : responsibleDiffer fields sigs q.1 = some q.2 := by
            rw [responsibleDiffer, hld]
          rw [hgv]
          rw [hcore q.2 q.1 v hrd0 hv]
          rfl
        have hs0 : diffSigs sigs (props.map Prod.fst) (.obj fs) (.obj fs) = [] := by
          apply diffSigs_self
          intro s hs name hown hkm hne
          rcases hasOwn_obj_true hown with ⟨v, hv, hgv⟩
          have hls : lookupSig sigs name = some s.2 :=
            lookupSig_eq_of_mem hs hkm hndsigs
          have hlf : lookupKey fields name = none := by
            apply lookupKey_eq_none_iff.mpr
            rw [goProps_keys hfields]
            exact hne
          have hrd0 : responsibleDiffer fields sigs name = some s.2 := by
            rw [responsibleDiffer, hlf, hls]
          rw [hgv]
          rw [hcore s.2 name v hrd0 hv]
          rfl
        rw [hf0, hs0]
        rfl
      | nan => simp [conformsB] at hca
      | negZero => simp [conformsB] at hca
      | num n => simp [conformsB] at hca
      | str s => simp [conformsB] at hca
      | boolean b => simp [conformsB] at hca
      | undef => simp [conformsB] at hca
      | arr xs => simp [conformsB] at hca


/-! ### Cycle behaviour of the compiler -/

theorem go_cycle_none :
    ∀ fuel : Nat, go [AST.typeLiteral [(PropKey.str "a", AST.lazyRef 0)] []]
      fuel (AST.lazyRef 0) = none := by
  intro fuel
  induction fuel with
  | zero => rw [go]
  | succ n ih => simp [go, goProps, goSigs, ih]

/-! ### Spec-side declared-field phase (the claim's wording) -/

/-- The entry contribution of one declared field, as the claim words
it: recursive entry when present in both and non-identical, `Remove`
when present only in `from`, `Add` when present only in `to`. -/
def specFieldEntry (d : Differ) (f t : JSVal) (name : PropKey) :
    List (PropKey × NestedOp) :=
  if hasOwn f name then
    if hasOwn t name then
      (if isIdentical ((d (getProp f name) (getProp t name)).op) then []
       else [(name, ((d (getProp f name) (getProp t name)).op).asNested)])
    else [(name, .remove (getProp f name))]
  else if hasOwn t name then [(name, .add (getProp t name))]
  else []

/-- The whole declared-field phase, as the claim words it: one
contribution per declared field, in declaration order. -/
def specFieldEntries (fields : List (PropKey × Differ)) (f t : JSVal) :
    List (PropKey × NestedOp) :=
  (fields.map (fun q => specFieldEntry q.2 f t q.1)).flatten

theorem diffFields_eq_spec :
    ∀ (fields : List (PropKey × Differ)) (f t : JSVal),
      diffFields fields f t = specFieldEntries fields f t := by
  intro fields
  induction fields with
  | nil => intro f t; rw [diffFields, specFieldEntries]; rfl
  | cons q rest ih =>
    intro f t
    cases q with
    | mk name d' =>
      have hcons : specFieldEntries ((name, d') :: rest) f t =
          specFieldEntry d' f t name ++ specFieldEntries rest f t := by
        rw [specFieldEntries, List.map_cons, List.flatten_cons]
        rfl
      rw [diffFields, hcons, ← ih f t]
      rfl

theorem mkObjOp_spec (entries : List (PropKey × NestedOp)) :
    mkObjOp entries =
      if entries.isEmpty then Op.identical else Op.objectOps entries := by
  cases entries <;> rfl

/-! ### Lowering characterization (`getJSONPatch`) -/

theorem jpObjectOps_loop :
    ∀ (ops : List (PropKey × NestedOp)),
      (∀ p ∈ ops, ∀ path, (jpNested path p.2).toOption =
        if badNested p.2 then none else some (entriesNested path p.2)) →
      ∀ path, (jpObjectOps path ops).toOption =
        if badKeyEntries ops then none else some (entriesKey path ops) := by
  intro ops
  induction ops with
  | nil =>
    intro _ path
    simp [jpObjectOps, badKeyEntries, entriesKey, pure, Except.pure,
      Except.toOption]
  | cons q rest ih =>
    intro h path
    cases q with
    | mk key op =>
      rw [jpObjectOps, badKeyEntries, entriesKey]
      cases key with
      | sym i =>
        simp [validateString, bind, Except.bind, Except.toOption, isStrKey]
      | str s =>
        have hop := h (PropKey.str s, op) (by simp) (path ++ [s])
        have hrest := ih (fun p hp => h p (by simp [hp])) path
        rcases hjp : jpNested (path ++ [s]) op with e | here
        · rw [hjp] at hop
          simp only [Except.toOption] at hop
          have hbad : badNested op = true := by
            by_contra hc
            rw [Bool.not_eq_true] at hc
            rw [hc] at hop
            simp at hop
          simp [validateString, bind, Except.bind, hjp, Except.toOption,
            hbad, isStrKey]
        · rw [hjp] at hop
          simp only [Except.toOption] at hop
          have hbad : badNested op = false := by
            by_contra hc
            rw [Bool.not_eq_false] at hc
            rw [hc] at hop
            simp at hop
          rw [hbad] at hop
          simp at hop
          rcases hro : jpObjectOps path rest with e | there
          · rw [hro] at hrest
            simp only [Except.toOption] at hrest
            have hbr : badKeyEntries rest = true := by
              by_contra hc
              rw [Bool.not_eq_true] at hc
              rw [hc] at hrest
              simp at hrest
            simp [validateString, bind, Except.bind, hjp, hro,
              Except.toOption, hbad, hbr, isStrKey]
          · rw [hro] at hrest
            simp only [Except.toOption] at hrest
            have hbr : badKeyEntries rest = false := by
              by_contra hc
              rw [Bool.not_eq_false] at hc
              rw [hc] at hrest
              simp at hrest
            rw [hbr] at hrest
            simp at hrest
            simp [validateString, bind, Except.bind, hjp, hro, pure,
              Except.pure, Except.toOption, hbad, hbr, isStrKey, hop, hrest,
              keyToString]

theorem jpArrayOps_loop :
    ∀ (ops : List (Nat × NestedOp)),
      (∀ p ∈ ops, ∀ path, (jpNested path p.2).toOption =
        if badNested p.2 then none else some (entriesNested path p.2)) →
      ∀ path, (jpArrayOps path ops).toOption =
        if badIdxEntries ops then none else some (entriesIdx path ops) := by
  intro ops
  induction ops with
  | nil =>
    intro _ path
    simp [jpArrayOps, badIdxEntries, entriesIdx, pure, Except.pure,
      Except.toOption]
  | cons q rest ih =>
    intro h path
    cases q with
    | mk idx op =>
      rw [jpArrayOps, badIdxEntries, entriesIdx]
      have hop := h (idx, op) (by simp) (path ++ [toString idx])
      have hrest := ih (fun p hp => h p (by simp [hp])) path
      rcases hjp : jpNested (path ++ [toString idx]) op with e | here
      · rw [hjp] at hop
        simp only [Except.toOption] at hop
        have hbad : badNested op = true := by
          by_contra hc
          rw [Bool.not_eq_true] at hc
          rw [hc] at hop
          simp at hop
        simp [bind, Except.bind, hjp, Except.toOption, hbad]
      · rw [hjp] at hop
        simp only [Except.toOption] at hop
        have hbad : badNested op = false := by
          by_contra hc
          rw [Bool.not_eq_false] at hc
          rw [hc] at hop
          simp at hop
        rw [hbad] at hop
        simp at hop
        rcases hro : jpArrayOps path rest with e | there
        · rw [hro] at hrest
          simp only [Except.toOption] at hrest
          have hbr : badIdxEntries rest = true := by
            by_contra hc
            rw [Bool.not_eq_true] at hc
            rw [hc] at hrest
            simp at hrest
          simp [bind, Except.bind, hjp, hro, Except.toOption, hbad, hbr]
        · rw [hro] at hrest
          simp only [Except.toOption] at hrest
          have hbr : badIdxEntries rest = false := by
            by_contra hc
            rw [Bool.not_eq_false] at hc
            rw [hc] at hrest
            simp at hrest
          rw [hbr] at hrest
          simp at hrest
          simp [bind, Except.bind, hjp, hro, pure, Except.pure,
            Except.toOption, hbad, hbr, hop, hrest]

theorem jpNested_toOption :
    ∀ (op : NestedOp) (path : List String),
      (jpNested path op).toOption =
        if badNested op then none else some (entriesNested path op) := by
  intro op
  induction op using NestedOp.myInductN with
  | hrep s d =>
    intro path
    rw [jpNested, badNested, entriesNested]
    by_cases hj : isJson d = true
    · simp [validateJson, hj, bind, Except.bind, pure, Except.pure,
        Except.toOption]
    · rw [Bool.not_eq_true] at hj
      simp [validateJson, hj, bind, Except.bind, Except.toOption]
  | hadd v =>
    intro path
    rw [jpNested, badNested, entriesNested]
    by_cases hj : isJson v = true
    · simp [validateJson, hj, bind, Except.bind, pure, Except.pure,
        Except.toOption]
    · rw [Bool.not_eq_true] at hj
      simp [validateJson, hj, bind, Except.bind, Except.toOption]
  | hrem v =>
    intro path
    simp [jpNested, badNested, entriesNested, pure, Except.pure,
      Except.toOption]
  | hobj ops ihops =>
    intro path
    rw [jpNested, badNested, entriesNested]
    exact jpObjectOps_loop ops ihops path
  | harr ops ihops =>
    intro path
    rw [jpNested, badNested, entriesNested]
    exact jpArrayOps_loop ops ihops path

theorem getJSONPatch_toOption (op : Op) :
    (getJSONPatch op).toOption =
      if badOp op then none else some (entriesOp op) := by
  cases op with
  | identical =>
    simp [getJSONPatch, badOp, entriesOp, pure, Except.pure, Except.toOption]
  | replace s d =>
    rw [getJSONPatch, badOp, entriesOp]
    by_cases hj : isJson d = true
    · simp [validateJson, hj, bind, Except.bind, pure, Except.pure,
        Except.toOption]
    · rw [Bool.not_eq_true] at hj
      simp [validateJson, hj, bind, Except.bind, Except.toOption]
  | objectOps ops =>
    rw [getJSONPatch, badOp, entriesOp]
    exact jpObjectOps_loop ops (fun p _ => jpNested_toOption p.2) []
  | arrayOps ops =>
    rw [getJSONPatch, badOp, entriesOp]
    exact jpArrayOps_loop ops (fun p _ => jpNested_toOption p.2) []

/-! ### Spec-side pointer escaping (the claim's wording) -/

/-- One character's escape, as the spec words it. -/
def escapeCharSpec (c : Char) : List Char :=
  if c = '~' then ['~', '0'] else if c = '/' then ['~', '1'] else [c]

/-- Per-segment escaping as one simultaneous per-character
substitution. -/
def escapeSegmentSpec (s : String) : String :=
  String.mk ((s.toList.map escapeCharSpec).flatten)

/-- Pointer rendering with the spec-side escaping. -/
def pointerSpec (path : List String) : String :=
  String.join (path.map (fun s => "/" ++ escapeSegmentSpec s))

theorem replaceAllChar_append (p : Char) (r : List Char) :
    ∀ xs ys, replaceAllChar p r (xs ++ ys) =
      replaceAllChar p r xs ++ replaceAllChar p r ys := by
  intro xs ys
  induction xs with
  | nil => rfl
  | cons c cs ih =>
    rw [List.cons_append, replaceAllChar, replaceAllChar, ih,
      List.append_assoc]

theorem escape_chars_spec :
    ∀ cs : List Char,
      replaceAllChar '/' ['~', '1'] (replaceAllChar '~' ['~', '0'] cs) =
      (cs.map escapeCharSpec).flatten := by
  intro cs
  induction cs with
  | nil => rfl
  | cons c cs ih =>
    rw [replaceAllChar, replaceAllChar_append, List.map_cons,
      List.flatten_cons, ih]
    congr 1
    by_cases h1 : c = '~'
    · subst h1
      rfl
    · rw [if_neg h1]
      by_cases h2 : c = '/'
      · subst h2
        rfl
      · rw [replaceAllChar, if_neg h2, replaceAllChar, escapeCharSpec,
          if_neg h1, if_neg h2]
        rfl

theorem escapeSegment_spec (s : String) : escapeSegment s = escapeSegmentSpec s := by
  rw [escapeSegment, escapeSegmentSpec, escape_chars_spec]

theorem pointer_spec (path : List String) : pointer path = pointerSpec path := by
  rw [pointer, pointerSpec]
  congr 1
  apply List.map_congr_left
  intro s _
  rw [escapeSegment_spec]


/-! ### The claims -/

/-- Claim C1 (amended): round trip — for every shape and every pair of
conformant values containing no `-0`, applying the patch the compiled
differ produces for `(from, to)` to `from` yields a value structurally
equal to `to`.  The `-0` restriction is necessary: `===`-based leaves
identify `-0` with `0`, so the unrestricted claim fails. -/
theorem claim_C1 (env : List AST) (henv : wfEnv env = true) (fuel : Nat)
    (ast : AST) (hwf : wfB ast = true) (d : Differ)
    (hgo : go env fuel ast = some d) (f t : JSVal)
    (hcf : conformsB env fuel ast f = true)
    (hct : conformsB env fuel ast t = true)
    (hnf : noNegZero f = true) (hnt : noNegZero t = true) :
    sEq (runPatch (d f t) f) t = true :=
  roundtrip_sound env henv fuel ast hwf d hgo f t hcf hct hnf hnt

theorem claim_C1_witness :
    sEq (runPatch (leafStrictDiffer (.str "a") (.str "b")) (.str "a"))
      (.str "b") = true :=
  claim_C1 [] rfl 0 .stringKeyword rfl leafStrictDiffer (by simp [go])
    (.str "a") (.str "b") (by simp [conformsB]) (by simp [conformsB])
    (by simp [noNegZero]) (by simp [noNegZero])

/-- Claim C1 counterexample: over the `unknown` leaf shape (an
`===`-compared leaf), diffing `-0` against `0` yields `Identical`, so
applying the patch returns `-0`, which is not structurally equal to
`0`: the round trip fails without the `-0` restriction. -/
theorem claim_C1_counterexample :
    diffApply [] 0 .unknownKeyword .negZero (.num 0) = some .negZero ∧
    sEq .negZero (.num 0) = false := by
  constructor
  · simp [diffApply, go, leafStrictDiffer, strictEq, runPatch, make, runOp]
  · simp [sEq, objectIs]

/-- Claim C2 (amended): reversibility — for every shape and every pair
of conformant values containing no `-0`, applying the reversed patch to
`to` yields a value structurally equal to `from`. -/
theorem claim_C2 (env : List AST) (henv : wfEnv env = true) (fuel : Nat)
    (ast : AST) (hwf : wfB ast = true) (d : Differ)
    (hgo : go env fuel ast = some d) (f t : JSVal)
    (hcf : conformsB env fuel ast f = true)
    (hct : conformsB env fuel ast t = true)
    (hnf : noNegZero f = true) (hnt : noNegZero t = true) :
    sEq (runPatch (reverse (d f t)) t) f = true :=
  reverse_sound env henv fuel ast hwf d hgo f t hcf hct hnf hnt

theorem claim_C2_witness :
    sEq (runPatch (reverse (leafStrictDiffer (.boolean true) (.boolean false)))
      (.boolean false)) (.boolean true) = true :=
  claim_C2 [] rfl 0 .booleanKeyword rfl leafStrictDiffer (by simp [go])
    (.boolean true) (.boolean false) (by simp [conformsB])
    (by simp [conformsB]) (by simp [noNegZero]) (by simp [noNegZero])

/-- Claim C2 counterexample: over the `unknown` leaf shape, diffing `0`
against `-0` yields `Identical`, whose reverse applied to `-0` returns
`-0`, not a value structurally equal to `0`. -/
theorem claim_C2_counterexample :
    diffRevApply [] 0 .unknownKeyword (.num 0) .negZero = some .negZero ∧
    sEq .negZero (.num 0) = false := by
  constructor
  · simp [diffRevApply, go, leafStrictDiffer, strictEq, runPatch, reverse,
      make, reverseOp, runOp]
  · simp [sEq, objectIs]

/-- Claim C3 (amended): `runPatch` applies the entries of an `ArrayOps`
node in ascending list order, one sequential splice per entry — not in
descending index order and with no renumbering; index drift is instead
avoided because compiled differs never emit insertion/removal entries
at array level, and for such entry lists each entry's index addresses
the position captured at diff time. -/
theorem claim_C3 :
    (∀ (a : JSVal) (i : Nat) (op : NestedOp) (rest : List (Nat × NestedOp))
      (out : List JSVal),
      runArrOps a ((i, op) :: rest) out =
        runArrOps a rest (runArrStep a out i op)) ∧
    (∀ (a : JSVal) (entries : List (Nat × NestedOp)) (out : List JSVal),
      (∀ p ∈ entries, isAddRemove p.2 = false) →
      (∀ p ∈ entries, p.1 < out.length) →
      (entries.map Prod.fst).Nodup →
      ∀ j : Nat, (runArrOps a entries out).getD j .undef =
        (match lookupKey entries j with
         | some sub => runOp sub.asOp (arrGet a j)
         | none => out.getD j .undef)) := by
  constructor
  · intro a i op rest out
    rw [runArrOps]
  · intro a entries out h1 h2 h3
    exact (runArrOps_noAR a entries out h1 h2 h3).2

theorem claim_C3_witness :
    (runArrOps (.arr [.num 1, .num 2]) [(0, .replace (.num 1) (.num 5))]
      [.num 1, .num 2]).getD 0 .undef = .num 5 := by
  have h := claim_C3.2 (.arr [.num 1, .num 2])
    [(0, .replace (.num 1) (.num 5))] [.num 1, .num 2]
    (by simp [isAddRemove]) (by simp) (by simp) 0
  simpa [lookupKey, NestedOp.asOp, runOp, arrGet, asElems] using h

/-- Claim C3 counterexample: two removals listed at indices 0 and 1,
applied to `[0, 1, 2]` in list order, delete the elements at positions
0 and then (after the first splice shifted everything) 2 of the
original array — the result is `[1]`, while descending-order
application would leave `[2]`: `runPatch` does not apply
insertions/removals in descending index order, and index drift does
occur for hand-built patches. -/
theorem claim_C3_counterexample :
    runPatch (make (Op.arrayOps [(0, .remove (.num 0)), (1, .remove (.num 1))]))
      (.arr [.num 0, .num 1, .num 2]) = .arr [.num 1] ∧
    JSVal.arr [.num 1] ≠ JSVal.arr [.num 2] := by
  constructor
  · simp [runPatch, make, runOp, runArrOps, runArrStep, spliceRemove, asElems]
  · simp

/-- Claim C4: compilation is not cycle-safe.  On a self-referential
shape (an environment whose only entry is a struct whose field refers
back to it), the compiler re-enters itself eagerly at every `Lazy`
node — there is no memoization — so no amount of unfolding fuel lets it
finish: `go` returns `none` for every fuel.  This models the source's
`go(ast.f())`, which recurses eagerly and overflows the stack on
recursive schemas (the repository's own lazy-schema test is skipped
with a "Maximum call stack size exceeded" TODO). -/
theorem claim_C4 : ∀ fuel : Nat,
    go [AST.typeLiteral [(PropKey.str "a", AST.lazyRef 0)] []] fuel
      (AST.lazyRef 0) = none :=
  go_cycle_none

/-- Claim C5 (amended): only the number leaf uses identity-style
(SameValue) equality; every other leaf shape compares with `===`, which
identifies `-0` with `0` (and distinguishes `NaN` from itself).  The
number-shape particulars of the claim do hold: `differ_number(NaN,NaN)`
is `Identical` and `differ_number(0,-0)` is `Replace(0,-0)`. -/
theorem claim_C5 :
    (∀ (env : List AST) (fuel : Nat) (f t : JSVal),
      diffOp env fuel .numberKeyword f t =
        some (if objectIs f t then .identical else .replace f t)) ∧
    (∀ (env : List AST) (fuel : Nat) (f t : JSVal),
      diffOp env fuel .stringKeyword f t =
        some (if strictEq f t then .identical else .replace f t)) ∧
    (∀ (env : List AST) (fuel : Nat) (f t : JSVal),
      diffOp env fuel .unknownKeyword f t =
        some (if strictEq f t then .identical else .replace f t)) ∧
    diffOp [] 0 .numberKeyword .nan .nan = some .identical ∧
    diffOp [] 0 .numberKeyword (.num 0) .negZero =
      some (.replace (.num 0) .negZero) := by
  refine ⟨?_, ?_, ?_, ?_, ?_⟩
  · intro env fuel f t
    simp [diffOp, go, make]
  · intro env fuel f t
    simp [diffOp, go, leafStrictDiffer, make]
  · intro env fuel f t
    simp [diffOp, go, leafStrictDiffer, make]
  · simp [diffOp, go, make, objectIs]
  · simp [diffOp, go, make, objectIs]

/-- Claim C5 counterexample: the `unknown` leaf differ returns
`Identical` on `(-0, 0)` although SameValue distinguishes them — so it
is not true that every primitive leaf shape compares with
identity-style equality. -/
theorem claim_C5_counterexample :
    diffOp [] 0 .unknownKeyword .negZero (.num 0) = some .identical ∧
    objectIs .negZero (.num 0) = false := by
  constructor
  · simp [diffOp, go, leafStrictDiffer, strictEq, make]
  · simp [objectIs]

/-- Claim C6 (amended): identity — for every shape and every conformant
value `a` containing no `NaN`, the compiled differ on `(a, a)` is
`Identical`.  The `NaN` restriction is necessary: `===`-based leaves
have `NaN !== NaN`, so the unrestricted claim fails. -/
theorem claim_C6 (env : List AST) (henv : wfEnv env = true) (fuel : Nat)
    (ast : AST) (hwf : wfB ast = true) (d : Differ)
    (hgo : go env fuel ast = some d) (a : JSVal)
    (hca : conformsB env fuel ast a = true) (hnn : noNaN a = true) :
    (d a a).op = Op.identical :=
  identity_sound env henv fuel ast hwf d hgo a hca hnn

theorem claim_C6_witness :
    (leafStrictDiffer (.str "x") (.str "x")).op = Op.identical :=
  claim_C6 [] rfl 0 .stringKeyword rfl leafStrictDiffer (by simp [go])
    (.str "x") (by simp [conformsB]) (by simp [noNaN])

/-- Claim C6 counterexample: over the `unknown` leaf shape,
`differ(NaN, NaN)` is `Replace(NaN, NaN)`, not `Identical`. -/
theorem claim_C6_counterexample :
    diffOp [] 0 .unknownKeyword .nan .nan = some (.replace .nan .nan) ∧
    Op.replace .nan .nan ≠ Op.identical := by
  constructor
  · simp [diffOp, go, leafStrictDiffer, strictEq, make]
  · simp

/-- Claim C7: the declared-field phase of the struct differ emits, per
declared field in declaration order, exactly the entries the claim
describes (recursive entry when present in both and non-identical,
`Remove(from[name])` when only in `from`, `Add(to[name])` when only in
`to`); the result is `ObjectOps` of the entries when non-empty and
`Identical` otherwise; and the record add/remove scenario behaves as
stated: `{} → {a:"v"}` diffs to `ObjectOps([("a", Add("v"))])`, whose
reverse is `ObjectOps([("a", Remove("v"))])`, and applying the reverse
to `{a:"v"}` yields `{}`. -/
theorem claim_C7 :
    (∀ (fields : List (PropKey × Differ)) (f t : JSVal),
      diffFields fields f t = specFieldEntries fields f t) ∧
    (∀ entries : List (PropKey × NestedOp),
      mkObjOp entries =
        if entries.isEmpty then Op.identical else Op.objectOps entries) ∧
    diffOp [] 1 (AST.typeLiteral [] [(SigParam.strParam, AST.stringKeyword)])
      (.obj []) (.obj [(.str "a", .str "v")]) =
      some (.objectOps [(.str "a", .add (.str "v"))]) ∧
    reverseOp (.objectOps [(.str "a", .add (.str "v"))]) =
      .objectOps [(.str "a", .remove (.str "v"))] ∧
    runOp (.objectOps [(.str "a", .remove (.str "v"))])
      (.obj [(.str "a", .str "v")]) = .obj [] := by
  refine ⟨diffFields_eq_spec, mkObjOp_spec, ?_, ?_, ?_⟩
  · simp [diffOp, go, goProps, goSigs, structDiffer, diffFields, diffSigs,
      diffSigOne, keysMatching, diffSigFromEntry, diffSigToEntry, asFields,
      hasOwn, getProp, lookupKey, keyMatches, mkObjOp, make, leafStrictDiffer]
  · simp [reverseOp, reverseEntriesK, reverseNestedOp]
  · simp [runOp, runObjOps, runObjStep, delField, asFields]

/-- Claim C8: lowering is all-or-nothing — `getJSONPatch` yields an
error (and no entry list at all) exactly when the operation tree
carries a non-string key on the path or a non-JSON value in an
add/replace entry, and otherwise yields the full ordered entry list. -/
theorem claim_C8 : ∀ op : Op,
    (getJSONPatch op).toOption =
      if badOp op then none else some (entriesOp op) :=
  getJSONPatch_toOption

/-- Claim C9: the pointer encoder concatenates, per segment, `/`
followed by the segment under the simultaneous per-character escape
`~ → ~0`, `/ → ~1`; and the two lowering scenarios hold: over a
string-keyed record, `{} → {"": ""}` lowers to an `add` at path `/`
and `{} → {"/": ""}` to an `add` at path `/~1`. -/
theorem claim_C9 :
    (∀ path : List String, pointer path = pointerSpec path) ∧
    diffLower [] 1 (AST.typeLiteral [] [(SigParam.strParam, AST.stringKeyword)])
      (.obj []) (.obj [(.str "", .str "")]) =
      some (.ok [.add "/" (.str "")]) ∧
    diffLower [] 1 (AST.typeLiteral [] [(SigParam.strParam, AST.stringKeyword)])
      (.obj []) (.obj [(.str "/", .str "")]) =
      some (.ok [.add "/~1" (.str "")]) := by
  refine ⟨pointer_spec, ?_, ?_⟩
  · simp [diffLower, go, goProps, goSigs, structDiffer, diffFields, diffSigs,
      diffSigOne, keysMatching, diffSigFromEntry, diffSigToEntry, asFields,
      hasOwn, getProp, lookupKey, keyMatches, mkObjOp, make, leafStrictDiffer,
      getJSONPatch, jpObjectOps, jpNested, validateString, validateJson,
      isJson, pointer, escapeSegment, replaceAllChar, String.join, bind,
      Except.bind, pure, Except.pure]
  · simp [diffLower, go, goProps, goSigs, structDiffer, diffFields, diffSigs,
      diffSigOne, keysMatching, diffSigFromEntry, diffSigToEntry, asFields,
      hasOwn, getProp, lookupKey, keyMatches, mkObjOp, make, leafStrictDiffer,
      getJSONPatch, jpObjectOps, jpNested, validateString, validateJson,
      isJson, pointer, escapeSegment, replaceAllChar, String.join, bind,
      Except.bind, pure, Except.pure]

/-- Claim C10 (amended): the top-level entries of a tuple differ's
operation are never `Add` or `Remove` — each position `i` is compared
as `from[i]` versus `to[i]`, a position populated on one side only
being read as `undefined` on the other — but the claim is false of the
whole op tree: a nested record diff inside a tuple element can still
contain `Add`/`Remove` entries. -/
theorem claim_C10 :
    (∀ (ds : List Differ) (f t : JSVal),
      (tupleDiffer ds f t).op = mkArrOp (diffElemsAux ds f t 0)) ∧
    (∀ (ds : List Differ) (f t : JSVal) (p : Nat × NestedOp),
      p ∈ diffElemsAux ds f t 0 →
      isAddRemove p.2 = false ∧
      p.2 = (((ds.getD p.1 default) (arrGet f p.1) (arrGet t p.1)).op).asNested) ∧
    (∀ (xs : List JSVal) (j : Nat), xs.length ≤ j →
      arrGet (.arr xs) j = .undef) := by
  refine ⟨?_, ?_, ?_⟩
  · intro ds f t
    rfl
  · intro ds f t p hp
    have hfacts := diffElemsAux_mem_facts ds f t 0 p hp
    refine ⟨hfacts.2.2, ?_⟩
    have hnd := diffElemsAux_nodup ds f t 0
    have hlk : lookupKey (diffElemsAux ds f t 0) p.1 = some p.2 :=
      lookupKey_eq_of_mem_nodup hp hnd
    rw [lookupKey_diffElemsAux ds f t 0 p.1 (by omega)
      (by simpa using hfacts.2.1)] at hlk
    rw [Nat.sub_zero] at hlk
    by_cases hid : isIdentical
        (((ds.getD p.1 default) (arrGet f p.1) (arrGet t p.1)).op) = true
    · rw [if_pos hid] at hlk
      cases hlk
    · rw [if_neg hid] at hlk
      exact (Option.some.inj hlk).symm
  · intro xs j hj
    show xs.getD j .undef = .undef
    rw [List.getD_eq_default _ _ hj]

theorem claim_C10_witness :
    isAddRemove (NestedOp.replace (.str "a") (.str "b")) = false ∧
    NestedOp.replace (.str "a") (.str "b") =
      ((([leafStrictDiffer].getD 0 default) (arrGet (.arr [.str "a"]) 0)
        (arrGet (.arr [.str "b"]) 0)).op).asNested :=
  claim_C10.2.1 [leafStrictDiffer] (.arr [.str "a"]) (.arr [.str "b"])
    (0, NestedOp.replace (.str "a") (.str "b"))
    (by simp [diffElemsAux, leafStrictDiffer, strictEq, arrGet, asElems,
      make, isIdentical, Op.asNested])

/-- Claim C10 counterexample: a tuple of one record element, diffing
`[{}]` against `[{a:"v"}]`, produces an op tree that does contain an
`Add` entry (inside the nested `ObjectOps`). -/
theorem claim_C10_counterexample :
    diffOp [] 1
      (AST.tuple [AST.typeLiteral [] [(SigParam.strParam, AST.stringKeyword)]])
      (.arr [.obj []]) (.arr [.obj [(.str "a", .str "v")]]) =
      some (.arrayOps [(0, .objectOps [(.str "a", .add (.str "v"))])]) := by
  simp [diffOp, go, goElems, goProps, goSigs, tupleDiffer, diffElemsAux,
    structDiffer, diffFields, diffSigs, diffSigOne, keysMatching,
    diffSigFromEntry, diffSigToEntry, asFields, asElems, arrGet, hasOwn,
    getProp, lookupKey, keyMatches, mkObjOp, mkArrOp, make, isIdentical,
    Op.asNested]

end Diff
